import Mathlib

/-!
Verification of the incremental ingestion-and-synchronization engine of the
tax-rag-ingest repository, against its natural-language specification.

The Python sources are shallowly embedded:
* `text_utils.py` (`clean_text`, `_split_long_para`, `chunk_text`) is embedded
  character-for-character over `List Char`.  Python's regular-expression calls
  (`re.sub`, `re.split` with fixed, concrete patterns) are translated into the
  structurally recursive scanners they denote.
* `ingest.py` / `upsert.py` (normalization, diff, chunk-reference building,
  embedding batch loop, delete phase, upsert phase) are embedded as pure
  functions over an explicit `Store` state; every committed database
  transaction produces one observable `Store` in the returned trace.
* `sha1` and the sentence-transformers embedding call are external
  capabilities; they are taken as parameters of the pipeline definitions.
  Wall-clock timestamps (`retrieved_at`) are not modelled: no claim refers
  to them.
-/

namespace TaxRag

/-- Decidable equality of `Except` results, for evaluating concrete runs. -/
instance {e a : Type} [DecidableEq e] [DecidableEq a] : DecidableEq (Except e a) := fun x y =>
  match x, y with
  | .ok u, .ok v =>
    if h : u = v then .isTrue (congrArg Except.ok h)
    else .isFalse (fun he => h (by cases he; rfl))
  | .error u, .error v =>
    if h : u = v then .isTrue (congrArg Except.error h)
    else .isFalse (fun he => h (by cases he; rfl))
  | .ok _, .error _ => .isFalse (fun he => Except.noConfusion he)
  | .error _, .ok _ => .isFalse (fun he => Except.noConfusion he)

/-! ## Character classes (Python `str.strip` whitespace, `[ \t]`, sentence punctuation) -/

/-- Whitespace for Python `str.strip()` (the characters relevant to this
corpus: ASCII whitespace, NEL, NBSP and the ideographic space used in
Japanese text). -/
def isPySpace (c : Char) : Bool :=
  c = ' ' || c = '\t' || c = '\n' || c = '\r' || c = '\x0b' || c = '\x0c' ||
  c = '\x1c' || c = '\x1d' || c = '\x1e' || c = '\x1f' || c = '\x85' ||
  c = ' ' || c = '　'

/-- The character class `[ \t]` of `re.sub(r"[ \t]{2,}", " ", ...)`. -/
def isSpTab (c : Char) : Bool := c = ' ' || c = '\t'

/-- Sentence-terminal punctuation of `re.split(r"(。|\.|！|!|？|\?)", para)`. -/
def isPunc (c : Char) : Bool :=
  c = '。' || c = '.' || c = '！' || c = '!' || c = '？' || c = '?'

/-- The two-character paragraph separator `"\n\n"`. -/
def nlnl : List Char := ['\n', '\n']

/-! ## `clean_text` (text_utils.py lines 4-13) -/

/-- `text.replace("\r\n", "\n").replace("\r", "\n")`: the two sequential
single-pass replacements fuse into one left-to-right scan. -/
def replaceCR : List Char → List Char
  | [] => []
  | c :: rest =>
    if c = '\r' then
      match rest with
      | c2 :: rest2 => if c2 = '\n' then '\n' :: replaceCR rest2 else '\n' :: replaceCR (c2 :: rest2)
      | [] => ['\n']
    else c :: replaceCR rest

/-- Emit a pending run of `n` newlines as `re.sub(r"\n{3,}", "\n\n", ...)`
leaves it: runs of three or more collapse to two. -/
def flushNL (n : Nat) : List Char := List.replicate (min n 2) '\n'

/-- Scanner for `re.sub(r"\n{3,}", "\n\n", text)`; `n` counts the newline run
read so far. -/
def squeezeNLAux (n : Nat) : List Char → List Char
  | [] => flushNL n
  | c :: rest =>
    if c = '\n' then squeezeNLAux (n + 1) rest
    else flushNL n ++ c :: squeezeNLAux 0 rest

/-- `re.sub(r"\n{3,}", "\n\n", text)`. -/
def squeezeNL (l : List Char) : List Char := squeezeNLAux 0 l

/-- Prefix a character onto the first piece of a split result. -/
def consHead (c : Char) : List (List Char) → List (List Char)
  | [] => [[c]]
  | l :: ls => (c :: l) :: ls

/-- Split a character list at every `'\n'` (Python `text.split("\n")`). -/
def splitOnNL : List Char → List (List Char)
  | [] => [[]]
  | c :: rest =>
    if c = '\n' then [] :: splitOnNL rest else consHead c (splitOnNL rest)

/-- Python `line.strip()` for the leading side. -/
def dropLeadWs (l : List Char) : List Char := l.dropWhile (fun c => isPySpace c)

/-- Python `s.strip()`: drop `isPySpace` characters from both ends. -/
def pyStrip (l : List Char) : List Char :=
  ((l.dropWhile (fun c => isPySpace c)).reverse.dropWhile
    (fun c => isPySpace c)).reverse

/-- Emit a pending run of `[ \t]` characters as
`re.sub(r"[ \t]{2,}", " ", ...)` leaves it: runs of two or more collapse to a
single space, a run of one is kept as the original character. -/
def emitRun (run : List Char) : List Char :=
  if 2 ≤ run.length then [' '] else run

/-- Scanner for `re.sub(r"[ \t]{2,}", " ", text)`; `run` is the space/tab run
read so far. -/
def squeezeSPAux (run : List Char) : List Char → List Char
  | [] => emitRun run
  | c :: rest =>
    if isSpTab c then squeezeSPAux (run ++ [c]) rest
    else emitRun run ++ c :: squeezeSPAux [] rest

/-- `re.sub(r"[ \t]{2,}", " ", text)`. -/
def squeezeSP (l : List Char) : List Char := squeezeSPAux [] l

/-- `"\n".join(line.strip() for line in text.split("\n"))`. -/
def stripLines (l : List Char) : List (List Char) :=
  (splitOnNL l).map pyStrip

/-- `text_utils.clean_text`: normalize line endings, collapse blank-line
runs, strip every line, collapse horizontal whitespace runs, strip. -/
def clean_text (l : List Char) : List Char :=
  pyStrip (squeezeSP (List.intercalate ['\n'] (stripLines (squeezeNL (replaceCR l)))))

/-! ## `_split_long_para` (text_utils.py lines 15-46) -/

/-- `re.split(r"(。|\.|！|!|？|\?)", para)` with its capturing group, paired up
exactly as the Python loop reads `parts[i]` and `parts[i+1]`: a list of
(segment, punctuation) pairs, the final pair carrying empty punctuation. -/
def splitSents : List Char → List (List Char × List Char)
  | [] => [([], [])]
  | c :: rest =>
    if isPunc c then ([], [c]) :: splitSents rest
    else
      match splitSents rest with
      | [] => [([c], [])]
      | (s, p) :: ls => ((c :: s), p) :: ls

/-- The sentence-regrouping loop of `_split_long_para` (lines 21-36): greedily
concatenate stripped pieces while `len(buf) + len(piece) + 1 <= max_chars`. -/
def sentLoop (maxc : Nat) : List Char → List (List Char) → List (List Char × List Char) → List (List Char)
  | buf, acc, [] => acc ++ (if buf = [] then [] else [buf])
  | buf, acc, (seg, punc) :: rest =>
    let piece := pyStrip (seg ++ punc)
    if piece = [] then sentLoop maxc buf acc rest
    else if buf.length + piece.length + 1 ≤ maxc then
      sentLoop maxc (buf ++ piece) acc rest
    else
      sentLoop maxc piece (acc ++ (if buf = [] then [] else [buf])) rest

/-- Fueled slicing loop for
`for j in range(0, len(s), max_chars): out.append(s[j:j+max_chars])`.
The fuel is only a structural-termination device; `hardSplit` instantiates it
with the list length, which the fuel-irrelevance lemma below shows is enough. -/
def hardSplitAux (maxc : Nat) : Nat → List Char → List (List Char)
  | 0, _ => []
  | _ + 1, [] => []
  | fuel + 1, s =>
    if maxc = 0 then [] else s.take maxc :: hardSplitAux maxc fuel (s.drop maxc)

/-- `for j in range(0, len(s), max_chars): out.append(s[j:j+max_chars])`.
Python raises `ValueError` for a zero step; that case is unreachable here
because every caller guards it with positive `max_chars` hypotheses. -/
def hardSplit (maxc : Nat) (s : List Char) : List (List Char) :=
  hardSplitAux maxc s.length s

theorem hardSplitAux_congr (maxc : Nat) :
    ∀ f1 f2 s, (s : List Char).length ≤ f1 → s.length ≤ f2 →
      hardSplitAux maxc f1 s = hardSplitAux maxc f2 s := by
  intro f1
  induction f1 with
  | zero =>
    intro f2 s h1 _
    have hs : s = [] := List.length_eq_zero.mp (Nat.le_zero.mp h1)
    subst hs
    cases f2 <;> rfl
  | succ f ih =>
    intro f2 s h1 h2
    cases s with
    | nil => cases f2 <;> rfl
    | cons c cs =>
      cases f2 with
      | zero => exact absurd h2 (by simp)
      | succ f2' =>
        show (if maxc = 0 then [] else _) = (if maxc = 0 then [] else _)
        by_cases hm : maxc = 0
        · simp [hm]
        · simp only [if_neg hm]
          have hlen : ((c :: cs).drop maxc).length ≤ f := by
            simp only [List.length_drop, List.length_cons]
            simp only [List.length_cons] at h1
            omega
          have hlen2 : ((c :: cs).drop maxc).length ≤ f2' := by
            simp only [List.length_drop, List.length_cons]
            simp only [List.length_cons] at h2
            omega
          rw [ih f2' _ hlen hlen2]

theorem hardSplit_step (maxc : Nat) (s : List Char) (hm : maxc ≠ 0) (hs : s ≠ []) :
    hardSplit maxc s = s.take maxc :: hardSplit maxc (s.drop maxc) := by
  unfold hardSplit
  cases s with
  | nil => exact absurd rfl hs
  | cons c cs =>
    show (if maxc = 0 then [] else _) = _
    simp only [if_neg hm]
    congr 1
    exact hardSplitAux_congr maxc _ _ _
      (by
        simp only [List.length_drop, List.length_cons]
        have := Nat.pos_of_ne_zero hm
        omega)
      (Nat.le_refl _)

/-- `text_utils._split_long_para`. -/
def splitLongPara (maxc : Nat) (para : List Char) : List (List Char) :=
  if para.length ≤ maxc then [para]
  else
    (sentLoop maxc [] [] (splitSents para)).flatMap
      (fun s => if s.length ≤ maxc then [s] else hardSplit maxc s)

/-! ## `chunk_text` (text_utils.py lines 48-77) -/

/-- Skip a run of newlines (the rest of a maximal `\n{2,}` separator match). -/
def dropNLRun : List Char → List Char
  | [] => []
  | c :: rest => if c = '\n' then dropNLRun rest else c :: rest

theorem dropNLRun_length_le : ∀ l : List Char, (dropNLRun l).length ≤ l.length
  | [] => Nat.le_refl _
  | c :: rest => by
    unfold dropNLRun
    by_cases hc : c = '\n'
    · simp only [hc, if_pos rfl]
      exact Nat.le_trans (dropNLRun_length_le rest) (Nat.le_succ _)
    · simp only [if_neg hc]
      exact Nat.le_refl _

/-- Fueled scanner for `re.split(r"\n{2,}", text)`: a maximal run of two or
more newlines is one separator, a single newline stays inside its piece.
The fuel is only a structural-termination device; `splitBlank` instantiates
it with the list length, which the fuel-irrelevance lemma shows is enough. -/
def splitBlankAux : Nat → List Char → List (List Char)
  | 0, _ => [[]]
  | _ + 1, [] => [[]]
  | fuel + 1, c :: rest =>
    if c = '\n' ∧ rest.head? = some '\n' then [] :: splitBlankAux fuel (dropNLRun rest.tail)
    else consHead c (splitBlankAux fuel rest)

/-- `re.split(r"\n{2,}", text)`. -/
def splitBlank (l : List Char) : List (List Char) := splitBlankAux l.length l

theorem splitBlankAux_congr :
    ∀ f1 f2 l, (l : List Char).length ≤ f1 → l.length ≤ f2 →
      splitBlankAux f1 l = splitBlankAux f2 l := by
  intro f1
  induction f1 with
  | zero =>
    intro f2 l h1 _
    have hl : l = [] := List.length_eq_zero.mp (Nat.le_zero.mp h1)
    subst hl
    cases f2 <;> rfl
  | succ f ih =>
    intro f2 l h1 h2
    cases l with
    | nil => cases f2 <;> rfl
    | cons c cs =>
      cases f2 with
      | zero => exact absurd h2 (by simp)
      | succ f2' =>
        show (if _ then _ else _) = (if _ then _ else _)
        simp only [List.length_cons] at h1 h2
        by_cases hb : c = '\n' ∧ cs.head? = some '\n'
        · simp only [if_pos hb]
          have hd := dropNLRun_length_le cs.tail
          have ht : cs.tail.length ≤ cs.length := by
            cases cs <;> simp
          rw [ih f2' _ (by omega) (by omega)]
        · simp only [if_neg hb]
          unfold consHead
          rw [ih f2' _ (by omega) (by omega)]

theorem splitBlankAux_cons (f : Nat) (c : Char) (cs : List Char) :
    splitBlankAux (f + 1) (c :: cs) =
      if c = '\n' ∧ cs.head? = some '\n' then [] :: splitBlankAux f (dropNLRun cs.tail)
      else consHead c (splitBlankAux f cs) := rfl

theorem splitBlank_sep (rest : List Char) :
    splitBlank ('\n' :: '\n' :: rest) = [] :: splitBlank (dropNLRun rest) := by
  show splitBlankAux ('\n' :: '\n' :: rest).length _ = _
  rw [List.length_cons, splitBlankAux_cons, if_pos (⟨rfl, rfl⟩ :
    ('\n' : Char) = '\n' ∧ ('\n' :: rest).head? = some '\n')]
  show [] :: splitBlankAux ('\n' :: rest).length (dropNLRun rest) = _
  congr 1
  exact splitBlankAux_congr _ _ _
    (Nat.le_trans (dropNLRun_length_le rest) (by simp)) (Nat.le_refl _)

theorem splitBlank_cons (c : Char) (cs : List Char)
    (h : ¬(c = '\n' ∧ cs.head? = some '\n')) :
    splitBlank (c :: cs) = consHead c (splitBlank cs) := by
  show splitBlankAux (c :: cs).length _ = _
  rw [List.length_cons, splitBlankAux_cons, if_neg h]
  rfl

/-- The last `n` characters of `l` (Python `l[-n:]` for `0 < n`). -/
def lastN (n : Nat) (l : List Char) : List Char := l.drop (l.length - n)

/-- `tail = buf[-overlap_chars:] if overlap_chars > 0 and len(buf) > overlap_chars else ""`
(line 70). -/
def chunkTail (ov : Nat) (buf : List Char) : List Char :=
  if 0 < ov ∧ ov < buf.length then lastN ov buf else []

/-- `buf = (tail + "\n\n" + p).strip() if tail else p` (line 71). -/
def nextBuf (ov : Nat) (buf p : List Char) : List Char :=
  if chunkTail ov buf = [] then p else pyStrip (chunkTail ov buf ++ nlnl ++ p)

/-- The chunk-packing loop of `chunk_text` (lines 59-74), producing the raw
chunk list before the final per-chunk cleanup; on closing a chunk the next
buffer is seeded by `nextBuf` from the closed buffer's overlap tail. -/
def chunkLoop (maxc ov : Nat) : List Char → List (List Char) → List (List Char) → List (List Char)
  | buf, chunks, [] => chunks ++ (if buf = [] then [] else [buf])
  | buf, chunks, p :: rest =>
    if buf = [] then chunkLoop maxc ov p chunks rest
    else if buf.length + 2 + p.length ≤ maxc then
      chunkLoop maxc ov (buf ++ nlnl ++ p) chunks rest
    else
      chunkLoop maxc ov (nextBuf ov buf p) (chunks ++ [buf]) rest

/-- The paragraph list of `chunk_text` (line 53). -/
def parasOf (t : List Char) : List (List Char) :=
  ((splitBlank t).map pyStrip).filter (fun p => ¬p = [])

/-- The expanded piece list of `chunk_text` (lines 55-57). -/
def expandedOf (maxc : Nat) (t : List Char) : List (List Char) :=
  (parasOf t).flatMap (splitLongPara maxc)

/-- The raw chunks of `chunk_text`: the contents of the Python variable
`chunks` at line 76, before the final cleanup. -/
def chunkRaw (text : List Char) (maxc ov : Nat) : List (List Char) :=
  let t := clean_text text
  if t = [] then [] else chunkLoop maxc ov [] [] (expandedOf maxc t)

/-- `text_utils.chunk_text`. -/
def chunk_text (text : List Char) (maxc ov : Nat) : List (List Char) :=
  ((chunkRaw text maxc ov).map clean_text).filter (fun c => ¬c = [])

/-! ## Data model (documents/chunks relations of §6, ingest.py, upsert.py)

`sha1` is an external capability (`hashlib`) and is passed as a parameter;
the embedding model call likewise.  `retrieved_at` timestamps are not
modelled (no claim mentions them). -/

/-- A raw collector document (`{source, url, title, content}`). -/
structure RawDoc where
  source : String
  url : String
  title : String
  content : String
  deriving Repr, DecidableEq

/-- A normalized in-memory document (ingest.py lines 199-208). -/
structure NDoc where
  id : String
  source : String
  title : String
  url : String
  content_hash : String
  content : String
  deriving Repr, DecidableEq

/-- A `public.documents` row (modulo `retrieved_at`). -/
structure DocRow where
  id : String
  source : String
  title : String
  url : String
  content_hash : String
  is_active : Bool
  deriving Repr, DecidableEq

/-- A `public.chunks` row.  The embedding is kept as the numeric vector the
gateway returned; `_vec_to_pgvector` string formatting is a storage detail
no claim depends on. -/
structure ChunkRow where
  doc_id : String
  chunk_index : Nat
  content : String
  content_hash : String
  embedding : List Int
  deriving Repr, DecidableEq

/-- The persistent store: the two relations of §6. -/
structure Store where
  documents : List DocRow
  chunks : List ChunkRow
  deriving Repr, DecidableEq

/-- The run-configuration options the synchronizer core reads. -/
structure Config where
  diffEnabled : Bool
  maxChars : Nat
  overlapChars : Nat
  batchSize : Nat
  deriving Repr, DecidableEq

/-- A `docs_meta` entry passed to the upserter (ingest.py lines 290-299). -/
structure DocMeta where
  id : String
  source : String
  title : String
  url : String
  content_hash : String
  deriving Repr, DecidableEq

/-- One value of `chunks_by_doc[doc_id]` (ingest.py lines 266-275). -/
structure ChunkRec where
  chunk_index : Nat
  content : String
  content_hash : String
  embedding : List Int
  deriving Repr, DecidableEq

/-- A `(doc_id, idx, content, hash)` entry of `all_chunk_refs`. -/
structure ChunkRef where
  doc_id : String
  idx : Nat
  content : String
  hash : String
  deriving Repr, DecidableEq

/-- Python-dict lookup on an insertion-ordered association list: the most
recently inserted binding wins. -/
def dictGet {κ : Type} [DecidableEq κ] : List (κ × String) → κ → Option String
  | [], _ => none
  | (k, v) :: rest, key =>
    match dictGet rest key with
    | some v2 => some v2
    | none => if k = key then some v else none

/-! ## Normalization (ingest.py lines 185-208) -/

/-- One iteration of the normalization loop: default the title to the url,
clean the content, silently drop the document when
`not content or len(content) < 80`, otherwise build the canonical record
with `id = sha1(source + "|" + url)` and `content_hash = sha1(content)`. -/
def norm1 (sha1 : String → String) (d : RawDoc) : Option NDoc :=
  let title := if d.title = "" then d.url else d.title
  let content := clean_text d.content.data
  if content = [] ∨ content.length < 80 then none
  else
    some { id := sha1 (d.source ++ "|" ++ d.url), source := d.source,
           title := title, url := d.url,
           content_hash := sha1 (String.mk content), content := String.mk content }

/-- The `normalized` working set: the loop appends surviving documents in
input order, keeping every occurrence. -/
def normalizeDocs (sha1 : String → String) (docs : List RawDoc) : List NDoc :=
  docs.filterMap (norm1 sha1)

/-! ## Change detection (ingest.py lines 117-131 and 210-227) -/

/-- `ingest.fetch_existing_hashes`: the stored `(source, url) → content_hash`
pairs for the requested sources (the SQL result in row order, read through
`dictGet` exactly as the Python dict comprehension is). -/
def fetch_existing_hashes (st : Store) (sources : List String) : List ((String × String) × String) :=
  if sources = [] then []
  else (st.documents.filter (fun r => decide (r.source ∈ sources))).map
    (fun r => ((r.source, r.url), r.content_hash))

/-- The diff filter (ingest.py lines 222-225): keep a document when the
stored hash for its `(source, url)` is absent or different. -/
def changedSet (existing : List ((String × String) × String)) (normalized : List NDoc) : List NDoc :=
  normalized.filter (fun d => ¬dictGet existing (d.source, d.url) = some d.content_hash)

/-! ## Chunk references and the embedding batch loop (ingest.py lines 240-264) -/

/-- One changed document's block of chunk references: its chunks enumerated
from 0 with their hashes. -/
def blockOf (sha1 : String → String) (maxc ov : Nat) (d : NDoc) : List ChunkRef :=
  ((chunk_text d.content.data maxc ov).map String.mk).enum.map
    (fun ic => { doc_id := d.id, idx := ic.1, content := ic.2, hash := sha1 ic.2 })

/-- `all_chunk_refs`: the changed documents' blocks in order. -/
def chunkRefsOf (sha1 : String → String) (maxc ov : Nat) (changed : List NDoc) : List ChunkRef :=
  changed.flatMap (blockOf sha1 maxc ov)

/-- Fueled batch loop over `range(0, len(texts), batch)`: each batch is one
`embed_texts` call; an exception anywhere aborts the whole loop (there is no
try/except around it in `main`). -/
def embedLoopAux (embed : List String → Except Unit (List (List Int))) (batch : Nat) :
    Nat → List String → Except Unit (List (List Int))
  | _, [] => .ok []
  | 0, _ :: _ => .error ()
  | fuel + 1, t :: ts =>
    match embed ((t :: ts).take batch) with
    | .error e => .error e
    | .ok embs =>
      match embedLoopAux embed batch fuel ((t :: ts).drop batch) with
      | .error e => .error e
      | .ok rest => .ok (embs ++ rest)

/-- The embedding loop of `main` (lines 256-264).  A zero batch size makes
Python's `range` raise, so it is modelled as an error. -/
def embedLoop (embed : List String → Except Unit (List (List Int))) (batch : Nat)
    (texts : List String) : Except Unit (List (List Int)) :=
  if batch = 0 then .error () else embedLoopAux embed batch texts.length texts

/-- `chunks_by_doc.setdefault(doc_id, []).append(rec)`: append under the key,
creating it at the end on first use. -/
def addRec (did : String) (r : ChunkRec) : List (String × List ChunkRec) → List (String × List ChunkRec)
  | [] => [(did, [r])]
  | (k, rs) :: rest =>
    if k = did then (k, rs ++ [r]) :: rest else (k, rs) :: addRec did r rest

/-- The `chunks_by_doc` record built from one chunk reference and its
embedding vector. -/
def recOf (re : ChunkRef × List Int) : ChunkRec :=
  { chunk_index := re.1.idx, content := re.1.content,
    content_hash := re.1.hash, embedding := re.2 }

/-- `chunks_by_doc` built by zipping the chunk references with the embedding
list (ingest.py lines 266-275). -/
def buildChunksByDoc (refs : List ChunkRef) (embs : List (List Int)) : List (String × List ChunkRec) :=
  (refs.zip embs).foldl (fun m re => addRec re.1.doc_id (recOf re) m) []

/-- `chunks_by_doc.get(did, [])`. -/
def getRecs (m : List (String × List ChunkRec)) (did : String) : List ChunkRec :=
  match m.find? (fun e => decide (e.1 = did)) with
  | some e => e.2
  | none => []

/-! ## The delete phase (ingest.py lines 134-142 and 277-287) -/

/-- `ingest.delete_chunks_for_docs`, applied and committed as its own
transaction by `main` before the upsert step. -/
def delete_chunks_for_docs (st : Store) (doc_ids : List String) : Store :=
  if doc_ids = [] then st
  else { st with chunks := st.chunks.filter (fun c => ¬c.doc_id ∈ doc_ids) }

/-! ## The upsert transaction (upsert.py lines 33-150) -/

/-- A `docs_meta` record of `main` (ingest.py lines 290-299). -/
def metaOf (d : NDoc) : DocMeta :=
  { id := d.id, source := d.source, title := d.title, url := d.url,
    content_hash := d.content_hash }

/-- `upsert._doc_id` and the `content_hash` fallback (lines 42-50); the meta
records `main` builds carry no `content` key, so the fallback hashes the
empty string. -/
def normalizeMeta (sha1 : String → String) (d : DocMeta) : DocMeta :=
  { d with id := if d.id = "" then d.source ++ ":" ++ d.url else d.id,
           content_hash := if d.content_hash = "" then sha1 "" else d.content_hash }

/-- One row of the `insert ... on conflict (id) do update ... where
content_hash is distinct from excluded.content_hash` statement: insert when
the id is absent, overwrite the row when present with a different hash. -/
def upsertDocRow (docs : List DocRow) (row : DocRow) : List DocRow :=
  if docs.any (fun r => decide (r.id = row.id)) then
    docs.map (fun r => if r.id = row.id ∧ ¬r.content_hash = row.content_hash then row else r)
  else docs ++ [row]

/-- One inserted `public.chunks` row (upsert.py lines 114-129), with the
`content_hash` fallback for a missing hash. -/
def rowOf (sha1 : String → String) (did : String) (c : ChunkRec) : ChunkRow :=
  { doc_id := did, chunk_index := c.chunk_index, content := c.content,
    content_hash := if c.content_hash = "" then sha1 c.content else c.content_hash,
    embedding := c.embedding }

/-- `upsert.upsert_documents_and_chunks`: one transaction that re-reads the
stored hashes by id, skips hash-unchanged documents entirely, upserts the
changed documents' metadata rows, deletes their chunk rows and inserts the
newly computed ones (the `PAGE`d insert loop writes the same rows in the
same order and is folded into one append). -/
def upsert_documents_and_chunks (sha1 : String → String) (st : Store)
    (docs : List DocMeta) (chunksByDoc : List (String × List ChunkRec)) : Store :=
  if docs = [] then st
  else
    let normalizedDocs := docs.map (normalizeMeta sha1)
    let docIds : List String := normalizedDocs.map (fun d => d.id)
    let existing : List (String × String) :=
      (st.documents.filter (fun r => decide (r.id ∈ docIds))).map
        (fun r => (r.id, r.content_hash))
    let changed := normalizedDocs.filter
      (fun d => ¬dictGet existing d.id = some d.content_hash)
    if changed = [] then st
    else
      let changedIds := changed.map (fun d => d.id)
      let docsRows : List DocRow := changed.map (fun d =>
        { id := d.id, source := d.source, title := d.title, url := d.url,
          content_hash := d.content_hash, is_active := true })
      let chunkRows : List ChunkRow := changedIds.flatMap (fun did =>
        (getRecs chunksByDoc did).map (rowOf sha1 did))
      { documents := docsRows.foldl upsertDocRow st.documents,
        chunks := st.chunks.filter (fun c => ¬c.doc_id ∈ changedIds) ++ chunkRows }

/-! ## The full run (ingest.main, lines 145-303)

The returned trace lists every committed store state after the initial one:
the delete phase commits its own transaction (lines 277-287), then the
upsert commits; a reader can observe the store between the two. -/

/-- The work set of one run: the normalized documents, diff-filtered when
`diff.enabled` and anything was fetched (ingest.py lines 210-227). -/
def changedDocsOf (sha1 : String → String) (cfg : Config) (docs : List RawDoc) (st : Store) : List NDoc :=
  let normalized := normalizeDocs sha1 docs
  if cfg.diffEnabled ∧ 0 < normalized.length then
    changedSet (fetch_existing_hashes st (normalized.map (fun d => d.source))) normalized
  else normalized

/-- `ingest.main` from normalization onwards: collectors have produced
`docs`.  Returns the observable committed states and the outcome; an
embedding-batch exception propagates out of `main` before any write. -/
def mainRun (sha1 : String → String) (embed : List String → Except Unit (List (List Int)))
    (cfg : Config) (docs : List RawDoc) (st : Store) : List Store × Except Unit Store :=
  let changedDocs := changedDocsOf sha1 cfg docs st
  if changedDocs = [] then ([], .ok st)
  else
    let refs := chunkRefsOf sha1 cfg.maxChars cfg.overlapChars changedDocs
    match embedLoop embed cfg.batchSize (refs.map (fun r => r.content)) with
    | .error e => ([], .error e)
    | .ok embs =>
      let st1 := delete_chunks_for_docs st (changedDocs.map (fun d => d.id))
      let st2 := upsert_documents_and_chunks sha1 st1 (changedDocs.map metaOf)
        (buildChunksByDoc refs embs)
      ([st1, st2], .ok st2)



/-! ## Basic facts about `List.intercalate` with the newline separator -/

theorem intercalate_nil (sep : List Char) : List.intercalate sep [] = [] := by
  simp [List.intercalate]

theorem intercalate_single (sep a : List Char) : List.intercalate sep [a] = a := by
  simp [List.intercalate]

theorem intercalate_cons2 (sep a b : List Char) (ls : List (List Char)) :
    List.intercalate sep (a :: b :: ls) = a ++ sep ++ List.intercalate sep (b :: ls) := by
  simp [List.intercalate, List.intersperse]

theorem intercalate_consHead (c : Char) :
    ∀ ls : List (List Char), ls ≠ [] →
      List.intercalate ['\n'] (consHead c ls) = c :: List.intercalate ['\n'] ls
  | [], h => absurd rfl h
  | [a], _ => by simp [consHead, intercalate_single]
  | a :: b :: ls, _ => by
    show List.intercalate ['\n'] ((c :: a) :: b :: ls) = _
    rw [intercalate_cons2, intercalate_cons2]
    simp

theorem splitOnNL_ne_nil : ∀ l : List Char, splitOnNL l ≠ []
  | [] => by simp [splitOnNL]
  | c :: rest => by
    unfold splitOnNL
    split
    · simp
    · unfold consHead
      split <;> simp

theorem splitOnNL_join : ∀ l : List Char, List.intercalate ['\n'] (splitOnNL l) = l
  | [] => intercalate_single _ _
  | c :: rest => by
    unfold splitOnNL
    split
    · rename_i hc
      cases h : splitOnNL rest with
      | nil => exact absurd h (splitOnNL_ne_nil rest)
      | cons x xs =>
        rw [intercalate_cons2, ← h, splitOnNL_join rest, hc]
        rfl
    · rw [intercalate_consHead c _ (splitOnNL_ne_nil rest), splitOnNL_join rest]

/-! ## Length bounds: `clean_text` never lengthens its input (claim C4) -/

theorem length_dropWhile_le_mine (p : Char → Bool) (l : List Char) :
    (l.dropWhile p).length ≤ l.length := by
  induction l with
  | nil => simp
  | cons c cs ih =>
    simp only [List.dropWhile_cons]
    split
    · exact Nat.le_trans ih (Nat.le_succ _)
    · exact Nat.le_refl _

theorem pyStrip_length_le (l : List Char) : (pyStrip l).length ≤ l.length := by
  unfold pyStrip
  rw [List.length_reverse]
  calc ((l.dropWhile (fun c => isPySpace c)).reverse.dropWhile (fun c => isPySpace c)).length
      ≤ (l.dropWhile (fun c => isPySpace c)).reverse.length :=
        length_dropWhile_le_mine _ _
    _ = (l.dropWhile (fun c => isPySpace c)).length := List.length_reverse _
    _ ≤ l.length := length_dropWhile_le_mine _ _

theorem replaceCR_crnl (rest : List Char) :
    replaceCR ('\r' :: '\n' :: rest) = '\n' :: replaceCR rest := by
  simp [replaceCR]

theorem replaceCR_cr_cons (c2 : Char) (rest : List Char) (h : ¬c2 = '\n') :
    replaceCR ('\r' :: c2 :: rest) = '\n' :: replaceCR (c2 :: rest) := by
  show (if c2 = '\n' then '\n' :: replaceCR rest else '\n' :: replaceCR (c2 :: rest)) = _
  rw [if_neg h]

theorem replaceCR_cr_nil : replaceCR ['\r'] = ['\n'] := rfl

theorem replaceCR_cons (c : Char) (rest : List Char) (h : ¬c = '\r') :
    replaceCR (c :: rest) = c :: replaceCR rest := by
  conv_lhs => unfold replaceCR
  rw [if_neg h]

theorem replaceCR_length_le : ∀ l : List Char, (replaceCR l).length ≤ l.length
  | [] => Nat.le_refl _
  | c :: rest => by
    by_cases hc : c = '\r'
    · subst hc
      cases rest with
      | nil => simp [replaceCR_cr_nil]
      | cons c2 rest2 =>
        by_cases hc2 : c2 = '\n'
        · subst hc2
          have := replaceCR_length_le rest2
          rw [replaceCR_crnl]
          simp only [List.length_cons]
          omega
        · have := replaceCR_length_le (c2 :: rest2)
          rw [replaceCR_cr_cons c2 rest2 hc2]
          simp only [List.length_cons] at this ⊢
          omega
    · have := replaceCR_length_le rest
      rw [replaceCR_cons c rest hc]
      simp only [List.length_cons]
      omega

theorem squeezeNLAux_length_le : ∀ (l : List Char) (n : Nat),
    (squeezeNLAux n l).length ≤ min n 2 + l.length
  | [], n => by simp [squeezeNLAux, flushNL]
  | c :: rest, n => by
    unfold squeezeNLAux
    split
    · have := squeezeNLAux_length_le rest (n + 1)
      simp only [List.length_cons]
      omega
    · have := squeezeNLAux_length_le rest 0
      simp only [List.length_append, List.length_cons, flushNL, List.length_replicate]
      omega

theorem intercalate_map_length_le (f : List Char → List Char)
    (hf : ∀ x, (f x).length ≤ x.length) :
    ∀ ls : List (List Char),
      (List.intercalate ['\n'] (ls.map f)).length ≤ (List.intercalate ['\n'] ls).length
  | [] => by simp [intercalate_nil]
  | [a] => by simpa only [List.map_cons, List.map_nil, intercalate_single] using hf a
  | a :: b :: ls => by
    simp only [List.map_cons]
    rw [intercalate_cons2, intercalate_cons2]
    have h1 := intercalate_map_length_le f hf (b :: ls)
    simp only [List.map_cons] at h1
    have ha := hf a
    simp only [List.length_append]
    omega

theorem stripLines_join_length_le (l : List Char) :
    (List.intercalate ['\n'] (stripLines l)).length ≤ l.length := by
  unfold stripLines
  calc (List.intercalate ['\n'] ((splitOnNL l).map pyStrip)).length
      ≤ (List.intercalate ['\n'] (splitOnNL l)).length :=
        intercalate_map_length_le pyStrip pyStrip_length_le _
    _ = l.length := by rw [splitOnNL_join]

theorem emitRun_length_le (r : List Char) : (emitRun r).length ≤ r.length := by
  unfold emitRun
  split
  · rename_i h
    simp only [List.length_cons, List.length_nil]
    omega
  · exact Nat.le_refl _

theorem squeezeSPAux_length_le : ∀ (l run : List Char),
    (squeezeSPAux run l).length ≤ run.length + l.length
  | [], run => by simpa [squeezeSPAux] using emitRun_length_le run
  | c :: rest, run => by
    unfold squeezeSPAux
    split
    · have := squeezeSPAux_length_le rest (run ++ [c])
      simp only [List.length_append, List.length_cons, List.length_nil] at this ⊢
      omega
    · have h1 := squeezeSPAux_length_le rest []
      have h2 := emitRun_length_le run
      simp only [List.length_append, List.length_cons, List.length_nil] at h1 ⊢
      omega

theorem clean_text_length_le (l : List Char) : (clean_text l).length ≤ l.length := by
  have h1 := replaceCR_length_le l
  have h2 := squeezeNLAux_length_le (replaceCR l) 0
  have h3 := stripLines_join_length_le (squeezeNLAux 0 (replaceCR l))
  have h4 := squeezeSPAux_length_le
    (List.intercalate ['\n'] (stripLines (squeezeNLAux 0 (replaceCR l)))) []
  have h5 := pyStrip_length_le
    (squeezeSPAux [] (List.intercalate ['\n'] (stripLines (squeezeNLAux 0 (replaceCR l)))))
  unfold clean_text squeezeSP squeezeNL
  simp only [List.length_nil] at h4
  omega

/-! ## Length bounds: every expanded piece is at most `max_chars` long -/

theorem hardSplitAux_bound (maxc : Nat) : ∀ (f : Nat) (s : List Char),
    ∀ p ∈ hardSplitAux maxc f s, p.length ≤ maxc
  | 0, s => by simp [hardSplitAux]
  | f + 1, [] => by simp [hardSplitAux]
  | f + 1, c :: cs => by
    intro p hp
    unfold hardSplitAux at hp
    split at hp
    · simp at hp
    · rcases List.mem_cons.mp hp with h | h
      · subst h; exact List.length_take_le _ _
      · exact hardSplitAux_bound maxc f _ p h

theorem splitLongPara_bound (maxc : Nat) (para : List Char) :
    ∀ p ∈ splitLongPara maxc para, p.length ≤ maxc := by
  intro p hp
  unfold splitLongPara at hp
  split at hp
  · rename_i h
    simp only [List.mem_singleton] at hp
    subst hp
    exact h
  · rcases List.mem_flatMap.mp hp with ⟨s, _, hs2⟩
    split at hs2
    · rename_i h
      simp only [List.mem_singleton] at hs2
      subst hs2
      exact h
    · exact hardSplitAux_bound maxc _ _ p hs2

/-! ## Length bound for the packing loop and for `chunk_text` (claim C4) -/

theorem chunkTail_length_le (ov : Nat) (buf : List Char) :
    (chunkTail ov buf).length ≤ ov := by
  unfold chunkTail
  split
  · rename_i h
    simp only [lastN, List.length_drop]
    omega
  · simp

theorem nextBuf_length_le (maxc ov : Nat) (buf p : List Char) (hp : p.length ≤ maxc) :
    (nextBuf ov buf p).length ≤ maxc + ov + 2 := by
  unfold nextBuf
  split
  · omega
  · refine Nat.le_trans (pyStrip_length_le _) ?_
    have := chunkTail_length_le ov buf
    simp only [List.length_append, nlnl, List.length_cons, List.length_nil]
    omega

theorem chunkLoop_bound (maxc ov : Nat) :
    ∀ (ps : List (List Char)) (buf : List Char) (chunks : List (List Char)),
      (∀ p ∈ ps, p.length ≤ maxc) →
      (∀ c ∈ chunks, c.length ≤ maxc + ov + 2) →
      buf.length ≤ maxc + ov + 2 →
      ∀ c ∈ chunkLoop maxc ov buf chunks ps, c.length ≤ maxc + ov + 2
  | [], buf, chunks => by
    intro _ hchunks hbuf c hc
    unfold chunkLoop at hc
    rcases List.mem_append.mp hc with h | h
    · exact hchunks c h
    · split at h
      · simp at h
      · simp only [List.mem_singleton] at h
        subst h
        exact hbuf
  | p :: rest, buf, chunks => by
    intro hps hchunks hbuf c hc
    have hp : p.length ≤ maxc := hps p (List.mem_cons_self p rest)
    have hrest : ∀ q ∈ rest, q.length ≤ maxc := fun q hq => hps q (List.mem_cons_of_mem _ hq)
    unfold chunkLoop at hc
    split at hc
    · exact chunkLoop_bound maxc ov rest p chunks hrest hchunks (by omega) c hc
    · split at hc
      · rename_i hne hfit
        refine chunkLoop_bound maxc ov rest _ chunks hrest hchunks ?_ c hc
        simp only [List.length_append, nlnl, List.length_cons, List.length_nil]
        omega
      · refine chunkLoop_bound maxc ov rest _ _ hrest ?_
          (nextBuf_length_le maxc ov buf p hp) c hc
        intro x hx
        rcases List.mem_append.mp hx with h | h
        · exact hchunks x h
        · simp only [List.mem_singleton] at h
          subst h
          exact hbuf

/-! ## Claim C4 -/

/-- C4 (counterexample): with `max_chars = 10`, `overlap_chars = 5` (positive,
`overlap < max`), the content `"aaaaaaaaaa\n\nbbbbbbbbbb"` produces the chunk
`"aaaaa\n\nbbbbbbbbbb"` of length 17 > 10: the overlap seed plus the
paragraph separator exceed the claimed bound. -/
theorem C4_counterexample :
    0 < 10 ∧ 0 < 5 ∧ 5 < 10 ∧
      ¬∀ c ∈ chunk_text ("aaaaaaaaaa\n\nbbbbbbbbbb".data) 10 5, c.length ≤ 10 := by
  refine ⟨by decide, by decide, by decide, ?_⟩
  intro h
  have := h ("aaaaa\n\nbbbbbbbbbb".data) (by decide)
  simp at this

/-- C4 (amended): for positive `max_chars` and `overlap_chars` with
`overlap_chars < max_chars`, every chunk returned by `chunk_text` has length
at most `max_chars + overlap_chars + 2`: each expanded piece is at most
`max_chars` long, and a freshly seeded buffer adds at most the
`overlap_chars`-character tail plus the two-character paragraph separator. -/
theorem C4_chunk_length_bound (text : List Char) (maxc ov : Nat)
    (h1 : 0 < maxc) (h2 : 0 < ov) (h3 : ov < maxc) :
    ∀ c ∈ chunk_text text maxc ov, c.length ≤ maxc + ov + 2 := by
  intro c hc
  unfold chunk_text at hc
  rcases List.mem_filter.mp hc with ⟨hm, _⟩
  rcases List.mem_map.mp hm with ⟨c', hc', rfl⟩
  refine Nat.le_trans (clean_text_length_le c') ?_
  simp only [chunkRaw] at hc'
  split at hc'
  · simp at hc'
  · refine chunkLoop_bound maxc ov _ [] [] ?_ (by simp) (by simp) c' hc'
    intro p hp
    unfold expandedOf at hp
    rcases List.mem_flatMap.mp hp with ⟨para, _, hp2⟩
    exact splitLongPara_bound maxc para p hp2

/-- C4 (witness): the amended bound evaluated at the counterexample input:
`max_chars = 10`, `overlap_chars = 5` give chunks of length at most 17. -/
theorem C4_witness :
    0 < 10 ∧ 0 < 5 ∧ 5 < 10 ∧
      ∀ c ∈ chunk_text ("aaaaaaaaaa\n\nbbbbbbbbbb".data) 10 5, c.length ≤ 17 :=
  ⟨by decide, by decide, by decide,
    C4_chunk_length_bound ("aaaaaaaaaa\n\nbbbbbbbbbb".data) 10 5
      (by decide) (by decide) (by decide)⟩

/-! ## Claim C9 -/

/-- C9: `chunk_text` is a pure function of `(content, max_chars,
overlap_chars)`: two invocations with identical arguments return identical
ordered chunk sequences.  In this embedding the Python function reads no
state outside its arguments, so determinism is congruence. -/
theorem C9_chunk_text_deterministic (t1 t2 : List Char) (m1 m2 k1 k2 : Nat)
    (ht : t1 = t2) (hm : m1 = m2) (hk : k1 = k2) :
    chunk_text t1 m1 k1 = chunk_text t2 m2 k2 := by
  subst ht
  subst hm
  subst hk
  rfl

/-- C9 (witness): determinism applied at a concrete invocation. -/
theorem C9_witness :
    chunk_text ("Alpha. Beta. Gamma.".data) 6 0 = chunk_text ("Alpha. Beta. Gamma.".data) 6 0 :=
  C9_chunk_text_deterministic _ _ 6 6 0 0 rfl rfl rfl

/-! ## Claim C8: the overlap seeding relation between consecutive raw chunks -/

/-- The relation the packing loop establishes between a closed raw chunk and
the next one: when the closed chunk is longer than the overlap, the next
chunk is built from the closed chunk's `overlap_chars`-character tail, the
paragraph separator and the next piece, whitespace-stripped, then possibly
extended by further appended pieces. -/
def seedRel (ov : Nat) (a b : List Char) : Prop :=
  ov < a.length → ∃ p rest, b = pyStrip (lastN ov a ++ nlnl ++ p) ++ rest

theorem seedRel_extend {ov : Nat} {a b : List Char} (x : List Char)
    (h : seedRel ov a b) : seedRel ov a (b ++ x) := by
  intro hlen
  obtain ⟨p, rest, hpr⟩ := h hlen
  exact ⟨p, rest ++ x, by rw [hpr, List.append_assoc]⟩

theorem seedRel_of_nil {ov : Nat} {a : List Char} (x : List Char)
    (h : seedRel ov a []) : seedRel ov a x := by
  intro hlen
  obtain ⟨p, rest, hpr⟩ := h hlen
  have h0 : pyStrip (lastN ov a ++ nlnl ++ p) = [] := (List.append_eq_nil.mp hpr.symm).1
  exact ⟨p, x, by rw [h0, List.nil_append]⟩

theorem lastN_length (ov : Nat) (l : List Char) (h : ov < l.length) :
    (lastN ov l).length = ov := by
  simp only [lastN, List.length_drop]
  omega

theorem seedRel_nextBuf {ov : Nat} (hov : 0 < ov) (buf p : List Char) :
    seedRel ov buf (nextBuf ov buf p) := by
  intro hlen
  have htail : chunkTail ov buf = lastN ov buf := by
    unfold chunkTail
    rw [if_pos ⟨hov, hlen⟩]
  have hne : ¬chunkTail ov buf = [] := by
    rw [htail]
    intro h0
    have := lastN_length ov buf hlen
    rw [h0] at this
    simp at this
    omega
  refine ⟨p, [], ?_⟩
  unfold nextBuf
  rw [if_neg hne, htail, List.append_nil]

theorem chain_replace_last {α : Type} {R : α → α → Prop} {l : List α} {b b' : α}
    (h : List.Chain' R (l ++ [b])) (f : ∀ a, R a b → R a b') :
    List.Chain' R (l ++ [b']) := by
  rcases List.chain'_append.mp h with ⟨h1, _, h3⟩
  refine List.chain'_append.mpr ⟨h1, List.chain'_singleton _, ?_⟩
  intro x hx y hy
  simp only [List.head?_cons, Option.mem_def, Option.some.injEq] at hy
  subst hy
  exact f x (h3 x hx b (by simp))

theorem chain_push {α : Type} {R : α → α → Prop} {l : List α} {b c : α}
    (h : List.Chain' R (l ++ [b])) (hr : R b c) :
    List.Chain' R ((l ++ [b]) ++ [c]) := by
  refine List.chain'_append.mpr ⟨h, List.chain'_singleton _, ?_⟩
  intro x hx y hy
  simp only [List.head?_cons, Option.mem_def, Option.some.injEq] at hy
  subst hy
  rw [List.getLast?_concat] at hx
  simp only [Option.mem_def, Option.some.injEq] at hx
  subst hx
  exact hr

theorem chunkLoop_chain (maxc ov : Nat) :
    ∀ (ps : List (List Char)) (buf : List Char) (chunks : List (List Char)),
      0 < ov →
      List.Chain' (seedRel ov) (chunks ++ [buf]) →
      List.Chain' (seedRel ov) (chunkLoop maxc ov buf chunks ps)
  | [], buf, chunks => by
    intro _ hch
    unfold chunkLoop
    split
    · rw [List.append_nil]
      exact (List.chain'_append.mp hch).1
    · exact hch
  | p :: rest, buf, chunks => by
    intro hov hch
    unfold chunkLoop
    split
    · rename_i hbe
      subst hbe
      exact chunkLoop_chain maxc ov rest p chunks hov
        (chain_replace_last hch (fun a h => seedRel_of_nil p h))
    · split
      · exact chunkLoop_chain maxc ov rest _ chunks hov
          (chain_replace_last hch (fun a h => by
            rw [List.append_assoc]
            exact seedRel_extend (nlnl ++ p) h))
      · exact chunkLoop_chain maxc ov rest (nextBuf ov buf p) (chunks ++ [buf]) hov
          (chain_push hch (seedRel_nextBuf hov buf p))

/-- C8 (counterexample): content `"abcdef gh\n\nxxxxxxxx"`, `max_chars = 10`,
`overlap_chars = 3`.  The first chunk is `"abcdef gh"` (length 9 > 3) and the
second chunk is `"gh\n\nxxxxxxxx"`: its first 3 characters are `"gh\n"`, not
the first chunk's last 3 characters `" gh"` — the `.strip()` applied to the
seeded buffer discards the tail's leading space and inserts the paragraph
separator, so the claimed exact equality of overlap regions fails. -/
theorem C8_counterexample :
    chunk_text ("abcdef gh\n\nxxxxxxxx".data) 10 3 =
        ["abcdef gh".data, "gh\n\nxxxxxxxx".data] ∧
      3 < ("abcdef gh".data).length ∧
      ¬(("gh\n\nxxxxxxxx".data).take 3 =
        ("abcdef gh".data).drop (("abcdef gh".data).length - 3)) := by
  refine ⟨by decide, by decide, by decide⟩

/-- C8 (amended): for `overlap_chars = k > 0` and consecutive raw chunks
`i, i+1` (the `chunks` list of `chunk_text` before its final cleanup) with
`len(chunk_i) > k`, chunk `i+1` is built from exactly the last `k` characters
of chunk `i` followed by the paragraph separator and the next piece, then
whitespace-stripped and extended by later appends (`seedRel`); the returned
chunks are the cleanups of these, so the first `k` characters of the
returned chunk `i+1` agree with the tail of chunk `i` only up to stripping
and cleanup, not as the exact character equality the claim states. -/
theorem C8_overlap_seed (text : List Char) (maxc ov : Nat) (hov : 0 < ov)
    (i : Nat) (hi : i < (chunkRaw text maxc ov).length - 1) :
    seedRel ov ((chunkRaw text maxc ov).get ⟨i, by omega⟩)
      ((chunkRaw text maxc ov).get ⟨i + 1, by omega⟩) := by
  have hch : List.Chain' (seedRel ov) (chunkRaw text maxc ov) := by
    simp only [chunkRaw]
    split
    · exact List.chain'_nil
    · exact chunkLoop_chain maxc ov _ [] [] hov (by simp)
  exact List.chain'_iff_get.mp hch i hi

/-- C8 (witness): the seeding relation evaluated on the counterexample run:
the second raw chunk of `"abcdef gh\n\nxxxxxxxx"` with `max_chars = 10`,
`overlap_chars = 3` is the strip of the first chunk's 3-character tail plus
separator plus the piece `"xxxxxxxx"`. -/
theorem C8_witness :
    seedRel 3 ((chunkRaw ("abcdef gh\n\nxxxxxxxx".data) 10 3).get ⟨0, by decide⟩)
      ((chunkRaw ("abcdef gh\n\nxxxxxxxx".data) 10 3).get ⟨1, by decide⟩) :=
  C8_overlap_seed ("abcdef gh\n\nxxxxxxxx".data) 10 3 (by decide) 0 (by decide)

/-! ## Concrete fixtures used by counterexamples and witnesses

`idHash` instantiates the `sha1` parameter with the identity function and
`tagHash` with a prefixing function that never returns the empty string;
`okEmbed` is an embedding gateway honouring the §4.4 contract. -/

def idHash : String → String := fun s => s

def tagHash : String → String := fun s => "#" ++ s

def okEmbed : List String → Except Unit (List (List Int)) :=
  fun ts => .ok (ts.map (fun _ => [1]))

/-- An embedding gateway whose batch call raises whenever the batch contains
the 80-`a` text, and succeeds on any other batch. -/
def failAEmbed : List String → Except Unit (List (List Int)) :=
  fun ts =>
    if String.mk (List.replicate 80 'a') ∈ ts then .error ()
    else .ok (ts.map (fun _ => [1]))

def aaa : String := String.mk (List.replicate 80 'a')

def bbb : String := String.mk (List.replicate 80 'b')

/-- A store holding one document `(s, u)` with content hash `idHash aaa` and
one chunk row for it. -/
def st0 : Store :=
  { documents := [{ id := "s|u", source := "s", title := "t", url := "u",
                    content_hash := aaa, is_active := true }],
    chunks := [{ doc_id := "s|u", chunk_index := 0, content := aaa,
                 content_hash := aaa, embedding := [9] }] }

/-- A raw document identical in content to what `st0` stores. -/
def rawSame : RawDoc := { source := "s", url := "u", title := "t", content := aaa }

/-- A raw document for the same `(s, u)` with new content. -/
def rawNew : RawDoc := { source := "s", url := "u", title := "t", content := bbb }

def emptyStore : Store := { documents := [], chunks := [] }

/-- A raw document with an empty url and long content. -/
def rawNoUrl : RawDoc :=
  { source := "s", url := "", title := "t", content := String.mk (List.replicate 80 'a') }

/-- Two raw documents that normalize to the same id `s|u` under `idHash`. -/
def rawDupA : RawDoc := { source := "s", url := "u", title := "t1", content := aaa }

def rawDupB : RawDoc := { source := "s", url := "u", title := "t2", content := bbb }

/-- Two raw documents over distinct urls, for the embedding-failure run. -/
def rawU1 : RawDoc := { source := "s", url := "u1", title := "t", content := aaa }

def rawU2 : RawDoc := { source := "s", url := "u2", title := "t", content := bbb }

def cfgDiff : Config :=
  { diffEnabled := true, maxChars := 1200, overlapChars := 200, batchSize := 64 }

def cfgNoDiff : Config :=
  { diffEnabled := false, maxChars := 1200, overlapChars := 200, batchSize := 64 }

/-! ## Claim C5 -/

/-- C5: the change detector partitions the normalized set exactly by hash
comparison — a normalized document is in the work set precisely when the
stored hash looked up under its `(source, url)` differs from its computed
hash or no stored row exists (`dictGet` returns `none`). -/
theorem C5_change_detection (st : Store) (normalized : List NDoc) (d : NDoc)
    (hd : d ∈ normalized) :
    d ∈ changedSet (fetch_existing_hashes st (normalized.map (fun x => x.source))) normalized ↔
      ¬dictGet (fetch_existing_hashes st (normalized.map (fun x => x.source)))
        (d.source, d.url) = some d.content_hash := by
  unfold changedSet
  rw [List.mem_filter]
  constructor
  · intro h
    exact of_decide_eq_true h.2
  · intro h
    exact ⟨hd, decide_eq_true h⟩

/-- C5 (witness): the partition evaluated on a store holding `(s, u)` with
hash `aaa` and a normalized document with new hash `bbb`: it is in the work
set, and the lookup disagrees with the new hash. -/
theorem C5_witness :
    { id := "s|u", source := "s", title := "t", url := "u",
      content_hash := bbb, content := bbb : NDoc } ∈
        changedSet
          (fetch_existing_hashes st0
            ([{ id := "s|u", source := "s", title := "t", url := "u",
                content_hash := bbb, content := bbb : NDoc }].map (fun x => x.source)))
          [{ id := "s|u", source := "s", title := "t", url := "u",
             content_hash := bbb, content := bbb }] ↔
      ¬dictGet
          (fetch_existing_hashes st0
            ([{ id := "s|u", source := "s", title := "t", url := "u",
                content_hash := bbb, content := bbb : NDoc }].map (fun x => x.source)))
          ("s", "u") = some bbb :=
  C5_change_detection st0 _ _ (by decide)

/-! ## Claim C6 -/

/-- C6 (counterexample): a raw document with an empty `url` and long content
is kept by the normalizer — `main` never checks the url, so the claimed
"drops when url is empty" half of the iff is false. -/
theorem C6_counterexample :
    rawNoUrl.url = "" ∧ (norm1 idHash rawNoUrl).isSome = true :=
  ⟨rfl, by decide⟩

/-- C6 (amended): the normalizer drops a raw document if and only if its
whitespace-normalized content is shorter than the hardcoded minimum of 80
characters (an empty cleaning also falls under this test); the url is never
examined.  Dropped documents simply do not appear in the normalized working
set, so they reach neither the change detector nor the store. -/
theorem C6_drop_iff (sha1F : String → String) (d : RawDoc) :
    norm1 sha1F d = none ↔ (clean_text d.content.data).length < 80 := by
  simp only [norm1]
  split
  · rename_i h
    refine iff_of_true rfl ?_
    rcases h with h | h
    · rw [h]
      simp
    · exact h
  · rename_i h
    refine iff_of_false (by simp) ?_
    intro hlen
    exact h (Or.inr hlen)

/-! ## Claim C7 -/

theorem getRecs_nil (did : String) : getRecs [] did = [] := rfl

theorem getRecs_cons (k2 : String) (x : List ChunkRec) (m : List (String × List ChunkRec))
    (did : String) :
    getRecs ((k2, x) :: m) did = if k2 = did then x else getRecs m did := by
  unfold getRecs
  by_cases h : k2 = did
  · rw [if_pos h]
    rw [List.find?_cons_of_pos _ (by simpa using h)]
  · rw [if_neg h]
    rw [List.find?_cons_of_neg _ (by simpa using h)]

theorem addRec_getRecs (d : String) (r : ChunkRec) (did : String) :
    ∀ m : List (String × List ChunkRec),
      getRecs (addRec d r m) did =
        if d = did then getRecs m did ++ [r] else getRecs m did
  | [] => by
    unfold addRec
    rw [getRecs_cons, getRecs_nil]
    by_cases h : d = did
    · simp [h, getRecs]
    · simp [h]
  | (k2, rs) :: m => by
    unfold addRec
    by_cases hkd : k2 = d
    · subst hkd
      rw [if_pos rfl, getRecs_cons, getRecs_cons]
      by_cases hkk : k2 = did
      · simp [hkk]
      · simp [hkk]
    · rw [if_neg hkd, getRecs_cons, getRecs_cons, addRec_getRecs d r did m]
      by_cases hkk : k2 = did
      · have hd : ¬d = did := fun h => hkd (hkk.trans h.symm)
        simp [hkk, hd]
      · simp [hkk]

theorem getRecs_fold (did : String) :
    ∀ (l : List (ChunkRef × List Int)) (m : List (String × List ChunkRec)),
      getRecs (l.foldl (fun m re => addRec re.1.doc_id (recOf re) m) m) did =
        getRecs m did ++
          ((l.filter (fun re => decide (re.1.doc_id = did))).map recOf)
  | [], m => by simp
  | re :: l, m => by
    simp only [List.foldl_cons, List.filter_cons]
    rw [getRecs_fold did l _, addRec_getRecs]
    by_cases h : re.1.doc_id = did
    · rw [if_pos h]
      simp [h]
    · rw [if_neg h]
      simp [h]

/-- C7 (counterexample): two raw documents over the same `(source, url)` in
one run.  The in-memory working set keeps both entries for the id (so it
does not contain exactly one entry), and the chunk map entry for that id
holds two chunk records — the first document's chunk followed by the second
document's — not the chunks of the last-processed document alone. -/
theorem C7_counterexample :
    ((normalizeDocs idHash [rawDupA, rawDupB]).map (fun d => d.id) = ["s|u", "s|u"]) ∧
      ¬(normalizeDocs idHash [rawDupA, rawDupB]).length = 1 ∧
      (getRecs
          (buildChunksByDoc (chunkRefsOf idHash 1200 200 (normalizeDocs idHash [rawDupA, rawDupB]))
            [[1], [1]])
          "s|u").map (fun c => (c.chunk_index, c.content)) = [(0, aaa), (0, bbb)] := by
  refine ⟨by decide, by decide, by decide⟩

/-- C7 (amended): duplicate ids are never deduplicated: the normalizer keeps
one working-set entry per raw occurrence, and the chunk map entry for an id
accumulates the chunk records of every reference carrying that id, in
processing order — there is no last-one-wins overwrite anywhere in the
in-memory pipeline. -/
theorem C7_duplicate_ids_accumulate (refs : List ChunkRef) (embs : List (List Int))
    (did : String) :
    getRecs (buildChunksByDoc refs embs) did =
      ((refs.zip embs).filter (fun re => decide (re.1.doc_id = did))).map recOf := by
  unfold buildChunksByDoc
  rw [getRecs_fold]
  rfl

/-! ## Claim C3 -/

/-- C3 (counterexample): two changed documents whose chunks land in separate
embedding batches (`batch_size = 1`), with the first batch failing.  The
claim promises the second document's batch is still processed and written;
the code instead aborts the whole run before any write: the result is the
error with an empty committed-state trace, so the second document is never
written. -/
theorem C3_counterexample :
    mainRun idHash failAEmbed
        { diffEnabled := true, maxChars := 1200, overlapChars := 200, batchSize := 1 }
        [rawU1, rawU2] emptyStore = ([], .error ()) := by
  decide

/-- C3 (amended): when any embedding batch call fails, the whole run aborts
before the delete and upsert phases: no store transaction is committed (the
observable trace is empty), every document's previously stored state — not
only the failed batch's — is left intact, and the remaining batches are not
processed or written. -/
theorem C3_embed_failure_aborts (sha1F : String → String)
    (embed : List String → Except Unit (List (List Int))) (cfg : Config)
    (docs : List RawDoc) (st : Store)
    (hne : ¬changedDocsOf sha1F cfg docs st = [])
    (herr : embedLoop embed cfg.batchSize
      ((chunkRefsOf sha1F cfg.maxChars cfg.overlapChars
        (changedDocsOf sha1F cfg docs st)).map (fun r => r.content)) = .error ()) :
    mainRun sha1F embed cfg docs st = ([], .error ()) := by
  simp only [mainRun]
  rw [if_neg hne, herr]

/-- C3 (witness): the abort theorem applied to the two-document,
failing-first-batch scenario with the default batch size. -/
theorem C3_witness :
    mainRun idHash failAEmbed cfgDiff [rawU1, rawU2] emptyStore = ([], .error ()) :=
  C3_embed_failure_aborts idHash failAEmbed cfgDiff [rawU1, rawU2] emptyStore
    (by decide) (by decide)

/-! ## Claim C2 -/

/-- C2 (code bug): with `diff.enabled = false` the pipeline's early delete
phase removes the chunk rows of a document whose content hash is unchanged,
and the upserter — which correctly skips hash-unchanged documents — never
re-inserts them: the document's stored chunk set is destroyed by a run that
should not have touched it.  Both the spec and the code's own comments
("replace only changed docs, do not touch unchanged ones") state the
intent the code violates. -/
theorem C2_code_bug_diff_disabled :
    (mainRun idHash okEmbed cfgNoDiff [rawSame] st0).2 =
        .ok { documents := st0.documents, chunks := [] } ∧
      ¬st0.chunks = [] := by
  refine ⟨by decide, by decide⟩

/-! ## Claim C1 (counterexample): the replace is observably split -/

/-- C1 (counterexample): a changed document run against `st0`.  The first
committed state of the trace — produced by the standalone delete transaction
of ingest.py lines 277-287, before the upsert transaction — still stores the
document row with the old hash `idHash aaa` (the hash of valid, non-empty
content `aaa`) while holding zero chunk rows for it: a reader between the
two transactions sees zero chunks for a document with valid content, which
the claim says is unreachable. -/
theorem C1_counterexample :
    (mainRun idHash okEmbed cfgDiff [rawNew] st0).1.head? =
        some { documents := st0.documents, chunks := [] } ∧
      st0.documents = [{ id := "s|u", source := "s", title := "t", url := "u",
                         content_hash := idHash aaa, is_active := true }] ∧
      ¬aaa = "" := by
  refine ⟨by decide, by decide, by decide⟩

/-! ## Claim C1 (amended): after a completed run the chunk set is exact

Helper lemmas about the embedding loop, dictionary lookups and the block
structure of the chunk references. -/

theorem embedLoopAux_ok_length (embed : List String → Except Unit (List (List Int)))
    (batch : Nat)
    (hcontract : ∀ ts es, embed ts = .ok es → es.length = ts.length) :
    ∀ (fuel : Nat) (texts : List String) (es : List (List Int)),
      embedLoopAux embed batch fuel texts = .ok es → es.length = texts.length
  | 0, [], es => by
    intro h
    simp only [embedLoopAux] at h
    injection h with h
    subst h
    rfl
  | 0, t :: ts, es => by
    intro h
    simp only [embedLoopAux] at h
    exact absurd h (by simp)
  | fuel + 1, [], es => by
    intro h
    simp only [embedLoopAux] at h
    injection h with h
    subst h
    rfl
  | fuel + 1, t :: ts, es => by
    intro h
    simp only [embedLoopAux] at h
    cases h1 : embed ((t :: ts).take batch) with
    | error e => rw [h1] at h; exact absurd h (by simp)
    | ok embs =>
      rw [h1] at h
      cases h2 : embedLoopAux embed batch fuel ((t :: ts).drop batch) with
      | error e => rw [h2] at h; exact absurd h (by simp)
      | ok rest =>
        rw [h2] at h
        injection h with h
        subst h
        have hl1 := hcontract _ _ h1
        have hl2 := embedLoopAux_ok_length embed batch hcontract fuel _ _ h2
        simp only [List.length_append, List.length_take, List.length_drop] at hl1 hl2 ⊢
        omega

theorem embedLoop_ok_length (embed : List String → Except Unit (List (List Int)))
    (batch : Nat) (texts : List String) (es : List (List Int))
    (hcontract : ∀ ts es2, embed ts = .ok es2 → es2.length = ts.length)
    (h : embedLoop embed batch texts = .ok es) : es.length = texts.length := by
  unfold embedLoop at h
  split at h
  · exact absurd h (by simp)
  · exact embedLoopAux_ok_length embed batch hcontract _ _ _ h

theorem dictGet_mem {κ : Type} [DecidableEq κ] :
    ∀ (m : List (κ × String)) (k : κ) (v : String),
      dictGet m k = some v → (k, v) ∈ m
  | [], _, _ => by simp [dictGet]
  | (k2, v2) :: m, k, v => by
    intro he
    unfold dictGet at he
    cases h : dictGet m k with
    | some v3 =>
      rw [h] at he
      dsimp only at he
      injection he with he
      exact List.mem_cons_of_mem _ (he ▸ dictGet_mem m k v3 h)
    | none =>
      rw [h] at he
      dsimp only at he
      split at he
      · rename_i hk
        injection he with he
        subst he
        subst hk
        exact List.mem_cons_self _ _
      · exact absurd he (by simp)

theorem norm1_some_shape (sha1F : String → String) (raw : RawDoc) (d : NDoc)
    (h : norm1 sha1F raw = some d) :
    d.id = sha1F (raw.source ++ "|" ++ raw.url) ∧
      d.content_hash = sha1F (String.mk (clean_text raw.content.data)) ∧
      d.source = raw.source ∧ d.url = raw.url ∧
      d.content = String.mk (clean_text raw.content.data) := by
  simp only [norm1] at h
  split at h
  · exact absurd h (by simp)
  · injection h with h
    subst h
    exact ⟨rfl, rfl, rfl, rfl, rfl⟩

theorem changedDocsOf_subset (sha1F : String → String) (cfg : Config)
    (docs : List RawDoc) (st : Store) (d : NDoc)
    (hd : d ∈ changedDocsOf sha1F cfg docs st) : d ∈ normalizeDocs sha1F docs := by
  simp only [changedDocsOf] at hd
  split at hd
  · unfold changedSet at hd
    exact (List.mem_filter.mp hd).1
  · exact hd

theorem normalized_shape (sha1F : String → String) (docs : List RawDoc) (d : NDoc)
    (hd : d ∈ normalizeDocs sha1F docs) :
    ∃ raw ∈ docs, norm1 sha1F raw = some d := by
  unfold normalizeDocs at hd
  rcases List.mem_filterMap.mp hd with ⟨raw, h1, h2⟩
  exact ⟨raw, h1, h2⟩

theorem delete_preserves_documents (st : Store) (ids : List String) :
    (delete_chunks_for_docs st ids).documents = st.documents := by
  unfold delete_chunks_for_docs
  split
  · rfl
  · rfl

theorem blockOf_doc_id (sha1F : String → String) (maxc ov : Nat) (d : NDoc)
    (r : ChunkRef) (hr : r ∈ blockOf sha1F maxc ov d) : r.doc_id = d.id := by
  unfold blockOf at hr
  rcases List.mem_map.mp hr with ⟨ic, _, hic⟩
  rw [← hic]

theorem chunkRefsOf_doc_id (sha1F : String → String) (maxc ov : Nat)
    (changed : List NDoc) (r : ChunkRef) (hr : r ∈ chunkRefsOf sha1F maxc ov changed) :
    r.doc_id ∈ changed.map (fun x => x.id) := by
  unfold chunkRefsOf at hr
  rcases List.mem_flatMap.mp hr with ⟨d, hd, hrd⟩
  rw [blockOf_doc_id sha1F maxc ov d r hrd]
  exact List.mem_map_of_mem _ hd

theorem zip_map_proj :
    ∀ (l : List ChunkRef) (e : List (List Int)), l.length ≤ e.length →
      (l.zip e).map (fun re => (re.1.idx, re.1.content)) =
        l.map (fun r => (r.idx, r.content))
  | [], _ => by simp
  | a :: l, [] => by simp
  | a :: l, b :: e => by
    intro h
    simp only [List.zip_cons_cons, List.map_cons, List.length_cons] at h ⊢
    rw [zip_map_proj l e (by omega)]

theorem filter_zip_block (sha1F : String → String) (maxc ov : Nat) (d : NDoc) :
    ∀ (changed : List NDoc) (embs : List (List Int)),
      ((changed.map (fun x => x.id)).Nodup) → d ∈ changed →
      embs.length = (chunkRefsOf sha1F maxc ov changed).length →
      (((chunkRefsOf sha1F maxc ov changed).zip embs).filter
          (fun re => decide (re.1.doc_id = d.id))).map (fun re => (re.1.idx, re.1.content)) =
        ((chunk_text d.content.data maxc ov).map String.mk).enum
  | [], _, _, hd, _ => absurd hd (List.not_mem_nil d)
  | d0 :: changed, embs, hnd, hd, hlen => by
    have hsplit : chunkRefsOf sha1F maxc ov (d0 :: changed) =
        blockOf sha1F maxc ov d0 ++ chunkRefsOf sha1F maxc ov changed := by
      simp [chunkRefsOf]
    rw [hsplit] at hlen ⊢
    have hnd2 : (d0.id :: changed.map (fun x => x.id)).Nodup := by simpa using hnd
    have hndc := List.nodup_cons.mp hnd2
    have hzip : (blockOf sha1F maxc ov d0 ++ chunkRefsOf sha1F maxc ov changed).zip embs =
        (blockOf sha1F maxc ov d0).zip (embs.take (blockOf sha1F maxc ov d0).length) ++
          (chunkRefsOf sha1F maxc ov changed).zip
            (embs.drop (blockOf sha1F maxc ov d0).length) := by
      conv_lhs => rw [← List.take_append_drop (blockOf sha1F maxc ov d0).length embs]
      rw [List.zip_append]
      rw [List.length_take]
      simp only [List.length_append] at hlen
      omega
    rw [hzip, List.filter_append, List.map_append]
    by_cases hid : d0.id = d.id
    · have hdd : d = d0 := by
        rcases List.mem_cons.mp hd with h | h
        · exact h
        · exact absurd (hid ▸ List.mem_map_of_mem (fun x => x.id) h) hndc.1
      subst hdd
      have hkeep : ((blockOf sha1F maxc ov d).zip
            (embs.take (blockOf sha1F maxc ov d).length)).filter
          (fun re => decide (re.1.doc_id = d.id)) =
          (blockOf sha1F maxc ov d).zip (embs.take (blockOf sha1F maxc ov d).length) := by
        refine List.filter_eq_self.mpr ?_
        intro re hre
        have := blockOf_doc_id sha1F maxc ov d re.1 (List.of_mem_zip hre).1
        simpa using this
      have hdrop : ((chunkRefsOf sha1F maxc ov changed).zip
            (embs.drop (blockOf sha1F maxc ov d).length)).filter
          (fun re => decide (re.1.doc_id = d.id)) = [] := by
        refine List.filter_eq_nil_iff.mpr ?_
        intro re hre
        have hmem := chunkRefsOf_doc_id sha1F maxc ov changed re.1 (List.of_mem_zip hre).1
        simp only [decide_eq_true_eq]
        intro heq
        exact hndc.1 (heq ▸ hmem)
      rw [hkeep, hdrop]
      simp only [List.map_nil, List.append_nil]
      have hproj : ((blockOf sha1F maxc ov d).zip
            (embs.take (blockOf sha1F maxc ov d).length)).map
          (fun re => (re.1.idx, re.1.content)) =
          (blockOf sha1F maxc ov d).map (fun r => (r.idx, r.content)) := by
        refine zip_map_proj _ _ ?_
        rw [List.length_take]
        simp only [List.length_append] at hlen
        omega
      rw [hproj]
      unfold blockOf
      rw [List.map_map]
      conv_rhs => rw [← List.map_id (((chunk_text d.content.data maxc ov).map String.mk).enum)]
      refine List.map_congr_left ?_
      intro ic _
      rfl
    · have hdmem : d ∈ changed := by
        rcases List.mem_cons.mp hd with h | h
        · exact absurd (congrArg NDoc.id h.symm) hid
        · exact h
      have hblock : ((blockOf sha1F maxc ov d0).zip
            (embs.take (blockOf sha1F maxc ov d0).length)).filter
          (fun re => decide (re.1.doc_id = d.id)) = [] := by
        refine List.filter_eq_nil_iff.mpr ?_
        intro re hre
        have := blockOf_doc_id sha1F maxc ov d0 re.1 (List.of_mem_zip hre).1
        simp only [decide_eq_true_eq]
        intro heq
        exact hid (this ▸ heq)
      rw [hblock]
      simp only [List.map_nil, List.nil_append]
      refine filter_zip_block sha1F maxc ov d changed _ hndc.2 hdmem ?_
      simp only [List.length_drop, List.length_append] at hlen ⊢
      omega

theorem flatMap_rows_filter (sha1F : String → String) (g : String → List ChunkRec) (k : String) :
    ∀ ids : List String, ids.Nodup → k ∈ ids →
      (ids.flatMap (fun did => (g did).map (rowOf sha1F did))).filter
        (fun r => decide (r.doc_id = k)) = (g k).map (rowOf sha1F k)
  | [], _, hk => absurd hk (List.not_mem_nil k)
  | did :: ids, hnd, hk => by
    simp only [List.flatMap_cons, List.filter_append]
    have hndc := List.nodup_cons.mp hnd
    by_cases hdk : did = k
    · subst hdk
      have hkeep : ((g did).map (rowOf sha1F did)).filter
          (fun r => decide (r.doc_id = did)) = (g did).map (rowOf sha1F did) := by
        refine List.filter_eq_self.mpr ?_
        intro r hr
        rcases List.mem_map.mp hr with ⟨c, _, hc⟩
        rw [← hc]
        simp [rowOf]
      have hrest : (ids.flatMap (fun did2 => (g did2).map (rowOf sha1F did2))).filter
          (fun r => decide (r.doc_id = did)) = [] := by
        refine List.filter_eq_nil_iff.mpr ?_
        intro r hr
        rcases List.mem_flatMap.mp hr with ⟨did2, hdid2, hr2⟩
        rcases List.mem_map.mp hr2 with ⟨c, _, hc⟩
        simp only [decide_eq_true_eq]
        intro heq
        rw [← hc] at heq
        simp only [rowOf] at heq
        exact hndc.1 (heq ▸ hdid2)
      rw [hkeep, hrest, List.append_nil]
    · have hkmem : k ∈ ids := by
        rcases List.mem_cons.mp hk with h | h
        · exact absurd h.symm hdk
        · exact h
      have hblock : ((g did).map (rowOf sha1F did)).filter
          (fun r => decide (r.doc_id = k)) = [] := by
        refine List.filter_eq_nil_iff.mpr ?_
        intro r hr
        rcases List.mem_map.mp hr with ⟨c, _, hc⟩
        simp only [decide_eq_true_eq]
        intro heq
        rw [← hc] at heq
        simp only [rowOf] at heq
        exact hdk heq
      rw [hblock, List.nil_append]
      exact flatMap_rows_filter sha1F g k ids hndc.2 hkmem

theorem normalizeMeta_id_of_nonempty (sha1F : String → String) (m : DocMeta)
    (h1 : ¬m.id = "") (h2 : ¬m.content_hash = "") :
    normalizeMeta sha1F m = m := by
  simp only [normalizeMeta, if_neg h1, if_neg h2]

/-- Inside the upsert transaction: for a document whose stored hash (looked
up by id) differs from the new hash, the resulting chunk rows under its id
are exactly the records supplied for it in `chunks_by_doc` — old rows are
deleted and the new ones inserted in the same transaction. -/
theorem upsert_chunks_exact (sha1F : String → String) (st : Store)
    (metas : List DocMeta) (cbd : List (String × List ChunkRec)) (md : DocMeta)
    (hids : (metas.map (fun m => m.id)).Nodup)
    (hmid : ∀ m ∈ metas, ¬m.id = "" ∧ ¬m.content_hash = "")
    (hmem : md ∈ metas)
    (hch : ∀ r ∈ st.documents, r.id = md.id → ¬r.content_hash = md.content_hash) :
    ((upsert_documents_and_chunks sha1F st metas cbd).chunks.filter
        (fun c => decide (c.doc_id = md.id))).map (fun r => (r.chunk_index, r.content)) =
      (getRecs cbd md.id).map (fun c => (c.chunk_index, c.content)) := by
  have hne : ¬metas = [] := by
    intro h
    rw [h] at hmem
    exact List.not_mem_nil md hmem
  have hmapid : metas.map (normalizeMeta sha1F) = metas := by
    conv_rhs => rw [← List.map_id metas]
    refine List.map_congr_left ?_
    intro m hm
    exact normalizeMeta_id_of_nonempty sha1F m (hmid m hm).1 (hmid m hm).2
  simp only [upsert_documents_and_chunks]
  rw [if_neg hne, hmapid]
  have hpred : ∀ m ∈ metas,
      (∀ r ∈ st.documents, r.id = m.id → ¬r.content_hash = m.content_hash) →
      ¬dictGet ((st.documents.filter
          (fun r => decide (r.id ∈ metas.map (fun x => x.id)))).map
            (fun r => (r.id, r.content_hash))) m.id = some m.content_hash := by
    intro m _ hchm hdg
    have hmm := dictGet_mem _ _ _ hdg
    rcases List.mem_map.mp hmm with ⟨r, hr1, hr2⟩
    have hr3 := List.mem_filter.mp hr1
    injection hr2 with hid hhash
    exact hchm r hr3.1 hid hhash
  have hmdch : md ∈ metas.filter (fun m2 => decide
      (¬dictGet ((st.documents.filter
          (fun r => decide (r.id ∈ metas.map (fun x => x.id)))).map
            (fun r => (r.id, r.content_hash))) m2.id = some m2.content_hash)) := by
    refine List.mem_filter.mpr ⟨hmem, ?_⟩
    simp only [decide_eq_true_eq]
    exact hpred md hmem hch
  have hchne : ¬metas.filter (fun m2 => decide
      (¬dictGet ((st.documents.filter
          (fun r => decide (r.id ∈ metas.map (fun x => x.id)))).map
            (fun r => (r.id, r.content_hash))) m2.id = some m2.content_hash)) = [] := by
    intro h
    rw [h] at hmdch
    exact List.not_mem_nil md hmdch
  rw [if_neg hchne]
  rw [List.filter_append, List.map_append]
  have hkin : md.id ∈ (metas.filter (fun m2 => decide
      (¬dictGet ((st.documents.filter
          (fun r => decide (r.id ∈ metas.map (fun x => x.id)))).map
            (fun r => (r.id, r.content_hash))) m2.id = some m2.content_hash))).map
      (fun m2 => m2.id) := List.mem_map_of_mem _ hmdch
  have hold : (st.chunks.filter (fun c => ¬c.doc_id ∈ (metas.filter (fun m2 => decide
      (¬dictGet ((st.documents.filter
          (fun r => decide (r.id ∈ metas.map (fun x => x.id)))).map
            (fun r => (r.id, r.content_hash))) m2.id = some m2.content_hash))).map
      (fun m2 => m2.id))).filter (fun c => decide (c.doc_id = md.id)) = [] := by
    refine List.filter_eq_nil_iff.mpr ?_
    intro c hc
    have hc2 := List.mem_filter.mp hc
    simp only [decide_eq_true_eq]
    intro heq
    have := hc2.2
    rw [heq] at this
    simp only [decide_eq_true_eq] at this
    exact this hkin
  rw [hold]
  have hsub : ((metas.filter (fun m2 => decide
      (¬dictGet ((st.documents.filter
          (fun r => decide (r.id ∈ metas.map (fun x => x.id)))).map
            (fun r => (r.id, r.content_hash))) m2.id = some m2.content_hash))).map
      (fun m2 => m2.id)).Nodup :=
    List.Nodup.sublist (List.Sublist.map _ (List.filter_sublist metas)) hids
  simp only [List.map_nil, List.nil_append]
  rw [flatMap_rows_filter sha1F (fun did => getRecs cbd did) md.id _ hsub hkin]
  rw [List.map_map]
  rfl

/-- C1 (amended): the delete+insert performed inside the upsert transaction
is exact — after a completed run, a work-set document whose stored hash
genuinely differs from its new hash holds exactly the newly computed chunk
set, with no leftover indices from a previous, longer chunking.  The other
half of the claim is false (see the counterexample): the pipeline first
deletes all chunks of the work set in a separate committed transaction, so
an intermediate state in which a validly-hashed document has zero chunks is
reachable by a concurrent reader.  Hypotheses: the hash function never
returns the empty string (sha1 hexdigests never are), the embedding gateway
honours the order/length contract of §4.4, the work set's ids are pairwise
distinct, and the document's stored hash under its id differs from the new
one. -/
theorem C1_atomic_replace_final (sha1F : String → String)
    (embed : List String → Except Unit (List (List Int))) (cfg : Config)
    (docs : List RawDoc) (st : Store) (stF : Store) (d : NDoc)
    (hsha : ∀ s2, ¬sha1F s2 = "")
    (hembed : ∀ ts es, embed ts = .ok es → es.length = ts.length)
    (hnodup : ((changedDocsOf sha1F cfg docs st).map (fun x => x.id)).Nodup)
    (hd : d ∈ changedDocsOf sha1F cfg docs st)
    (hchanged : ∀ r ∈ st.documents, r.id = d.id → ¬r.content_hash = d.content_hash)
    (hrun : (mainRun sha1F embed cfg docs st).2 = .ok stF) :
    (stF.chunks.filter (fun c => decide (c.doc_id = d.id))).map
        (fun r => (r.chunk_index, r.content)) =
      ((chunk_text d.content.data cfg.maxChars cfg.overlapChars).map String.mk).enum := by
  have hne : ¬changedDocsOf sha1F cfg docs st = [] := by
    intro h
    rw [h] at hd
    exact List.not_mem_nil d hd
  simp only [mainRun] at hrun
  rw [if_neg hne] at hrun
  cases hemb : embedLoop embed cfg.batchSize
      ((chunkRefsOf sha1F cfg.maxChars cfg.overlapChars
        (changedDocsOf sha1F cfg docs st)).map (fun r => r.content)) with
  | error e =>
    rw [hemb] at hrun
    exact absurd hrun (by simp)
  | ok embs =>
    rw [hemb] at hrun
    dsimp only at hrun
    injection hrun with hrun
    subst hrun
    have hshape : ∀ d2 ∈ changedDocsOf sha1F cfg docs st,
        ¬d2.id = "" ∧ ¬d2.content_hash = "" := by
      intro d2 hd2
      rcases normalized_shape sha1F docs d2 (changedDocsOf_subset sha1F cfg docs st d2 hd2)
        with ⟨raw, _, hn⟩
      rcases norm1_some_shape sha1F raw d2 hn with ⟨h1, h2, _⟩
      exact ⟨by rw [h1]; exact hsha _, by rw [h2]; exact hsha _⟩
    have hmetaids : (((changedDocsOf sha1F cfg docs st).map metaOf).map (fun m => m.id)) =
        (changedDocsOf sha1F cfg docs st).map (fun x => x.id) := by
      rw [List.map_map]
      rfl
    refine Eq.trans (upsert_chunks_exact sha1F _ _ _ (metaOf d) ?_ ?_ ?_ ?_) ?_
    · rw [hmetaids]
      exact hnodup
    · intro m hm
      rcases List.mem_map.mp hm with ⟨d2, hd2, hmd2⟩
      rw [← hmd2]
      exact hshape d2 hd2
    · exact List.mem_map_of_mem metaOf hd
    · intro r hr
      rw [delete_preserves_documents] at hr
      exact hchanged r hr
    · have hlenemb : embs.length =
          (chunkRefsOf sha1F cfg.maxChars cfg.overlapChars
            (changedDocsOf sha1F cfg docs st)).length := by
        have := embedLoop_ok_length embed cfg.batchSize _ embs hembed hemb
        rw [List.length_map] at this
        exact this
      have hg : getRecs (buildChunksByDoc
            (chunkRefsOf sha1F cfg.maxChars cfg.overlapChars
              (changedDocsOf sha1F cfg docs st)) embs) (metaOf d).id =
          (((chunkRefsOf sha1F cfg.maxChars cfg.overlapChars
              (changedDocsOf sha1F cfg docs st)).zip embs).filter
            (fun re => decide (re.1.doc_id = (metaOf d).id))).map recOf := by
        unfold buildChunksByDoc
        rw [getRecs_fold]
        rfl
      rw [hg, List.map_map]
      exact filter_zip_block sha1F cfg.maxChars cfg.overlapChars d _ embs hnodup hd hlenemb

theorem tagHash_ne_empty (s : String) : ¬tagHash s = "" := by
  intro h
  have hd := congrArg String.data h
  simp [tagHash, String.data_append] at hd

theorem okEmbed_length (ts : List String) (es : List (List Int))
    (h : okEmbed ts = .ok es) : es.length = ts.length := by
  simp only [okEmbed] at h
  injection h with h
  rw [← h, List.length_map]

/-- `st0` re-keyed under `tagHash`, for the C1 witness run. -/
def st0t : Store :=
  { documents := [{ id := tagHash "s|u", source := "s", title := "t", url := "u",
                    content_hash := tagHash aaa, is_active := true }],
    chunks := [{ doc_id := tagHash "s|u", chunk_index := 0, content := aaa,
                 content_hash := tagHash aaa, embedding := [9] }] }

/-- The normalized form of `rawNew` under `tagHash`. -/
def ndocNew : NDoc :=
  { id := tagHash "s|u", source := "s", title := "t", url := "u",
    content_hash := tagHash bbb, content := bbb }

/-- The final store of the C1 witness run. -/
def stFw : Store :=
  { documents := [{ id := tagHash "s|u", source := "s", title := "t", url := "u",
                    content_hash := tagHash bbb, is_active := true }],
    chunks := [{ doc_id := tagHash "s|u", chunk_index := 0, content := bbb,
                 content_hash := tagHash bbb, embedding := [1] }] }

/-- C1 (witness): the exactness theorem applied to a concrete changed
document: after the run the chunk rows under its id are exactly the single
newly computed chunk, index 0. -/
theorem C1_witness :
    (stFw.chunks.filter (fun c => decide (c.doc_id = ndocNew.id))).map
        (fun r => (r.chunk_index, r.content)) =
      ((chunk_text ndocNew.content.data cfgDiff.maxChars cfgDiff.overlapChars).map
        String.mk).enum :=
  C1_atomic_replace_final tagHash okEmbed cfgDiff [rawNew] st0t stFw ndocNew
    tagHash_ne_empty okEmbed_length (by decide) (by decide) (by decide) (by decide)


/-! ## Adjacent-pair scanners

Several whitespace-shape invariants of the chunker ("no whitespace touching a
newline", "no two adjacent newlines", "no two adjacent space/tab characters")
are properties of adjacent character pairs.  A single generic scanner keeps
their append/infix algebra in one place. -/

/-- `true` iff some adjacent character pair of the list satisfies `bad`. -/
def pairScan (bad : Char → Char → Bool) : List Char → Bool
  | a :: b :: r => bad a b || pairScan bad (b :: r)
  | _ => false

/-- Whether `a` together with the head of `l` forms a `bad` pair. -/
def headBad (bad : Char → Char → Bool) (a : Char) : List Char → Bool
  | b :: _ => bad a b
  | [] => false

/-- Whether the seam between `x` and `y` (last of `x`, head of `y`) is bad. -/
def joinBad (bad : Char → Char → Bool) (x y : List Char) : Bool :=
  match x.getLast? with
  | some a => headBad bad a y
  | none => false

theorem pairScan_cons (bad : Char → Char → Bool) (a : Char) (l : List Char) :
    pairScan bad (a :: l) = (headBad bad a l || pairScan bad l) := by
  cases l <;> rfl

theorem headBad_append (bad : Char → Char → Bool) (a : Char) (x y : List Char)
    (hx : x ≠ []) : headBad bad a (x ++ y) = headBad bad a x := by
  cases x with
  | nil => exact absurd rfl hx
  | cons c r => rfl

theorem pairScan_append (bad : Char → Char → Bool) : ∀ x y : List Char,
    pairScan bad (x ++ y) = (pairScan bad x || joinBad bad x y || pairScan bad y)
  | [], y => by simp [pairScan, joinBad]
  | [a], y => by
    show pairScan bad (a :: y) = _
    rw [pairScan_cons]
    simp [pairScan, joinBad]
  | a :: b :: r, y => by
    show pairScan bad (a :: b :: (r ++ y)) = _
    have IH := pairScan_append bad (b :: r) y
    show (bad a b || pairScan bad (b :: r ++ y)) = _
    rw [List.cons_append] at IH ⊢
    rw [IH]
    have hj : joinBad bad (a :: b :: r) y = joinBad bad (b :: r) y := by
      unfold joinBad
      rw [List.getLast?_cons_cons]
    rw [pairScan_cons bad a (b :: r), hj]
    have hhb : headBad bad a (b :: r) = bad a b := rfl
    rw [hhb]
    cases bad a b <;> cases pairScan bad (b :: r) <;>
      cases joinBad bad (b :: r) y <;> cases pairScan bad y <;> rfl

theorem pairScan_append_false (bad : Char → Char → Bool) {x y : List Char}
    (h : pairScan bad (x ++ y) = false) :
    pairScan bad x = false ∧ pairScan bad y = false := by
  rw [pairScan_append] at h
  constructor
  · cases hx : pairScan bad x
    · rfl
    · rw [hx] at h; simp at h
  · cases hy : pairScan bad y
    · rfl
    · rw [hy] at h; simp at h

theorem pairScan_isInfix {bad : Char → Char → Bool} {m l : List Char}
    (hm : m <:+: l) (h : pairScan bad l = false) : pairScan bad m = false := by
  obtain ⟨s, t, hst⟩ := hm
  have h1 : pairScan bad (m ++ t) = false := by
    have : pairScan bad (s ++ (m ++ t)) = false := by
      rw [← List.append_assoc, hst]; exact h
    exact (pairScan_append_false bad this).2
  exact (pairScan_append_false bad h1).1

/-! ## Whitespace character classes -/

/-- All characters space-like (`s.strip()` would erase the whole string). -/
def wsOnly (l : List Char) : Bool := l.all (fun c => isPySpace c)

/-- A space-like character other than the newline. -/
def wsX (c : Char) : Bool := isPySpace c && ¬c = '\n'

/-- Forbidden pair when every line is stripped: horizontal whitespace
touching a newline. -/
def badWN (a b : Char) : Bool := (wsX a && b = '\n') || (a = '\n' && wsX b)

/-- Two adjacent newlines. -/
def badNN (a b : Char) : Bool := a = '\n' && b = '\n'

/-- Two adjacent `[ \t]` characters (what `re.sub(r"[ \t]{2,}")` rewrites). -/
def badSS (a b : Char) : Bool := isSpTab a && isSpTab b

theorem wsOnly_append (a b : List Char) :
    wsOnly (a ++ b) = (wsOnly a && wsOnly b) := by
  simp [wsOnly, List.all_append]

/-! ## Structure of `pyStrip` -/

/-- Python `s.strip()` for the trailing side. -/
def dropTrailWs (l : List Char) : List Char :=
  (l.reverse.dropWhile (fun c => isPySpace c)).reverse

theorem pyStrip_decompose (l : List Char) :
    pyStrip l = dropTrailWs (dropLeadWs l) := rfl

theorem head_dropWhile_not (p : Char → Bool) :
    ∀ l : List Char, ∀ c0, (l.dropWhile p).head? = some c0 → p c0 = false
  | [], c0 => by intro h; exact absurd h (by simp)
  | c :: r, c0 => by
    intro h
    by_cases hc : p c
    · rw [List.dropWhile_cons_of_pos hc] at h
      exact head_dropWhile_not p r c0 h
    · rw [List.dropWhile_cons_of_neg hc] at h
      simp only [List.head?_cons, Option.some.injEq] at h
      rw [← h]
      exact Bool.eq_false_iff.mpr hc

theorem dropLeadWs_head (l : List Char) (c0 : Char)
    (h : (dropLeadWs l).head? = some c0) : isPySpace c0 = false :=
  head_dropWhile_not _ l c0 h

theorem dropLeadWs_id (l : List Char)
    (h : ∀ c0, l.head? = some c0 → isPySpace c0 = false) : dropLeadWs l = l := by
  cases l with
  | nil => rfl
  | cons c r =>
    have := h c (by rfl)
    unfold dropLeadWs
    rw [List.dropWhile_cons_of_neg (by rw [this]; exact Bool.false_ne_true)]

theorem dropTrailWs_id (l : List Char)
    (h : ∀ c0, l.getLast? = some c0 → isPySpace c0 = false) : dropTrailWs l = l := by
  unfold dropTrailWs
  have hh : ∀ c0, l.reverse.head? = some c0 → isPySpace c0 = false := by
    intro c0 hc
    rw [List.head?_reverse] at hc
    exact h c0 hc
  have : l.reverse.dropWhile (fun c => isPySpace c) = l.reverse :=
    dropLeadWs_id l.reverse hh
  rw [this, List.reverse_reverse]

theorem dropLeadWs_suffix (l : List Char) : dropLeadWs l <:+ l :=
  List.dropWhile_suffix _

theorem dropTrailWs_isPrefix (l : List Char) : dropTrailWs l <+: l := by
  have hs : l.reverse.dropWhile (fun c => isPySpace c) <:+ l.reverse :=
    List.dropWhile_suffix _
  have := List.reverse_prefix.mpr hs
  rw [List.reverse_reverse] at this
  exact this

theorem pyStrip_isInfix (l : List Char) : pyStrip l <:+: l := by
  rw [pyStrip_decompose]
  exact ((dropTrailWs_isPrefix (dropLeadWs l)).isInfix).trans
    ((dropLeadWs_suffix l).isInfix)

theorem prefix_head? {s m : List Char} (h : s <+: m) (hs : s ≠ []) :
    s.head? = m.head? := by
  obtain ⟨t, ht⟩ := h
  cases s with
  | nil => exact absurd rfl hs
  | cons c r => rw [← ht]; rfl

theorem suffix_getLast? {s m : List Char} (h : s <:+ m) (hs : s ≠ []) :
    s.getLast? = m.getLast? := by
  obtain ⟨t, ht⟩ := h
  rw [← ht]
  exact (List.getLast?_append_of_ne_nil t hs).symm

theorem pyStrip_head (l : List Char) (c0 : Char)
    (h : (pyStrip l).head? = some c0) : isPySpace c0 = false := by
  rw [pyStrip_decompose] at h
  have hne : dropTrailWs (dropLeadWs l) ≠ [] := by
    intro he; rw [he] at h; exact absurd h (by simp)
  rw [prefix_head? (dropTrailWs_isPrefix (dropLeadWs l)) hne] at h
  exact dropLeadWs_head l c0 h

theorem pyStrip_last (l : List Char) (c0 : Char)
    (h : (pyStrip l).getLast? = some c0) : isPySpace c0 = false := by
  rw [pyStrip_decompose] at h
  unfold dropTrailWs at h
  rw [List.getLast?_reverse] at h
  exact head_dropWhile_not _ _ c0 h

theorem pyStrip_idem (l : List Char) : pyStrip (pyStrip l) = pyStrip l := by
  have h1 : dropLeadWs (pyStrip l) = pyStrip l :=
    dropLeadWs_id _ (pyStrip_head l)
  rw [pyStrip_decompose, h1]
  exact dropTrailWs_id _ (pyStrip_last l)

theorem wsOnly_iff (l : List Char) :
    wsOnly l = true ↔ ∀ c ∈ l, isPySpace c = true := by
  simp [wsOnly, List.all_eq_true]

theorem dropLeadWs_nil_iff (l : List Char) :
    dropLeadWs l = [] ↔ wsOnly l = true := by
  unfold dropLeadWs
  rw [List.dropWhile_eq_nil_iff, wsOnly_iff]

theorem pyStrip_nil_iff (l : List Char) :
    pyStrip l = [] ↔ wsOnly l = true := by
  constructor
  · intro h
    rw [pyStrip_decompose] at h
    unfold dropTrailWs at h
    have h2 : (dropLeadWs l).reverse.dropWhile (fun c => isPySpace c) = [] := by
      have := congrArg List.reverse h
      simpa using this
    have h4 : ∀ c ∈ dropLeadWs l, isPySpace c = true := by
      intro c hc
      exact List.dropWhile_eq_nil_iff.mp h2 c (List.mem_reverse.mpr hc)
    have hsplit : l.takeWhile (fun c => isPySpace c) ++
        l.dropWhile (fun c => isPySpace c) = l :=
      List.takeWhile_append_dropWhile (fun c => isPySpace c) l
    rw [wsOnly_iff]
    intro c hc
    rw [← hsplit] at hc
    rcases List.mem_append.mp hc with hm | hm
    · exact List.mem_takeWhile_imp hm
    · exact h4 c hm
  · intro h
    have h1 : dropLeadWs l = [] := (dropLeadWs_nil_iff l).mpr h
    rw [pyStrip_decompose, h1]
    rfl

theorem pyStrip_id (l : List Char)
    (hh : ∀ c0, l.head? = some c0 → isPySpace c0 = false)
    (hl : ∀ c0, l.getLast? = some c0 → isPySpace c0 = false) : pyStrip l = l := by
  rw [pyStrip_decompose, dropLeadWs_id l hh, dropTrailWs_id l hl]

theorem dropLeadWs_ws_append (a x : List Char) (ha : wsOnly a = true) :
    dropLeadWs (a ++ x) = dropLeadWs x := by
  induction a with
  | nil => rfl
  | cons c r ih =>
    rw [wsOnly_iff] at ha
    have hc : isPySpace c = true := ha c (by simp)
    show dropLeadWs (c :: (r ++ x)) = _
    unfold dropLeadWs
    rw [List.dropWhile_cons_of_pos (by simpa using hc)]
    exact ih ((wsOnly_iff r).mpr (fun d hd => ha d (by simp [hd])))

theorem pyStrip_ws_append (a x : List Char) (ha : wsOnly a = true) :
    pyStrip (a ++ x) = pyStrip x := by
  rw [pyStrip_decompose, pyStrip_decompose, dropLeadWs_ws_append a x ha]

/-! ## Lines (`splitOnNL`) algebra -/

theorem splitOnNL_cons_nl (r : List Char) :
    splitOnNL ('\n' :: r) = [] :: splitOnNL r := by
  show (if _ then _ else _) = _
  rw [if_pos rfl]

theorem splitOnNL_cons_ne (c : Char) (r : List Char) (h : ¬c = '\n') :
    splitOnNL (c :: r) = consHead c (splitOnNL r) := by
  show (if _ then _ else _) = _
  rw [if_neg h]

theorem consHead_append (c : Char) (L1 L2 : List (List Char)) (h : L1 ≠ []) :
    consHead c (L1 ++ L2) = consHead c L1 ++ L2 := by
  cases L1 with
  | nil => exact absurd rfl h
  | cons l ls => rfl

theorem noNL_lines : ∀ l : List Char, ∀ x ∈ splitOnNL l, '\n' ∉ x
  | [], x => by
    intro hx
    have : x = [] := by simpa [splitOnNL] using hx
    simp [this]
  | c :: r, x => by
    intro hx
    by_cases hc : c = '\n'
    · subst hc
      rw [splitOnNL_cons_nl] at hx
      rcases List.mem_cons.mp hx with h | h
      · simp [h]
      · exact noNL_lines r x h
    · rw [splitOnNL_cons_ne c r hc] at hx
      rcases hl : splitOnNL r with _ | ⟨l0, ls⟩
      · exact absurd hl (splitOnNL_ne_nil r)
      · rw [hl] at hx
        unfold consHead at hx
        rcases List.mem_cons.mp hx with h | h
        · subst h
          intro hmem
          rcases List.mem_cons.mp hmem with h2 | h2
          · exact hc h2.symm
          · exact noNL_lines r l0 (by rw [hl]; exact List.mem_cons_self l0 ls) h2
        · exact noNL_lines r x (by rw [hl]; exact List.mem_cons_of_mem l0 h)

theorem splitOnNL_noNL : ∀ l : List Char, '\n' ∉ l → splitOnNL l = [l]
  | [], _ => rfl
  | c :: r, h => by
    have hc : ¬c = '\n' := by
      intro hc; exact h (by simp [hc])
    rw [splitOnNL_cons_ne c r hc, splitOnNL_noNL r (fun hm => h (by simp [hm]))]
    rfl

theorem splitOnNL_append_nl : ∀ a b : List Char,
    splitOnNL (a ++ '\n' :: b) = splitOnNL a ++ splitOnNL b
  | [], b => by
    show splitOnNL ('\n' :: b) = _
    rw [splitOnNL_cons_nl]
    rfl
  | c :: a2, b => by
    show splitOnNL (c :: (a2 ++ '\n' :: b)) = _
    by_cases hc : c = '\n'
    · subst hc
      rw [splitOnNL_cons_nl, splitOnNL_cons_nl, splitOnNL_append_nl a2 b]
      rfl
    · rw [splitOnNL_cons_ne c _ hc, splitOnNL_cons_ne c _ hc,
        splitOnNL_append_nl a2 b,
        consHead_append c _ _ (splitOnNL_ne_nil a2)]

/-- Prefix a character string onto the first piece of a split result. -/
def prependFirst (a : List Char) : List (List Char) → List (List Char)
  | [] => [a]
  | l :: ls => (a ++ l) :: ls

theorem consHead_prependFirst (c : Char) (a : List Char) (L : List (List Char)) :
    consHead c (prependFirst a L) = prependFirst (c :: a) L := by
  cases L <;> rfl

theorem splitOnNL_append_noNL : ∀ a z : List Char, '\n' ∉ a →
    splitOnNL (a ++ z) = prependFirst a (splitOnNL z)
  | [], z, _ => by
    rcases hl : splitOnNL z with _ | ⟨l0, ls⟩
    · exact absurd hl (splitOnNL_ne_nil z)
    · rw [List.nil_append, hl]
      rfl
  | c :: a2, z, h => by
    have hc : ¬c = '\n' := by
      intro hc; exact h (by simp [hc])
    show splitOnNL (c :: (a2 ++ z)) = _
    rw [splitOnNL_cons_ne c _ hc,
      splitOnNL_append_noNL a2 z (fun hm => h (by simp [hm])),
      consHead_prependFirst]

/-- The part of a string before its first newline. -/
def firstLine (l : List Char) : List Char := l.takeWhile (fun c => ¬c = '\n')

theorem splitOnNL_head : ∀ l : List Char,
    (splitOnNL l).head? = some (firstLine l)
  | [] => rfl
  | c :: r => by
    by_cases hc : c = '\n'
    · subst hc
      rw [splitOnNL_cons_nl]
      show some [] = some (firstLine ('\n' :: r))
      unfold firstLine
      rw [List.takeWhile_cons_of_neg (by simp)]
    · rw [splitOnNL_cons_ne c r hc]
      have IH := splitOnNL_head r
      rcases hl : splitOnNL r with _ | ⟨l0, ls⟩
      · exact absurd hl (splitOnNL_ne_nil r)
      · rw [hl] at IH
        have hl0 : l0 = firstLine r := by simpa using IH
        unfold consHead
        show some (c :: l0) = some (firstLine (c :: r))
        unfold firstLine
        rw [List.takeWhile_cons_of_pos (by simpa using hc), hl0]
        rfl

theorem mem_drop_one_append (a b : List Char) :
    ∀ x, x ∈ (splitOnNL b).drop 1 → x ∈ (splitOnNL (a ++ b)).drop 1 := by
  induction a with
  | nil => intro x hx; exact hx
  | cons c a2 ih =>
    intro x hx
    show x ∈ (splitOnNL (c :: (a2 ++ b))).drop 1
    by_cases hc : c = '\n'
    · subst hc
      rw [splitOnNL_cons_nl]
      show x ∈ splitOnNL (a2 ++ b)
      have := ih x hx
      exact List.mem_of_mem_drop this
    · rw [splitOnNL_cons_ne c _ hc]
      rcases hl : splitOnNL (a2 ++ b) with _ | ⟨l0, ls⟩
      · exact absurd hl (splitOnNL_ne_nil _)
      · unfold consHead
        show x ∈ ls
        have := ih x hx
        rw [hl] at this
        simpa using this

theorem splitOnNL_intercalate : ∀ ls : List (List Char), ls ≠ [] →
    (∀ p ∈ ls, '\n' ∉ p) →
    splitOnNL (List.intercalate ['\n'] ls) = ls
  | [], h, _ => absurd rfl h
  | [a], _, hp => by
    rw [intercalate_single]
    exact splitOnNL_noNL a (hp a (by simp))
  | a :: b :: ls, _, hp => by
    rw [intercalate_cons2, List.append_assoc, List.singleton_append,
      splitOnNL_append_nl,
      splitOnNL_noNL a (hp a (by simp)),
      splitOnNL_intercalate (b :: ls) (by simp)
        (fun p hm => hp p (List.mem_cons_of_mem a hm))]
    rfl

/-- Every line is a fixed point of `strip()`. -/
def linesStripped (l : List Char) : Prop :=
  ∀ x ∈ splitOnNL l, pyStrip x = x

/-- Every whitespace-only line is empty. -/
def okLines (l : List Char) : Prop :=
  ∀ x ∈ splitOnNL l, wsOnly x = true → x = []

/-! ## Triple newlines (`re.sub(r"\n{3,}")` residue) -/

/-- `true` iff the list contains three consecutive newlines. -/
def hasTriple : List Char → Bool
  | a :: b :: c :: r => (a = '\n' && b = '\n' && c = '\n') || hasTriple (b :: c :: r)
  | _ => false

theorem hasTriple_cons_of_ne (c : Char) (l : List Char) (hc : ¬c = '\n') :
    hasTriple (c :: l) = hasTriple l := by
  match l with
  | [] => rfl
  | [b] => rfl
  | b :: d :: r =>
    show ((c = '\n' && b = '\n' && d = '\n') || hasTriple (b :: d :: r)) = _
    simp [hc]

theorem hasTriple_cons_mono (c : Char) (l : List Char) (h : hasTriple l = true) :
    hasTriple (c :: l) = true := by
  match l with
  | [] => exact absurd h (by simp [hasTriple])
  | [b] => exact absurd h (by simp [hasTriple])
  | b :: d :: r =>
    show ((c = '\n' && b = '\n' && d = '\n') || hasTriple (b :: d :: r)) = true
    rw [h]
    simp

theorem hasTriple_append_left (x y : List Char) (h : hasTriple y = true) :
    hasTriple (x ++ y) = true := by
  induction x with
  | nil => exact h
  | cons c r ih => exact hasTriple_cons_mono c (r ++ y) ih

theorem hasTriple_append_right : ∀ x y : List Char, hasTriple x = true →
    hasTriple (x ++ y) = true
  | [], _, h => absurd h (by simp [hasTriple])
  | [_], _, h => absurd h (by simp [hasTriple])
  | [_, _], _, h => absurd h (by simp [hasTriple])
  | a :: b :: c :: r, y, h => by
    have hu : hasTriple (a :: b :: c :: r) =
        ((a = '\n' && b = '\n' && c = '\n') || hasTriple (b :: c :: r)) := rfl
    rw [hu] at h
    show ((a = '\n' && b = '\n' && c = '\n') || hasTriple (b :: c :: (r ++ y))) = true
    rcases Bool.or_eq_true_iff.mp h with hw | ht
    · rw [hw]; simp
    · have := hasTriple_append_right (b :: c :: r) y ht
      rw [List.cons_append, List.cons_append] at this
      rw [this]
      simp

theorem hasTriple_isInfix {m l : List Char} (hm : m <:+: l)
    (h : hasTriple m = true) : hasTriple l = true := by
  obtain ⟨s, t, hst⟩ := hm
  rw [← hst, List.append_assoc]
  exact hasTriple_append_left s _ (hasTriple_append_right m t h)

theorem hasTriple_noNL_append (a z : List Char) (ha : '\n' ∉ a) :
    hasTriple (a ++ z) = hasTriple z := by
  induction a with
  | nil => rfl
  | cons c r ih =>
    have hc : ¬c = '\n' := fun hc => ha (by simp [hc])
    show hasTriple (c :: (r ++ z)) = _
    rw [hasTriple_cons_of_ne c _ hc, ih (fun hm => ha (by simp [hm]))]

theorem hasTriple_noNL (a : List Char) (ha : '\n' ∉ a) : hasTriple a = false := by
  have := hasTriple_noNL_append a [] ha
  rw [List.append_nil] at this
  rw [this]
  rfl

theorem hasTriple_replicate (n : Nat) (hn : n ≤ 2) :
    hasTriple (List.replicate n '\n') = false := by
  match n, hn with
  | 0, _ => rfl
  | 1, _ => rfl
  | 2, _ => rfl

theorem hasTriple_replicate_three (n : Nat) (hn : 3 ≤ n) :
    hasTriple (List.replicate n '\n') = true := by
  match n, hn with
  | m + 3, _ =>
    show hasTriple ('\n' :: '\n' :: '\n' :: List.replicate m '\n') = true
    show ((('\n' : Char) = '\n' && ('\n' : Char) = '\n' && ('\n' : Char) = '\n')
      || hasTriple ('\n' :: '\n' :: List.replicate m '\n')) = true
    simp

theorem hasTriple_nl_cons_ne (c : Char) (x : List Char) (hc : ¬c = '\n') :
    hasTriple ('\n' :: c :: x) = hasTriple (c :: x) := by
  match x with
  | [] => rfl
  | d :: r =>
    show ((('\n' : Char) = '\n' && c = '\n' && d = '\n') || hasTriple (c :: d :: r)) = _
    simp [hc]

theorem hasTriple_nl_nl_cons_ne (c : Char) (x : List Char) (hc : ¬c = '\n') :
    hasTriple ('\n' :: '\n' :: c :: x) = hasTriple ('\n' :: c :: x) := by
  show ((('\n' : Char) = '\n' && ('\n' : Char) = '\n' && c = '\n')
    || hasTriple ('\n' :: c :: x)) = _
  simp [hc]

theorem squeezeNLAux_eq_of_noTriple : ∀ (l : List Char) (n : Nat),
    hasTriple (List.replicate n '\n' ++ l) = false →
    squeezeNLAux n l = List.replicate n '\n' ++ l
  | [], n, h => by
    rw [List.append_nil] at h
    have hn : n ≤ 2 := by
      by_contra hgt
      rw [hasTriple_replicate_three n (by omega)] at h
      simp at h
    show flushNL n = _
    unfold flushNL
    rw [Nat.min_eq_left hn, List.append_nil]
  | c :: r, n, h => by
    by_cases hc : c = '\n'
    · subst hc
      have hrep : List.replicate n '\n' ++ '\n' :: r =
          List.replicate (n + 1) '\n' ++ r := by
        rw [List.replicate_succ', List.append_assoc]
        rfl
      rw [hrep] at h
      show squeezeNLAux (n + 1) r = _
      rw [squeezeNLAux_eq_of_noTriple r (n + 1) h, hrep]
    · have hr : hasTriple r = false := by
        by_contra ht
        have h1 : hasTriple (c :: r) = true :=
          hasTriple_cons_mono c r (by revert ht; cases hasTriple r <;> simp)
        rw [hasTriple_append_left _ _ h1] at h
        simp at h
      have hn : n ≤ 2 := by
        by_contra hgt
        rw [hasTriple_append_right _ _ (hasTriple_replicate_three n (by omega))] at h
        simp at h
      show (if c = '\n' then squeezeNLAux (n + 1) r
        else flushNL n ++ c :: squeezeNLAux 0 r) = _
      rw [if_neg hc]
      have h0 : squeezeNLAux 0 r = r := by
        have h00 : hasTriple (List.replicate 0 '\n' ++ r) = false := by
          simpa using hr
        have := squeezeNLAux_eq_of_noTriple r 0 h00
        simpa using this
      rw [h0]
      unfold flushNL
      rw [Nat.min_eq_left hn]

theorem squeezeNLAux_cons_nl (n : Nat) (r : List Char) :
    squeezeNLAux n ('\n' :: r) = squeezeNLAux (n + 1) r := by
  show (if ('\n' : Char) = '\n' then squeezeNLAux (n + 1) r
    else flushNL n ++ '\n' :: squeezeNLAux 0 r) = _
  rw [if_pos rfl]

theorem squeezeNLAux_cons_ne (n : Nat) (c : Char) (r : List Char) (hc : ¬c = '\n') :
    squeezeNLAux n (c :: r) = flushNL n ++ c :: squeezeNLAux 0 r := by
  show (if c = '\n' then squeezeNLAux (n + 1) r
    else flushNL n ++ c :: squeezeNLAux 0 r) = _
  rw [if_neg hc]

theorem hasTriple_flush_cons (n : Nat) (c : Char) (X : List Char) (hc : ¬c = '\n')
    (hX : hasTriple (c :: X) = false) :
    hasTriple (flushNL n ++ c :: X) = false := by
  unfold flushNL
  have h3 : min n 2 = 0 ∨ min n 2 = 1 ∨ min n 2 = 2 := by omega
  rcases h3 with h3 | h3 | h3 <;> rw [h3]
  · exact hX
  · show hasTriple ('\n' :: c :: X) = false
    rw [hasTriple_nl_cons_ne c X hc]
    exact hX
  · show hasTriple ('\n' :: '\n' :: c :: X) = false
    rw [hasTriple_nl_nl_cons_ne c X hc, hasTriple_nl_cons_ne c X hc]
    exact hX

theorem hasTriple_squeezeNLAux : ∀ (l : List Char) (n : Nat),
    hasTriple (squeezeNLAux n l) = false
  | [], n => by
    show hasTriple (flushNL n) = false
    unfold flushNL
    exact hasTriple_replicate _ (by omega)
  | c :: r, n => by
    by_cases hc : c = '\n'
    · subst hc
      rw [squeezeNLAux_cons_nl]
      exact hasTriple_squeezeNLAux r (n + 1)
    · rw [squeezeNLAux_cons_ne n c r hc]
      apply hasTriple_flush_cons n c _ hc
      rw [hasTriple_cons_of_ne c _ hc]
      exact hasTriple_squeezeNLAux r 0

/-! ## Newline-run structure is determined by the line emptiness pattern -/

/-- Newline-free line lists with the same emptiness pattern. -/
def linesRel (p q : List Char) : Prop := '\n' ∉ p ∧ '\n' ∉ q ∧ (p = [] ↔ q = [])

/-- Whether the list starts with a newline. -/
def headNl : List Char → Bool
  | c :: _ => c = '\n'
  | [] => false

theorem hasTriple_nl_nl (z : List Char) :
    hasTriple ('\n' :: '\n' :: z) = (headNl z || hasTriple ('\n' :: z)) := by
  cases z with
  | nil => rfl
  | cons z0 zr =>
    show ((('\n' : Char) = '\n' && ('\n' : Char) = '\n' && z0 = '\n')
      || hasTriple ('\n' :: z0 :: zr)) = _
    unfold headNl
    simp

theorem hasTriple_nl_noNL_append (b z : List Char) (hb : '\n' ∉ b) (hne : b ≠ []) :
    hasTriple ('\n' :: (b ++ z)) = hasTriple z := by
  cases b with
  | nil => exact absurd rfl hne
  | cons x b2 =>
    have hx : ¬x = '\n' := fun h => hb (by simp [h])
    rw [List.cons_append, hasTriple_nl_cons_ne x _ hx,
      hasTriple_cons_of_ne x _ hx,
      hasTriple_noNL_append b2 z (fun hm => hb (by simp [hm]))]

theorem headNl_intercalate : ∀ (c : List Char) (ls : List (List Char)), '\n' ∉ c →
    headNl (List.intercalate ['\n'] (c :: ls)) =
      (decide (c = []) && decide (ls ≠ [])) := by
  intro c ls hc
  cases c with
  | nil =>
    cases ls with
    | nil => rfl
    | cons b ls2 =>
      rw [intercalate_cons2]
      show headNl ([] ++ ['\n'] ++ _) = _
      simp [headNl]
  | cons x c2 =>
    have hx : ¬x = '\n' := fun h => hc (by simp [h])
    cases ls with
    | nil =>
      rw [intercalate_single]
      show (decide (x = '\n')) = _
      simp [hx]
    | cons b ls2 =>
      rw [intercalate_cons2]
      show headNl ((x :: c2) ++ ['\n'] ++ _) = _
      simp [headNl, hx]

theorem hasTriple_nl_join : ∀ {ls1 ls2 : List (List Char)},
    List.Forall₂ linesRel ls1 ls2 →
    hasTriple ('\n' :: List.intercalate ['\n'] ls1) =
      hasTriple ('\n' :: List.intercalate ['\n'] ls2) := by
  intro ls1 ls2 h
  induction h with
  | nil => rfl
  | cons h12 htail IH =>
    rename_i b1 b2 ls1t ls2t
    obtain ⟨hn1, hn2, hiff⟩ := h12
    by_cases hb : b1 = []
    · have hb2 : b2 = [] := hiff.mp hb
      subst hb; subst hb2
      cases htail with
      | nil => rfl
      | cons h12b htail2 =>
        rename_i c1 c2 ls1u ls2u
        rw [intercalate_cons2, intercalate_cons2]
        simp only [List.nil_append, List.singleton_append]
        rw [hasTriple_nl_nl, hasTriple_nl_nl]
        have hIH : hasTriple ('\n' :: List.intercalate ['\n'] (c1 :: ls1u)) =
            hasTriple ('\n' :: List.intercalate ['\n'] (c2 :: ls2u)) := IH
        rw [hIH]
        have hhd : headNl (List.intercalate ['\n'] (c1 :: ls1u)) =
            headNl (List.intercalate ['\n'] (c2 :: ls2u)) := by
          rw [headNl_intercalate c1 ls1u h12b.1,
            headNl_intercalate c2 ls2u h12b.2.1]
          have hce : (c1 = []) ↔ (c2 = []) := h12b.2.2
          have hle : (ls1u = []) ↔ (ls2u = []) := by
            constructor
            · intro h0
              subst h0
              cases htail2 with
              | nil => rfl
            · intro h0
              subst h0
              cases htail2 with
              | nil => rfl
          by_cases hc1 : c1 = []
          · have hc2 : c2 = [] := hce.mp hc1
            by_cases hl1 : ls1u = []
            · have hl2 : ls2u = [] := hle.mp hl1
              simp [hc1, hc2, hl1, hl2]
            · have hl2 : ¬ls2u = [] := fun h0 => hl1 (hle.mpr h0)
              simp [hc1, hc2, hl1, hl2]
          · have hc2 : ¬c2 = [] := fun h0 => hc1 (hce.mpr h0)
            simp [hc1, hc2]
        rw [hhd]
    · have hb2 : b2 ≠ [] := fun h0 => hb (hiff.mpr h0)
      cases htail with
      | nil =>
        rw [intercalate_single, intercalate_single]
        have e1 : hasTriple ('\n' :: b1) = hasTriple ([] : List Char) := by
          have := hasTriple_nl_noNL_append b1 [] hn1 hb
          rwa [List.append_nil] at this
        have e2 : hasTriple ('\n' :: b2) = hasTriple ([] : List Char) := by
          have := hasTriple_nl_noNL_append b2 [] hn2 hb2
          rwa [List.append_nil] at this
        rw [e1, e2]
      | cons h12b htail2 =>
        rename_i c1 c2 ls1u ls2u
        rw [intercalate_cons2, intercalate_cons2, List.append_assoc,
          List.append_assoc, List.singleton_append, List.singleton_append]
        rw [hasTriple_nl_noNL_append b1 _ hn1 hb,
          hasTriple_nl_noNL_append b2 _ hn2 hb2]
        exact IH

theorem hasTriple_intercalate_rel {ls1 ls2 : List (List Char)}
    (h : List.Forall₂ linesRel ls1 ls2) :
    hasTriple (List.intercalate ['\n'] ls1) =
      hasTriple (List.intercalate ['\n'] ls2) := by
  cases h with
  | nil => rfl
  | cons h12 htail =>
    rename_i b1 b2 ls1t ls2t
    cases htail with
    | nil =>
      rw [intercalate_single, intercalate_single,
        hasTriple_noNL b1 h12.1, hasTriple_noNL b2 h12.2.1]
    | cons h12b htail2 =>
      rename_i c1 c2 ls1u ls2u
      rw [intercalate_cons2, intercalate_cons2, List.append_assoc,
        List.append_assoc, List.singleton_append, List.singleton_append]
      rw [hasTriple_noNL_append b1 _ h12.1, hasTriple_noNL_append b2 _ h12.2.1]
      exact hasTriple_nl_join (List.Forall₂.cons h12b htail2)

theorem forall2_linesRel_map (f : List Char → List Char) :
    ∀ ls : List (List Char), (∀ x ∈ ls, linesRel (f x) x) →
      List.Forall₂ linesRel (ls.map f) ls
  | [], _ => List.Forall₂.nil
  | x :: ls, h => by
    rw [List.map_cons]
    exact List.Forall₂.cons (h x (by simp))
      (forall2_linesRel_map f ls (fun y hy => h y (List.mem_cons_of_mem x hy)))

/-! ## `squeezeSP` structure -/

theorem squeezeSPAux_nil (run : List Char) : squeezeSPAux run [] = emitRun run := rfl

theorem squeezeSPAux_cons_sp (run : List Char) (c : Char) (r : List Char)
    (hc : isSpTab c = true) :
    squeezeSPAux run (c :: r) = squeezeSPAux (run ++ [c]) r := by
  show (if isSpTab c then squeezeSPAux (run ++ [c]) r
    else emitRun run ++ c :: squeezeSPAux [] r) = _
  rw [if_pos hc]

theorem squeezeSPAux_cons_ne (run : List Char) (c : Char) (r : List Char)
    (hc : isSpTab c = false) :
    squeezeSPAux run (c :: r) = emitRun run ++ c :: squeezeSPAux [] r := by
  show (if isSpTab c then squeezeSPAux (run ++ [c]) r
    else emitRun run ++ c :: squeezeSPAux [] r) = _
  rw [if_neg (by simp [hc])]

theorem isSpTab_isPySpace (c : Char) (h : isSpTab c = true) : isPySpace c = true := by
  have h2 : c = ' ' ∨ c = '\t' := by simpa [isSpTab] using h
  rcases h2 with h1 | h1 <;> simp [isPySpace, h1]

theorem isSpTab_ne_nl (c : Char) (h : isSpTab c = true) : ¬c = '\n' := by
  intro hc
  subst hc
  simp [isSpTab] at h

theorem mem_emitRun (c : Char) (run : List Char) (h : c ∈ emitRun run) :
    c ∈ run ∨ c = ' ' := by
  unfold emitRun at h
  by_cases h2 : 2 ≤ run.length
  · rw [if_pos h2] at h
    right
    simpa using h
  · rw [if_neg h2] at h
    left
    exact h

theorem mem_squeezeSPAux : ∀ (l run : List Char) (c : Char),
    c ∈ squeezeSPAux run l → c ∈ run ∨ c ∈ l ∨ c = ' '
  | [], run, c => fun h => by
    rcases mem_emitRun c run h with h1 | h1
    · exact Or.inl h1
    · exact Or.inr (Or.inr h1)
  | d :: r, run, c => fun h => by
    by_cases hd : isSpTab d
    · rw [squeezeSPAux_cons_sp run d r hd] at h
      rcases mem_squeezeSPAux r (run ++ [d]) c h with h1 | h1 | h1
      · rcases List.mem_append.mp h1 with h2 | h2
        · exact Or.inl h2
        · exact Or.inr (Or.inl (by simpa using Or.inl (by simpa using h2)))
      · exact Or.inr (Or.inl (List.mem_cons_of_mem d h1))
      · exact Or.inr (Or.inr h1)
    · rw [squeezeSPAux_cons_ne run d r (by simpa using hd)] at h
      rcases List.mem_append.mp h with h1 | h1
      · rcases mem_emitRun c run h1 with h2 | h2
        · exact Or.inl h2
        · exact Or.inr (Or.inr h2)
      · rcases List.mem_cons.mp h1 with h2 | h2
        · exact Or.inr (Or.inl (by simp [h2]))
        · rcases mem_squeezeSPAux r [] c h2 with h3 | h3 | h3
          · exact absurd h3 (List.not_mem_nil c)
          · exact Or.inr (Or.inl (List.mem_cons_of_mem d h3))
          · exact Or.inr (Or.inr h3)

theorem noNL_squeezeSPAux (l run : List Char) (hr : '\n' ∉ run) (hl : '\n' ∉ l) :
    '\n' ∉ squeezeSPAux run l := by
  intro h
  rcases mem_squeezeSPAux l run '\n' h with h1 | h1 | h1
  · exact hr h1
  · exact hl h1
  · exact absurd h1 (by decide)

theorem emitRun_ne_nil (run : List Char) (h : run ≠ []) : emitRun run ≠ [] := by
  unfold emitRun
  by_cases h2 : 2 ≤ run.length
  · rw [if_pos h2]; simp
  · rw [if_neg h2]; exact h

theorem squeezeSPAux_ne_nil : ∀ (l run : List Char), l ≠ [] ∨ run ≠ [] →
    squeezeSPAux run l ≠ []
  | [], run, h => by
    rcases h with h | h
    · exact absurd rfl h
    · exact emitRun_ne_nil run h
  | c :: r, run, _ => by
    by_cases hc : isSpTab c
    · rw [squeezeSPAux_cons_sp run c r hc]
      exact squeezeSPAux_ne_nil r (run ++ [c]) (Or.inr (by simp))
    · rw [squeezeSPAux_cons_ne run c r (by simpa using hc)]
      simp

theorem squeezeSP_nil_iff (l : List Char) : squeezeSP l = [] ↔ l = [] := by
  constructor
  · intro h
    by_contra hne
    exact squeezeSPAux_ne_nil l [] (Or.inl hne) h
  · intro h
    subst h
    rfl

/-- Map `squeezeSP` over a line list, threading the pending run into the
first line. -/
def mapFirstSqz (run : List Char) : List (List Char) → List (List Char)
  | f :: ls => squeezeSPAux run f :: ls.map squeezeSP
  | [] => []

theorem splitOnNL_squeezeSPAux : ∀ (y run : List Char),
    (∀ c ∈ run, isSpTab c = true) →
    splitOnNL (squeezeSPAux run y) = mapFirstSqz run (splitOnNL y)
  | [], run, hr => by
    rw [squeezeSPAux_nil]
    have hnl : '\n' ∉ emitRun run := by
      intro h
      rcases mem_emitRun '\n' run h with h1 | h1
      · exact isSpTab_ne_nl '\n' (hr '\n' h1) rfl
      · exact absurd h1 (by decide)
    rw [splitOnNL_noNL _ hnl]
    rfl
  | c :: r, run, hr => by
    by_cases hc : isSpTab c
    · rw [squeezeSPAux_cons_sp run c r hc,
        splitOnNL_squeezeSPAux r (run ++ [c])
          (fun d hd => by
            rcases List.mem_append.mp hd with h1 | h1
            · exact hr d h1
            · rw [List.mem_singleton.mp h1]; exact hc),
        splitOnNL_cons_ne c r (isSpTab_ne_nl c hc)]
      rcases hl : splitOnNL r with _ | ⟨f, ls⟩
      · exact absurd hl (splitOnNL_ne_nil r)
      · dsimp only [mapFirstSqz, consHead]
        rw [squeezeSPAux_cons_sp run c f hc]
    · by_cases hcn : c = '\n'
      · subst hcn
        rw [squeezeSPAux_cons_ne run '\n' r (by simpa using hc)]
        have hnl : '\n' ∉ emitRun run := by
          intro h
          rcases mem_emitRun '\n' run h with h1 | h1
          · exact isSpTab_ne_nl '\n' (hr '\n' h1) rfl
          · exact absurd h1 (by decide)
        rw [splitOnNL_append_nl, splitOnNL_noNL _ hnl,
          splitOnNL_squeezeSPAux r [] (by simp), splitOnNL_cons_nl]
        rcases hl : splitOnNL r with _ | ⟨f, ls⟩
        · exact absurd hl (splitOnNL_ne_nil r)
        · unfold mapFirstSqz
          rfl
      · rw [squeezeSPAux_cons_ne run c r (by simpa using hc)]
        have ha : squeezeSPAux run (c :: r) = (emitRun run ++ [c]) ++ squeezeSPAux [] r := by
          rw [squeezeSPAux_cons_ne run c r (by simpa using hc), List.append_assoc,
            List.singleton_append]
        have hnl : '\n' ∉ emitRun run ++ [c] := by
          intro h
          rcases List.mem_append.mp h with h1 | h1
          · rcases mem_emitRun '\n' run h1 with h2 | h2
            · exact isSpTab_ne_nl '\n' (hr '\n' h2) rfl
            · exact absurd h2 (by decide)
          · exact hcn (List.mem_singleton.mp h1).symm
        rw [show emitRun run ++ c :: squeezeSPAux [] r =
            (emitRun run ++ [c]) ++ squeezeSPAux [] r by
          rw [List.append_assoc, List.singleton_append],
          splitOnNL_append_noNL _ _ hnl,
          splitOnNL_squeezeSPAux r [] (by simp),
          splitOnNL_cons_ne c r hcn]
        rcases hl : splitOnNL r with _ | ⟨f, ls⟩
        · exact absurd hl (splitOnNL_ne_nil r)
        · dsimp only [mapFirstSqz, consHead, prependFirst]
          rw [squeezeSPAux_cons_ne run c f (by simpa using hc)]
          rw [show emitRun run ++ [c] ++ squeezeSPAux [] f =
            emitRun run ++ c :: squeezeSPAux [] f by
              rw [List.append_assoc, List.singleton_append]]

theorem splitOnNL_squeezeSP (y : List Char) :
    splitOnNL (squeezeSP y) = (splitOnNL y).map squeezeSP := by
  unfold squeezeSP
  rw [splitOnNL_squeezeSPAux y [] (by simp)]
  rcases hl : splitOnNL y with _ | ⟨f, ls⟩
  · exact absurd hl (splitOnNL_ne_nil y)
  · rfl

theorem pairScan_short (bad : Char → Char → Bool) (l : List Char) (h : l.length ≤ 1) :
    pairScan bad l = false := by
  match l, h with
  | [], _ => rfl
  | [c], _ => rfl

theorem pairScan_emitRun (bad : Char → Char → Bool) (run : List Char) :
    pairScan bad (emitRun run) = false := by
  unfold emitRun
  by_cases h2 : 2 ≤ run.length
  · rw [if_pos h2]; rfl
  · rw [if_neg h2]
    exact pairScan_short bad run (by omega)

theorem squeezeSP_cons_ne (c : Char) (r : List Char) (hc : isSpTab c = false) :
    squeezeSP (c :: r) = c :: squeezeSPAux [] r := by
  unfold squeezeSP
  rw [squeezeSPAux_cons_ne [] c r hc]
  rfl

theorem getLast_cons_ne_nil (c : Char) (X : List Char) (h : X ≠ []) :
    (c :: X).getLast? = X.getLast? := by
  have h1 : c :: X = [c] ++ X := rfl
  rw [h1]
  exact List.getLast?_append_of_ne_nil [c] h

theorem squeezeSPAux_getLast : ∀ (l run : List Char) (c0 : Char),
    l.getLast? = some c0 → isSpTab c0 = false →
    (squeezeSPAux run l).getLast? = some c0
  | [c], run, c0, h, hsp => by
    have hc : c = c0 := by simpa using h
    subst hc
    rw [squeezeSPAux_cons_ne run c [] hsp]
    show (emitRun run ++ [c]).getLast? = some c
    exact List.getLast?_concat _
  | c :: d :: r, run, c0, h, hsp => by
    have hd : (d :: r).getLast? = some c0 := by
      rw [← getLast_cons_ne_nil c (d :: r) (by simp)]
      exact h
    by_cases hc : isSpTab c
    · rw [squeezeSPAux_cons_sp run c _ hc]
      exact squeezeSPAux_getLast (d :: r) (run ++ [c]) c0 hd hsp
    · rw [squeezeSPAux_cons_ne run c _ (by simpa using hc)]
      have hne : squeezeSPAux [] (d :: r) ≠ [] :=
        squeezeSPAux_ne_nil _ _ (Or.inl (by simp))
      rw [List.getLast?_append_of_ne_nil (emitRun run) (by simp),
        getLast_cons_ne_nil c _ hne]
      exact squeezeSPAux_getLast (d :: r) [] c0 hd hsp

theorem pairScan_badSS_squeezeSPAux : ∀ (l run : List Char),
    pairScan badSS (squeezeSPAux run l) = false
  | [], run => pairScan_emitRun badSS run
  | c :: r, run => by
    by_cases hc : isSpTab c
    · rw [squeezeSPAux_cons_sp run c r hc]
      exact pairScan_badSS_squeezeSPAux r (run ++ [c])
    · have hcf : isSpTab c = false := by simpa using hc
      rw [squeezeSPAux_cons_ne run c r hcf, pairScan_append,
        pairScan_emitRun badSS run, pairScan_cons,
        pairScan_badSS_squeezeSPAux r []]
      have h1 : headBad badSS c (squeezeSPAux [] r) = false := by
        cases squeezeSPAux [] r with
        | nil => rfl
        | cons d X =>
          show badSS c d = false
          simp [badSS, hcf]
      have h2 : joinBad badSS (emitRun run) (c :: squeezeSPAux [] r) = false := by
        unfold joinBad
        cases hg : (emitRun run).getLast? with
        | none => rfl
        | some a =>
          show badSS a c = false
          simp [badSS, hcf]
      rw [h1, h2]
      rfl

theorem pairScan_cons_false {bad : Char → Char → Bool} {c : Char} {l : List Char}
    (h : pairScan bad (c :: l) = false) : pairScan bad l = false := by
  rw [pairScan_cons] at h
  exact (Bool.or_eq_false_iff.mp h).2

theorem squeezeSP_id : ∀ l : List Char, pairScan badSS l = false → squeezeSP l = l
  | [], _ => rfl
  | [c], _ => by
    by_cases hc : isSpTab c
    · show squeezeSPAux [] [c] = [c]
      rw [squeezeSPAux_cons_sp [] c [] hc]
      rfl
    · show squeezeSPAux [] [c] = [c]
      rw [squeezeSPAux_cons_ne [] c [] (by simpa using hc)]
      rfl
  | c :: d :: r, h => by
    have hu : pairScan badSS (c :: d :: r) = (badSS c d || pairScan badSS (d :: r)) := rfl
    rw [hu] at h
    have hcd : badSS c d = false := (Bool.or_eq_false_iff.mp h).1
    have htail : pairScan badSS (d :: r) = false := (Bool.or_eq_false_iff.mp h).2
    by_cases hc : isSpTab c
    · have hdf : isSpTab d = false := by
        unfold badSS at hcd
        rw [hc] at hcd
        simpa using hcd
      show squeezeSPAux [] (c :: d :: r) = _
      rw [squeezeSPAux_cons_sp [] c _ hc]
      rw [show ([] : List Char) ++ [c] = [c] from rfl]
      rw [squeezeSPAux_cons_ne [c] d _ hdf]
      have hr : squeezeSP r = r := squeezeSP_id r (pairScan_cons_false htail)
      unfold squeezeSP at hr
      rw [hr]
      rfl
    · show squeezeSPAux [] (c :: d :: r) = _
      rw [squeezeSPAux_cons_ne [] c _ (by simpa using hc)]
      have hr : squeezeSP (d :: r) = d :: r := squeezeSP_id (d :: r) htail
      unfold squeezeSP at hr
      rw [hr]
      rfl

theorem squeezeSP_stripped (l : List Char) (hnl : '\n' ∉ l) (hfix : pyStrip l = l) :
    pyStrip (squeezeSP l) = squeezeSP l := by
  cases l with
  | nil => rfl
  | cons c r =>
    have hh : (pyStrip (c :: r)).head? = some c := by rw [hfix]; rfl
    have hch : isPySpace c = false := pyStrip_head (c :: r) c hh
    have ha : (c :: r).getLast? = some ((c :: r).getLast (by simp)) :=
      List.getLast?_eq_getLast (c :: r) (by simp)
    have hla : (pyStrip (c :: r)).getLast? = some ((c :: r).getLast (by simp)) := by
      rw [hfix]; exact ha
    have hcla : isPySpace ((c :: r).getLast (by simp)) = false :=
      pyStrip_last (c :: r) _ hla
    have hcsp : isSpTab c = false := by
      cases hsp : isSpTab c
      · rfl
      · rw [isSpTab_isPySpace c hsp] at hch
        exact absurd hch (by simp)
    have hlsp : isSpTab ((c :: r).getLast (by simp)) = false := by
      cases hsp : isSpTab ((c :: r).getLast (by simp))
      · rfl
      · rw [isSpTab_isPySpace _ hsp] at hcla
        exact absurd hcla (by simp)
    rw [squeezeSP_cons_ne c r hcsp]
    apply pyStrip_id
    · intro c0 h0
      have he : c = c0 := by simpa using h0
      rw [← he, hch]
    · intro c0 h0
      have hgl : (squeezeSPAux [] (c :: r)).getLast? = some ((c :: r).getLast (by simp)) :=
        squeezeSPAux_getLast (c :: r) [] _ ha hlsp
      rw [squeezeSPAux_cons_ne [] c r hcsp] at hgl
      have hgl2 : (c :: squeezeSPAux [] r).getLast? = some ((c :: r).getLast (by simp)) := by
        simpa using hgl
      rw [hgl2] at h0
      have he : (c :: r).getLast (by simp) = c0 := by simpa using h0
      rw [← he, hcla]

theorem linesRel_squeezeSP (x : List Char) (hx : '\n' ∉ x) :
    linesRel (squeezeSP x) x := by
  refine ⟨noNL_squeezeSPAux x [] (by simp) hx, hx, ?_⟩
  exact squeezeSP_nil_iff x

/-! ## Character membership through the cleaning stages -/

theorem mem_replaceCR : ∀ l : List Char, ∀ c ∈ replaceCR l, c ∈ l ∨ c = '\n'
  | [], c => by intro h; exact absurd h (List.not_mem_nil c)
  | c0 :: rest, c => by
    intro h
    by_cases hc : c0 = '\r'
    · subst hc
      match rest with
      | [] =>
        rw [replaceCR_cr_nil] at h
        right
        simpa using h
      | c2 :: rest2 =>
        by_cases h2 : c2 = '\n'
        · subst h2
          rw [replaceCR_crnl] at h
          rcases List.mem_cons.mp h with h3 | h3
          · right; exact h3
          · rcases mem_replaceCR rest2 c h3 with h4 | h4
            · left; exact List.mem_cons_of_mem _ (List.mem_cons_of_mem _ h4)
            · right; exact h4
        · rw [replaceCR_cr_cons c2 rest2 h2] at h
          rcases List.mem_cons.mp h with h3 | h3
          · right; exact h3
          · rcases mem_replaceCR (c2 :: rest2) c h3 with h4 | h4
            · left; exact List.mem_cons_of_mem _ h4
            · right; exact h4
    · rw [replaceCR_cons c0 rest hc] at h
      rcases List.mem_cons.mp h with h3 | h3
      · left; simp [h3]
      · rcases mem_replaceCR rest c h3 with h4 | h4
        · left; exact List.mem_cons_of_mem _ h4
        · right; exact h4

theorem noCR_replaceCR : ∀ l : List Char, '\r' ∉ replaceCR l
  | [] => by simp [replaceCR]
  | c0 :: rest => by
    intro h
    by_cases hc : c0 = '\r'
    · subst hc
      match rest with
      | [] =>
        rw [replaceCR_cr_nil] at h
        have he : ('\r' : Char) = '\n' := List.mem_singleton.mp h
        exact absurd he (by decide)
      | c2 :: rest2 =>
        by_cases h2 : c2 = '\n'
        · subst h2
          rw [replaceCR_crnl] at h
          rcases List.mem_cons.mp h with h3 | h3
          · exact absurd h3 (by decide)
          · exact noCR_replaceCR rest2 h3
        · rw [replaceCR_cr_cons c2 rest2 h2] at h
          rcases List.mem_cons.mp h with h3 | h3
          · exact absurd h3 (by decide)
          · exact noCR_replaceCR (c2 :: rest2) h3
    · rw [replaceCR_cons c0 rest hc] at h
      rcases List.mem_cons.mp h with h3 | h3
      · exact hc h3.symm
      · exact noCR_replaceCR rest h3

theorem mem_squeezeNLAux : ∀ (l : List Char) (n : Nat) (c : Char),
    c ∈ squeezeNLAux n l → c ∈ l ∨ c = '\n'
  | [], n, c => by
    intro h
    right
    have : c ∈ List.replicate (min n 2) '\n' := h
    exact (List.eq_of_mem_replicate this)
  | c0 :: r, n, c => by
    intro h
    by_cases hc : c0 = '\n'
    · subst hc
      rw [squeezeNLAux_cons_nl] at h
      rcases mem_squeezeNLAux r (n + 1) c h with h1 | h1
      · left; exact List.mem_cons_of_mem _ h1
      · right; exact h1
    · rw [squeezeNLAux_cons_ne n c0 r hc] at h
      rcases List.mem_append.mp h with h1 | h1
      · right; exact List.eq_of_mem_replicate h1
      · rcases List.mem_cons.mp h1 with h2 | h2
        · left; simp [h2]
        · rcases mem_squeezeNLAux r 0 c h2 with h3 | h3
          · left; exact List.mem_cons_of_mem _ h3
          · right; exact h3

theorem mem_splitOnNL : ∀ (l p : List Char), p ∈ splitOnNL l → ∀ c ∈ p, c ∈ l
  | [], p => by
    intro hp c hc
    have : p = [] := by simpa [splitOnNL] using hp
    subst this
    exact absurd hc (List.not_mem_nil c)
  | c0 :: r, p => by
    intro hp c hc
    by_cases h0 : c0 = '\n'
    · subst h0
      rw [splitOnNL_cons_nl] at hp
      rcases List.mem_cons.mp hp with h1 | h1
      · subst h1
        exact absurd hc (List.not_mem_nil c)
      · exact List.mem_cons_of_mem _ (mem_splitOnNL r p h1 c hc)
    · rw [splitOnNL_cons_ne c0 r h0] at hp
      rcases hl : splitOnNL r with _ | ⟨f, ls⟩
      · exact absurd hl (splitOnNL_ne_nil r)
      · rw [hl] at hp
        unfold consHead at hp
        rcases List.mem_cons.mp hp with h1 | h1
        · subst h1
          rcases List.mem_cons.mp hc with h2 | h2
          · simp [h2]
          · exact List.mem_cons_of_mem _
              (mem_splitOnNL r f (by rw [hl]; exact List.mem_cons_self f ls) c h2)
        · exact List.mem_cons_of_mem _
            (mem_splitOnNL r p (by rw [hl]; exact List.mem_cons_of_mem f h1) c hc)

theorem mem_intercalate_nl : ∀ (ls : List (List Char)) (c : Char),
    c ∈ List.intercalate ['\n'] ls → (∃ p ∈ ls, c ∈ p) ∨ c = '\n'
  | [], c => by
    intro h
    rw [intercalate_nil] at h
    exact absurd h (List.not_mem_nil c)
  | [a], c => by
    intro h
    rw [intercalate_single] at h
    exact Or.inl ⟨a, by simp, h⟩
  | a :: b :: ls, c => by
    intro h
    rw [intercalate_cons2, List.append_assoc, List.singleton_append] at h
    rcases List.mem_append.mp h with h1 | h1
    · exact Or.inl ⟨a, by simp, h1⟩
    · rcases List.mem_cons.mp h1 with h2 | h2
      · exact Or.inr h2
      · rcases mem_intercalate_nl (b :: ls) c h2 with ⟨p, hp, hc⟩ | h3
        · exact Or.inl ⟨p, List.mem_cons_of_mem a hp, hc⟩
        · exact Or.inr h3

theorem mem_pyStrip (l : List Char) (c : Char) (h : c ∈ pyStrip l) : c ∈ l :=
  (pyStrip_isInfix l).subset h

theorem mem_clean_text (x : List Char) (c : Char) (h : c ∈ clean_text x) :
    c ∈ x ∨ c = '\n' ∨ c = ' ' := by
  unfold clean_text at h
  have h4 := mem_pyStrip _ c h
  rcases mem_squeezeSPAux _ [] c h4 with h5 | h5 | h5
  · exact absurd h5 (List.not_mem_nil c)
  · rcases mem_intercalate_nl _ c h5 with ⟨p, hp, hc⟩ | h6
    · unfold stripLines at hp
      obtain ⟨q, hq, hpq⟩ := List.mem_map.mp hp
      have h7 := mem_splitOnNL _ q hq c (by rw [← hpq] at hc; exact mem_pyStrip q c hc)
      rcases mem_squeezeNLAux _ 0 c h7 with h8 | h8
      · rcases mem_replaceCR x c h8 with h9 | h9
        · exact Or.inl h9
        · exact Or.inr (Or.inl h9)
      · exact Or.inr (Or.inl h8)
    · exact Or.inr (Or.inl h6)
  · exact Or.inr (Or.inr h5)

theorem clean_text_noCR (x : List Char) : '\r' ∉ clean_text x := by
  intro h
  unfold clean_text at h
  have h4 := mem_pyStrip _ '\r' h
  rcases mem_squeezeSPAux _ [] '\r' h4 with h5 | h5 | h5
  · exact absurd h5 (List.not_mem_nil _)
  · rcases mem_intercalate_nl _ '\r' h5 with ⟨p, hp, hc⟩ | h6
    · unfold stripLines at hp
      obtain ⟨q, hq, hpq⟩ := List.mem_map.mp hp
      have h7 := mem_splitOnNL _ q hq '\r' (by rw [← hpq] at hc; exact mem_pyStrip q '\r' hc)
      rcases mem_squeezeNLAux _ 0 '\r' h7 with h8 | h8
      · exact noCR_replaceCR x h8
      · exact absurd h8 (by decide)
    · exact absurd h6 (by decide)
  · exact absurd h5 (by decide)

/-! ## Automatic shape of `clean_text` output -/

theorem clean_text_stripped (x : List Char) :
    pyStrip (clean_text x) = clean_text x := by
  unfold clean_text
  exact pyStrip_idem _

theorem clean_text_noSS (x : List Char) :
    pairScan badSS (clean_text x) = false := by
  unfold clean_text
  exact pairScan_isInfix (pyStrip_isInfix _) (pairScan_badSS_squeezeSPAux _ [])

theorem dropTrailWs_length_le (l : List Char) :
    (dropTrailWs l).length ≤ l.length :=
  (dropTrailWs_isPrefix l).length_le

theorem dropLeadWs_length_le (l : List Char) :
    (dropLeadWs l).length ≤ l.length :=
  (dropLeadWs_suffix l).length_le

theorem ws_head_not_fixed (c : Char) (f : List Char) (hc : isPySpace c = true) :
    ¬pyStrip (c :: f) = c :: f := by
  intro h
  have h1 : dropLeadWs (c :: f) = dropLeadWs f := by
    unfold dropLeadWs
    rw [List.dropWhile_cons_of_pos (by simpa using hc)]
  have h2 : (pyStrip (c :: f)).length ≤ f.length := by
    rw [pyStrip_decompose, h1]
    exact Nat.le_trans (dropTrailWs_length_le _) (dropLeadWs_length_le f)
  rw [h] at h2
  simp at h2

theorem dropTrailWs_concat_ws (x : List Char) (a : Char) (ha : isPySpace a = true) :
    dropTrailWs (x ++ [a]) = dropTrailWs x := by
  unfold dropTrailWs
  rw [List.reverse_append]
  show ((a :: x.reverse).dropWhile (fun c => isPySpace c)).reverse = _
  rw [List.dropWhile_cons_of_pos (by simpa using ha)]

theorem ws_last_not_fixed (a : Char) (g : List Char) (ha : isPySpace a = true) :
    ¬pyStrip (g ++ [a]) = g ++ [a] := by
  intro h
  have hlen : (pyStrip (g ++ [a])).length ≤ g.length := by
    rw [pyStrip_decompose]
    rcases hm : dropLeadWs (g ++ [a]) with _ | ⟨m0, mr⟩
    · rw [show dropTrailWs ([] : List Char) = [] from rfl]
      simp
    · have hsuf : (m0 :: mr) <:+ g ++ [a] := by
        rw [← hm]; exact dropLeadWs_suffix _
      have hlast : (m0 :: mr).getLast? = some a := by
        rw [suffix_getLast? hsuf (by simp), List.getLast?_concat]
      obtain ⟨m2, hm2⟩ : ∃ m2, m0 :: mr = m2 ++ [a] := by
        have := List.getLast?_eq_getLast (m0 :: mr) (by simp)
        rw [hlast] at this
        refine ⟨(m0 :: mr).dropLast, ?_⟩
        have hd := List.dropLast_append_getLast (show (m0 :: mr) ≠ [] by simp)
        rw [show (m0 :: mr).getLast (by simp) = a by simpa using this.symm] at hd
        exact hd.symm
      rw [hm2, dropTrailWs_concat_ws _ a ha]
      have hlen2 : (m2 ++ [a]).length ≤ (g ++ [a]).length := by
        rw [← hm2, ← hm]
        exact dropLeadWs_length_le _
      simp at hlen2
      exact Nat.le_trans (dropTrailWs_length_le m2) (by omega)
  rw [h] at hlen
  simp at hlen

theorem linesStripped_dropLeadWs : ∀ y : List Char,
    linesStripped y → linesStripped (dropLeadWs y)
  | [], h => h
  | c :: r, h => by
    by_cases hws : isPySpace c
    · by_cases hc : c = '\n'
      · subst hc
        have h1 : dropLeadWs ('\n' :: r) = dropLeadWs r := by
          unfold dropLeadWs
          rw [List.dropWhile_cons_of_pos (by simp [isPySpace])]
        rw [h1]
        apply linesStripped_dropLeadWs r
        intro x hx
        exact h x (by rw [splitOnNL_cons_nl]; exact List.mem_cons_of_mem _ hx)
      · exfalso
        rcases hl : splitOnNL r with _ | ⟨f, ls⟩
        · exact absurd hl (splitOnNL_ne_nil r)
        · have hmem : (c :: f) ∈ splitOnNL (c :: r) := by
            rw [splitOnNL_cons_ne c r hc, hl]
            exact List.mem_cons_self _ _
          exact ws_head_not_fixed c f (by simpa using hws) (h (c :: f) hmem)
    · rw [dropLeadWs_id (c :: r) (fun c0 h0 => by
        have : c = c0 := by simpa using h0
        rw [← this]
        simpa using hws)]
      exact h

theorem getLast?_cons_ne_nil {α : Type} (x : α) (L : List α) (h : L ≠ []) :
    (x :: L).getLast? = L.getLast? := by
  have h1 : x :: L = [x] ++ L := rfl
  rw [h1]
  exact List.getLast?_append_of_ne_nil [x] h

theorem splitOnNL_concat_ne (x : List Char) (a : Char) (ha : ¬a = '\n') :
    ∃ g, (splitOnNL (x ++ [a])).getLast? = some (g ++ [a]) := by
  induction x with
  | nil =>
    refine ⟨[], ?_⟩
    rw [List.nil_append,
      splitOnNL_noNL [a] (by intro hm; exact ha (List.mem_singleton.mp hm).symm)]
    rfl
  | cons c x2 ih =>
    obtain ⟨g, hg⟩ := ih
    by_cases hc : c = '\n'
    · subst hc
      rw [List.cons_append, splitOnNL_cons_nl]
      refine ⟨g, ?_⟩
      rw [getLast?_cons_ne_nil _ _ (splitOnNL_ne_nil _)]
      exact hg
    · rw [List.cons_append, splitOnNL_cons_ne c _ hc]
      rcases hl : splitOnNL (x2 ++ [a]) with _ | ⟨l0, ls⟩
      · exact absurd hl (splitOnNL_ne_nil _)
      · unfold consHead
        rw [hl] at hg
        cases ls with
        | nil =>
          have hl0 : l0 = g ++ [a] := by simpa using hg
          exact ⟨c :: g, by rw [hl0]; rfl⟩
        | cons m ms =>
          refine ⟨g, ?_⟩
          rw [getLast?_cons_ne_nil _ _ (by simp)]
          rw [getLast?_cons_ne_nil _ _ (by simp)] at hg
          exact hg

theorem mem_of_getLast?_eq {α : Type} {l : List α} {a : α}
    (h : l.getLast? = some a) : a ∈ l := by
  cases l with
  | nil => exact absurd h (by simp)
  | cons x r =>
    have h2 := List.getLast?_eq_getLast (x :: r) (by simp)
    rw [h2] at h
    have : (x :: r).getLast (by simp) = a := by simpa using h
    rw [← this]
    exact List.getLast_mem _

theorem linesStripped_dropTrailWs : ∀ (n : Nat) (y : List Char), y.length ≤ n →
    linesStripped y → linesStripped (dropTrailWs y)
  | 0, y, hlen, h => by
    have hy : y = [] := List.length_eq_zero.mp (Nat.le_zero.mp hlen)
    subst hy
    exact h
  | n + 1, y, hlen, h => by
    rcases List.eq_nil_or_concat y with hy | ⟨y2, a, hy⟩
    · subst hy
      exact h
    · rw [List.concat_eq_append] at hy
      subst hy
      by_cases hws : isPySpace a
      · by_cases ha : a = '\n'
        · subst ha
          rw [dropTrailWs_concat_ws y2 '\n' (by decide)]
          apply linesStripped_dropTrailWs n y2
            (by simp only [List.length_append, List.length_cons, List.length_nil] at hlen; omega)
          intro x hx
          apply h
          rw [show y2 ++ ['\n'] = y2 ++ '\n' :: ([] : List Char) from rfl,
            splitOnNL_append_nl]
          exact List.mem_append.mpr (Or.inl hx)
        · exfalso
          obtain ⟨g, hg⟩ := splitOnNL_concat_ne y2 a ha
          exact ws_last_not_fixed a g (by simpa using hws)
            (h _ (mem_of_getLast?_eq hg))
      · rw [dropTrailWs_id _ (fun c0 h0 => by
          rw [List.getLast?_concat] at h0
          have he : a = c0 := by simpa using h0
          rw [← he]
          simpa using hws)]
        exact h

theorem linesStripped_pyStrip (y : List Char) (h : linesStripped y) :
    linesStripped (pyStrip y) := by
  rw [pyStrip_decompose]
  exact linesStripped_dropTrailWs (dropLeadWs y).length _ (Nat.le_refl _)
    (linesStripped_dropLeadWs y h)

theorem stripLines_ne_nil (y : List Char) : stripLines y ≠ [] := by
  unfold stripLines
  rcases hsp : splitOnNL y with _ | ⟨f, ls⟩
  · exact absurd hsp (splitOnNL_ne_nil y)
  · simp

theorem noNL_stripLines (y : List Char) : ∀ p ∈ stripLines y, '\n' ∉ p := by
  intro p hp hc
  unfold stripLines at hp
  obtain ⟨q, hq, hpq⟩ := List.mem_map.mp hp
  rw [← hpq] at hc
  exact (noNL_lines y q hq) (mem_pyStrip q '\n' hc)

theorem stripLines_lines (y : List Char) :
    splitOnNL (List.intercalate ['\n'] (stripLines y)) = stripLines y :=
  splitOnNL_intercalate (stripLines y) (stripLines_ne_nil y) (noNL_stripLines y)

theorem clean_text_linesStripped (x : List Char) : linesStripped (clean_text x) := by
  unfold clean_text
  apply linesStripped_pyStrip
  intro l hl
  rw [splitOnNL_squeezeSP, stripLines_lines] at hl
  obtain ⟨p, hp, hlp⟩ := List.mem_map.mp hl
  unfold stripLines at hp
  obtain ⟨q, hq, hpq⟩ := List.mem_map.mp hp
  rw [← hlp]
  apply squeezeSP_stripped p
  · intro hc
    rw [← hpq] at hc
    exact (noNL_lines _ q hq) (mem_pyStrip q '\n' hc)
  · rw [← hpq]
    exact pyStrip_idem q

theorem clean_text_of_wsOnly (x : List Char) (h : wsOnly x = true) :
    clean_text x = [] := by
  unfold clean_text
  rw [pyStrip_nil_iff, wsOnly_iff]
  intro c hc
  rcases mem_squeezeSPAux _ [] c hc with h5 | h5 | h5
  · exact absurd h5 (List.not_mem_nil c)
  · rcases mem_intercalate_nl _ c h5 with ⟨p, hp, hcp⟩ | h6
    · unfold stripLines at hp
      obtain ⟨q, hq, hpq⟩ := List.mem_map.mp hp
      have h7 : c ∈ squeezeNL (replaceCR x) := by
        apply mem_splitOnNL _ q hq c
        rw [← hpq] at hcp
        exact mem_pyStrip q c hcp
      rcases mem_squeezeNLAux _ 0 c h7 with h8 | h8
      · rcases mem_replaceCR x c h8 with h9 | h9
        · exact (wsOnly_iff x).mp h c h9
        · rw [h9]; decide
      · rw [h8]; decide
    · rw [h6]; decide
  · rw [h5]; decide

theorem map_id_of_mem {α : Type} (f : α → α) :
    ∀ l : List α, (∀ x ∈ l, f x = x) → l.map f = l
  | [], _ => rfl
  | x :: l, h => by
    rw [List.map_cons, h x (by simp),
      map_id_of_mem f l (fun y hy => h y (List.mem_cons_of_mem x hy))]

theorem replaceCR_id : ∀ l : List Char, '\r' ∉ l → replaceCR l = l
  | [], _ => rfl
  | c :: rest, h => by
    have hc : ¬c = '\r' := fun h0 => h (by simp [h0])
    rw [replaceCR_cons c rest hc,
      replaceCR_id rest (fun hm => h (List.mem_cons_of_mem c hm))]

/-- The fixed-point criterion for `clean_text`: no carriage returns, no
triple newline, every line stripped, no adjacent space/tab pair, stripped. -/
theorem clean_text_fixed (d : List Char) (hcr : '\r' ∉ d)
    (htr : hasTriple d = false) (hls : linesStripped d)
    (hss : pairScan badSS d = false) (hst : pyStrip d = d) :
    clean_text d = d := by
  unfold clean_text
  rw [replaceCR_id d hcr]
  have hsq : squeezeNL d = d := by
    unfold squeezeNL
    have h0 := squeezeNLAux_eq_of_noTriple d 0 (by simpa using htr)
    simpa using h0
  rw [hsq]
  have hslines : stripLines d = splitOnNL d := by
    unfold stripLines
    exact map_id_of_mem pyStrip (splitOnNL d) hls
  rw [hslines, splitOnNL_join, squeezeSP_id d hss, hst]

/-! ## Lines of `squeezeNL` output versus lines of its input -/

theorem splitOnNL_replicate : ∀ k : Nat,
    splitOnNL (List.replicate k '\n') = List.replicate (k + 1) []
  | 0 => rfl
  | k + 1 => by
    rw [List.replicate_succ, splitOnNL_cons_nl, splitOnNL_replicate k]
    rfl

theorem splitOnNL_replicate_append : ∀ (k : Nat) (z : List Char),
    splitOnNL (List.replicate k '\n' ++ z) = List.replicate k [] ++ splitOnNL z
  | 0, z => rfl
  | k + 1, z => by
    rw [List.replicate_succ, List.cons_append, splitOnNL_cons_nl,
      splitOnNL_replicate_append k z, List.replicate_succ, List.cons_append]

theorem firstLine_cons_nl (r : List Char) : firstLine ('\n' :: r) = [] := by
  unfold firstLine
  rw [List.takeWhile_cons_of_neg (by simp)]

theorem firstLine_cons_ne (c : Char) (r : List Char) (hc : ¬c = '\n') :
    firstLine (c :: r) = c :: firstLine r := by
  unfold firstLine
  rw [List.takeWhile_cons_of_pos (by simpa using hc)]

theorem squeezeNLAux_starts_nl : ∀ (r : List Char) (n : Nat), 1 ≤ n →
    ∃ z, squeezeNLAux n r = '\n' :: z
  | [], n, hn => by
    show ∃ z, flushNL n = '\n' :: z
    unfold flushNL
    have h2 : min n 2 = 1 ∨ min n 2 = 2 := by omega
    rcases h2 with h2 | h2 <;> rw [h2]
    · exact ⟨[], rfl⟩
    · exact ⟨['\n'], rfl⟩
  | c :: r, n, hn => by
    by_cases hc : c = '\n'
    · subst hc
      rw [squeezeNLAux_cons_nl]
      exact squeezeNLAux_starts_nl r (n + 1) (by omega)
    · rw [squeezeNLAux_cons_ne n c r hc]
      unfold flushNL
      have h2 : min n 2 = 1 ∨ min n 2 = 2 := by omega
      rcases h2 with h2 | h2 <;> rw [h2]
      · exact ⟨c :: squeezeNLAux 0 r, rfl⟩
      · exact ⟨'\n' :: c :: squeezeNLAux 0 r, rfl⟩

theorem firstLine_squeezeNLAux : ∀ r : List Char,
    firstLine (squeezeNLAux 0 r) = firstLine r
  | [] => rfl
  | c :: r => by
    by_cases hc : c = '\n'
    · subst hc
      rw [squeezeNLAux_cons_nl]
      obtain ⟨z, hz⟩ := squeezeNLAux_starts_nl r 1 (by omega)
      rw [hz, firstLine_cons_nl, firstLine_cons_nl]
    · rw [squeezeNLAux_cons_ne 0 c r hc]
      show firstLine (c :: squeezeNLAux 0 r) = _
      rw [firstLine_cons_ne c _ hc, firstLine_cons_ne c r hc,
        firstLine_squeezeNLAux r]

theorem lines_squeezeNLAux_drop : ∀ (x : List Char) (n : Nat) (l : List Char),
    l ∈ (splitOnNL (squeezeNLAux n x)).drop 1 →
    l ∈ (splitOnNL (List.replicate n '\n' ++ x)).drop 1 ∨ l = []
  | [], n, l => by
    intro hl
    right
    show l = []
    have h1 : splitOnNL (flushNL n) = List.replicate (min n 2 + 1) [] := by
      unfold flushNL
      exact splitOnNL_replicate _
    rw [show squeezeNLAux n [] = flushNL n from rfl, h1] at hl
    exact List.eq_of_mem_replicate (List.mem_of_mem_drop hl)
  | '\n' :: r, n, l => by
    intro hl
    rw [squeezeNLAux_cons_nl] at hl
    have h1 := lines_squeezeNLAux_drop r (n + 1) l hl
    rwa [List.replicate_succ', List.append_assoc, List.singleton_append] at h1
  | c :: r, n, l => by
    intro hl
    by_cases hc : c = '\n'
    · subst hc
      rw [squeezeNLAux_cons_nl] at hl
      have h1 := lines_squeezeNLAux_drop r (n + 1) l hl
      rwa [List.replicate_succ', List.append_assoc, List.singleton_append] at h1
    · rw [squeezeNLAux_cons_ne n c r hc] at hl
      have hflush : flushNL n = List.replicate (min n 2) '\n' := rfl
      rw [hflush, splitOnNL_replicate_append] at hl
      rcases hf : splitOnNL (squeezeNLAux 0 r) with _ | ⟨f, ls⟩
      · exact absurd hf (splitOnNL_ne_nil _)
      · have hfv : f = firstLine r := by
          have hh := splitOnNL_head (squeezeNLAux 0 r)
          rw [hf] at hh
          have : f = firstLine (squeezeNLAux 0 r) := by simpa using hh
          rw [this, firstLine_squeezeNLAux r]
        rw [splitOnNL_cons_ne c _ hc, hf] at hl
        rcases hr : splitOnNL r with _ | ⟨f2, ls2⟩
        · exact absurd hr (splitOnNL_ne_nil r)
        · have hf2v : f2 = firstLine r := by
            have hh := splitOnNL_head r
            rw [hr] at hh
            simpa using hh
          rw [splitOnNL_replicate_append, splitOnNL_cons_ne c r hc, hr]
          unfold consHead at hl ⊢
          -- hl : l ∈ (replicate (min n 2) [] ++ (c :: f) :: ls).drop 1
          -- goal : l ∈ (replicate n [] ++ (c :: f2) :: ls2).drop 1 ∨ l = []
          have htail : ∀ m ∈ ls, m ∈ ls2 ∨ m = [] := by
            intro m hm
            have h2 := lines_squeezeNLAux_drop r 0 m (by
              show m ∈ (splitOnNL (squeezeNLAux 0 r)).drop 1
              rw [hf]
              simpa using hm)
            have h3 : splitOnNL (List.replicate 0 '\n' ++ r) = f2 :: ls2 := by
              rw [show List.replicate 0 '\n' ++ r = r from rfl, hr]
            rw [h3] at h2
            rcases h2 with h4 | h4
            · left; simpa using h4
            · right; exact h4
          by_cases hn : n = 0
          · subst hn
            rw [show min 0 2 = 0 from rfl] at hl
            rw [show List.replicate 0 ([] : List Char) ++ (c :: f) :: ls =
              (c :: f) :: ls from rfl] at hl
            have hl2 : l ∈ ls := by simpa using hl
            rcases htail l hl2 with h4 | h4
            · left
              rw [show List.replicate 0 ([] : List Char) ++ (c :: f2) :: ls2 =
                (c :: f2) :: ls2 from rfl]
              simpa using h4
            · right; exact h4
          · have hk : min n 2 = 1 ∨ min n 2 = 2 := by omega
            have hl2 : l = c :: f ∨ l ∈ ls ∨ l = [] := by
              rcases hk with hk | hk <;> rw [hk] at hl
              · have h4 : l ∈ (c :: f) :: ls := by simpa using hl
                rcases List.mem_cons.mp h4 with h5 | h5
                · left; exact h5
                · right; left; exact h5
              · have h4 : l ∈ ([] : List Char) :: (c :: f) :: ls := by simpa using hl
                rcases List.mem_cons.mp h4 with h5 | h5
                · right; right; exact h5
                · rcases List.mem_cons.mp h5 with h6 | h6
                  · left; exact h6
                  · right; left; exact h6
            obtain ⟨n2, hn2⟩ : ∃ n2, n = n2 + 1 := ⟨n - 1, by omega⟩
            subst hn2
            rw [List.replicate_succ, List.cons_append]
            have hdrop : (([] : List Char) ::
                (List.replicate n2 [] ++ (c :: f2) :: ls2)).drop 1
                = List.replicate n2 [] ++ (c :: f2) :: ls2 := by simp
            rw [hdrop]
            rcases hl2 with h4 | h4 | h4
            · left
              apply List.mem_append.mpr
              right
              rw [h4, hfv, ← hf2v]
              exact List.mem_cons_self _ _
            · rcases htail l h4 with h5 | h5
              · left
                apply List.mem_append.mpr
                right
                exact List.mem_cons_of_mem _ h5
              · right; exact h5
            · right; exact h4

theorem okLines_squeezeNL (x : List Char) (h : okLines x) : okLines (squeezeNL x) := by
  intro l hl hws
  rcases hsq : splitOnNL (squeezeNL x) with _ | ⟨f, ls⟩
  · exact absurd hsq (splitOnNL_ne_nil _)
  · rw [hsq] at hl
    rcases List.mem_cons.mp hl with h1 | h1
    · subst h1
      have hfv : l = firstLine x := by
        have hh := splitOnNL_head (squeezeNL x)
        rw [hsq] at hh
        have h2 : l = firstLine (squeezeNL x) := by simpa using hh
        rw [h2]
        exact firstLine_squeezeNLAux x
      have hmem : l ∈ splitOnNL x := by
        have hh := splitOnNL_head x
        rw [hfv]
        rcases hx : splitOnNL x with _ | ⟨f2, ls2⟩
        · exact absurd hx (splitOnNL_ne_nil x)
        · rw [hx] at hh
          have : f2 = firstLine x := by simpa using hh
          rw [← this]
          exact List.mem_cons_self _ _
      exact h l hmem hws
    · have h2 := lines_squeezeNLAux_drop x 0 l (by
        show l ∈ (splitOnNL (squeezeNL x)).drop 1
        rw [hsq]
        simpa using h1)
      rcases h2 with h3 | h3
      · apply h l _ hws
        rw [show List.replicate 0 '\n' ++ x = x from rfl] at h3
        exact List.mem_of_mem_drop h3
      · exact h3

/-- Cleaning a string with no carriage returns whose whitespace-only lines
are all empty yields no triple newline. -/
theorem clean_text_noTriple (x : List Char) (hcr : '\r' ∉ x) (hok : okLines x) :
    hasTriple (clean_text x) = false := by
  cases htr : hasTriple (clean_text x)
  · rfl
  · exfalso
    unfold clean_text at htr
    rw [replaceCR_id x hcr] at htr
    have h4 : hasTriple (squeezeSP
        (List.intercalate ['\n'] (stripLines (squeezeNL x)))) = true :=
      hasTriple_isInfix (pyStrip_isInfix _) htr
    have hYeq : hasTriple (squeezeSP
        (List.intercalate ['\n'] (stripLines (squeezeNL x)))) =
        hasTriple (List.intercalate ['\n'] (stripLines (squeezeNL x))) := by
      conv_lhs => rw [← splitOnNL_join (squeezeSP
        (List.intercalate ['\n'] (stripLines (squeezeNL x))))]
      rw [splitOnNL_squeezeSP]
      conv_rhs => rw [← splitOnNL_join
        (List.intercalate ['\n'] (stripLines (squeezeNL x)))]
      exact hasTriple_intercalate_rel (forall2_linesRel_map squeezeSP _
        (fun p hp => linesRel_squeezeSP p (noNL_lines _ p hp)))
    have hok2 : okLines (squeezeNL x) := okLines_squeezeNL x hok
    have hY3 : hasTriple (List.intercalate ['\n'] (stripLines (squeezeNL x))) =
        hasTriple (squeezeNL x) := by
      conv_rhs => rw [← splitOnNL_join (squeezeNL x)]
      unfold stripLines
      apply hasTriple_intercalate_rel
      apply forall2_linesRel_map pyStrip
      intro q hq
      refine ⟨?_, noNL_lines _ q hq, ?_⟩
      · intro hm
        exact (noNL_lines _ q hq) (mem_pyStrip q '\n' hm)
      · constructor
        · intro h0
          exact hok2 q hq ((pyStrip_nil_iff q).mp h0)
        · intro h0
          subst h0
          rfl
    rw [hYeq, hY3] at h4
    have hsq0 : hasTriple (squeezeNL x) = false := hasTriple_squeezeNLAux x 0
    rw [h4] at hsq0
    exact absurd hsq0 (by simp)

/-! ## Whitespace-only lines under the pair scanner -/

theorem wsX_nl : wsX '\n' = false := by decide

theorem exists_nl_split : ∀ q : List Char, '\n' ∈ q →
    ∃ f r, q = f ++ '\n' :: r ∧ '\n' ∉ f
  | [], h => absurd h (List.not_mem_nil _)
  | c :: q2, h => by
    by_cases hc : c = '\n'
    · exact ⟨[], q2, by rw [hc]; rfl, by simp⟩
    · have h2 : '\n' ∈ q2 := by
        rcases List.mem_cons.mp h with h3 | h3
        · exact absurd h3.symm hc
        · exact h3
      obtain ⟨f, r, hq, hf⟩ := exists_nl_split q2 h2
      refine ⟨c :: f, r, by rw [hq]; rfl, ?_⟩
      intro hm
      rcases List.mem_cons.mp hm with h4 | h4
      · exact hc h4.symm
      · exact hf h4

theorem wsOnly_last_wsX (f : List Char) (hws : wsOnly f = true) (hnl : '\n' ∉ f)
    (hne : f ≠ []) : ∃ a, f.getLast? = some a ∧ wsX a = true := by
  have ha := List.getLast?_eq_getLast f hne
  refine ⟨f.getLast hne, ha, ?_⟩
  have hmem : f.getLast hne ∈ f := List.getLast_mem hne
  unfold wsX
  rw [(wsOnly_iff f).mp hws _ hmem]
  have : ¬f.getLast hne = '\n' := fun h0 => hnl (h0 ▸ hmem)
  simpa using this

theorem okLines_of_noWN : ∀ (n : Nat) (q : List Char), q.length ≤ n →
    pairScan badWN q = false →
    okLines q ∨ (wsOnly q = true ∧ '\n' ∉ q)
  | 0, q, hlen, _ => by
    have hq : q = [] := List.length_eq_zero.mp (Nat.le_zero.mp hlen)
    subst hq
    left
    intro l hl _
    simpa [splitOnNL] using hl
  | n + 1, q, hlen, hwn => by
    by_cases hnl : '\n' ∈ q
    · obtain ⟨f, r, hq, hf⟩ := exists_nl_split q hnl
      subst hq
      have hlines : splitOnNL (f ++ '\n' :: r) = f :: splitOnNL r := by
        rw [splitOnNL_append_nl, splitOnNL_noNL f hf]
        rfl
      have hdec := pairScan_append badWN f ('\n' :: r)
      rw [hwn] at hdec
      have hjoin : joinBad badWN f ('\n' :: r) = false := by
        cases hj : joinBad badWN f ('\n' :: r)
        · rfl
        · rw [hj] at hdec; simp at hdec
      have hnlr : pairScan badWN ('\n' :: r) = false := by
        cases hj : pairScan badWN ('\n' :: r)
        · rfl
        · rw [hj] at hdec; simp at hdec
      have hrscan : pairScan badWN r = false := pairScan_cons_false hnlr
      have hfok : wsOnly f = true → f = [] := by
        intro hws
        by_contra hne
        obtain ⟨a, hga, hwa⟩ := wsOnly_last_wsX f hws hf hne
        have hbad : joinBad badWN f ('\n' :: r) = true := by
          unfold joinBad
          rw [hga]
          show badWN a '\n' = true
          unfold badWN
          rw [hwa]
          simp
        rw [hbad] at hjoin
        exact absurd hjoin (by simp)
      have hn2 : r.length ≤ n := by
        have hq : (f ++ '\n' :: r).length = f.length + 1 + r.length := by
          simp [List.length_append]
          omega
        omega
      rcases okLines_of_noWN n r hn2 hrscan with hok | ⟨hws, hnr⟩
      · left
        intro l hl hwsl
        rw [hlines] at hl
        rcases List.mem_cons.mp hl with h1 | h1
        · subst h1; exact hfok hwsl
        · exact hok l h1 hwsl
      · cases r with
        | nil =>
          left
          intro l hl hwsl
          rw [hlines] at hl
          rcases List.mem_cons.mp hl with h1 | h1
          · subst h1; exact hfok hwsl
          · have h2 : l = [] := by simpa [splitOnNL] using h1
            exact h2
        | cons c0 r2 =>
          exfalso
          have hc0ws : isPySpace c0 = true := (wsOnly_iff _).mp hws c0 (by simp)
          have hc0nl : ¬c0 = '\n' := fun h0 => hnr (by simp [h0])
          have hbad : headBad badWN '\n' (c0 :: r2) = true := by
            show badWN '\n' c0 = true
            unfold badWN wsX
            rw [hc0ws]
            simp [hc0nl]
          rw [pairScan_cons] at hnlr
          rw [hbad] at hnlr
          simp at hnlr
    · by_cases hws : wsOnly q = true
      · right
        exact ⟨hws, hnl⟩
      · left
        intro l hl hwsl
        rw [splitOnNL_noNL q hnl] at hl
        have hlq : l = q := List.mem_singleton.mp hl
        subst hlq
        exact absurd hwsl hws

theorem okLines_of_noWN_head (q : List Char)
    (hwn : pairScan badWN q = false)
    (hh : ∀ c0, q.head? = some c0 → isPySpace c0 = false) : okLines q := by
  rcases okLines_of_noWN q.length q (Nat.le_refl _) hwn with hok | ⟨hws, _⟩
  · exact hok
  · cases q with
    | nil =>
      intro l hl _
      simpa [splitOnNL] using hl
    | cons c r =>
      have h1 := hh c rfl
      have h2 := (wsOnly_iff _).mp hws c (by simp)
      rw [h1] at h2
      exact absurd h2 (by simp)

/-! ## Cleaned text has no whitespace adjacent to a newline -/

theorem pairScan_badWN_noNL : ∀ a : List Char, '\n' ∉ a → pairScan badWN a = false
  | [], _ => rfl
  | [_], _ => rfl
  | c :: d :: r, h => by
    have hc : ¬c = '\n' := fun h0 => h (by simp [h0])
    have hd : ¬d = '\n' := fun h0 => h (by simp [h0])
    show (badWN c d || pairScan badWN (d :: r)) = false
    have h1 : badWN c d = false := by
      unfold badWN
      simp [hc, hd]
    rw [h1, pairScan_badWN_noNL (d :: r) (fun hm => h (List.mem_cons_of_mem c hm))]
    rfl

theorem headBad_badWN_nl (I : List Char)
    (hh : ∀ c0, I.head? = some c0 → wsX c0 = false) :
    headBad badWN '\n' I = false := by
  cases I with
  | nil => rfl
  | cons c r =>
    show badWN '\n' c = false
    unfold badWN
    rw [hh c rfl, wsX_nl]
    simp

theorem wsX_of_not_ws (c : Char) (h : isPySpace c = false) : wsX c = false := by
  unfold wsX
  rw [h]
  rfl

theorem head_wsX_intercalate : ∀ (b : List Char) (ls : List (List Char)),
    (∀ p ∈ b :: ls, pyStrip p = p) →
    ∀ c0, (List.intercalate ['\n'] (b :: ls)).head? = some c0 → wsX c0 = false := by
  intro b ls h c0 hc0
  cases b with
  | nil =>
    cases ls with
    | nil =>
      rw [intercalate_single] at hc0
      exact absurd hc0 (by simp)
    | cons c ls2 =>
      rw [intercalate_cons2, List.nil_append, List.singleton_append] at hc0
      have he : ('\n' : Char) = c0 := by simpa using hc0
      rw [← he]
      exact wsX_nl
  | cons x b2 =>
    have hh : (List.intercalate ['\n'] ((x :: b2) :: ls)).head? = some x := by
      cases ls with
      | nil => rw [intercalate_single]; rfl
      | cons c ls2 =>
        rw [intercalate_cons2, List.append_assoc, List.cons_append]
        rfl
    rw [hh] at hc0
    have he : x = c0 := by simpa using hc0
    have hsx : isPySpace x = false := by
      have hstrip := h (x :: b2) (by simp)
      apply pyStrip_head (x :: b2) x
      rw [hstrip]
      rfl
    rw [← he]
    exact wsX_of_not_ws x hsx

theorem noWN_intercalate : ∀ ls : List (List Char),
    (∀ p ∈ ls, '\n' ∉ p ∧ pyStrip p = p) →
    pairScan badWN (List.intercalate ['\n'] ls) = false
  | [], _ => rfl
  | [a], h => by
    rw [intercalate_single]
    exact pairScan_badWN_noNL a (h a (by simp)).1
  | a :: b :: ls, h => by
    rw [intercalate_cons2, List.append_assoc, List.singleton_append]
    rw [pairScan_append]
    have ha := h a (by simp)
    have h1 : pairScan badWN a = false := pairScan_badWN_noNL a ha.1
    have h2 : joinBad badWN a ('\n' :: List.intercalate ['\n'] (b :: ls)) = false := by
      unfold joinBad
      cases hg : a.getLast? with
      | none => rfl
      | some la =>
        show badWN la '\n' = false
        have hla : isPySpace la = false := by
          apply pyStrip_last a la
          rw [ha.2]
          exact hg
        unfold badWN
        rw [wsX_of_not_ws la hla, wsX_nl]
        simp
    have h3 : pairScan badWN ('\n' :: List.intercalate ['\n'] (b :: ls)) = false := by
      rw [pairScan_cons]
      have h4 : headBad badWN '\n' (List.intercalate ['\n'] (b :: ls)) = false :=
        headBad_badWN_nl _ (head_wsX_intercalate b ls
          (fun p hp => (h p (List.mem_cons_of_mem a hp)).2))
      rw [h4, noWN_intercalate (b :: ls)
        (fun p hp => h p (List.mem_cons_of_mem a hp))]
      rfl
    rw [h1, h2, h3]
    rfl

theorem noWN_of_linesStripped (x : List Char) (h : linesStripped x) :
    pairScan badWN x = false := by
  conv_lhs => rw [← splitOnNL_join x]
  exact noWN_intercalate (splitOnNL x) (fun p hp => ⟨noNL_lines x p hp, h p hp⟩)

/-! ## Paragraph pieces of `splitBlank` -/

theorem dropNLRun_cons_nl (rest : List Char) :
    dropNLRun ('\n' :: rest) = dropNLRun rest := by
  show (if ('\n' : Char) = '\n' then dropNLRun rest else '\n' :: rest) = _
  rw [if_pos rfl]

theorem dropNLRun_cons_ne (c : Char) (rest : List Char) (hc : ¬c = '\n') :
    dropNLRun (c :: rest) = c :: rest := by
  show (if c = '\n' then dropNLRun rest else c :: rest) = _
  rw [if_neg hc]

theorem dropNLRun_suffix : ∀ l : List Char, dropNLRun l <:+ l
  | [] => List.suffix_refl []
  | c :: rest => by
    by_cases hc : c = '\n'
    · subst hc
      rw [dropNLRun_cons_nl]
      exact (dropNLRun_suffix rest).trans ⟨['\n'], rfl⟩
    · rw [dropNLRun_cons_ne c rest hc]

theorem splitBlank_nil : splitBlank [] = [[]] := rfl

theorem splitBlank_pieces : ∀ (n : Nat) (t : List Char), t.length ≤ n →
    ∃ P0 ps, splitBlank t = P0 :: ps ∧ P0 <+: t ∧ (∀ q ∈ ps, q <:+: t) ∧
      (∀ c0, P0.head? = some c0 → t.head? = some c0) ∧
      pairScan badNN P0 = false ∧ (∀ q ∈ ps, pairScan badNN q = false)
  | 0, t, hlen => by
    have ht : t = [] := List.length_eq_zero.mp (Nat.le_zero.mp hlen)
    subst ht
    exact ⟨[], [], rfl, List.nil_prefix, by simp, by simp, rfl, by simp⟩
  | n + 1, t, hlen => by
    cases t with
    | nil => exact ⟨[], [], rfl, List.nil_prefix, by simp, by simp, rfl, by simp⟩
    | cons c cs =>
      by_cases hb : c = '\n' ∧ cs.head? = some '\n'
      · obtain ⟨hc, hhd⟩ := hb
        subst hc
        cases cs with
        | nil => exact absurd hhd (by simp)
        | cons c2 cs2 =>
          have hc2 : c2 = '\n' := by simpa using hhd
          subst hc2
          have hlen2 : (dropNLRun cs2).length ≤ n :=
            Nat.le_trans (dropNLRun_length_le cs2)
              (by simp only [List.length_cons] at hlen; omega)
          obtain ⟨P0, ps, heq, hpre, hinf, hhead, hsc0, hscs⟩ :=
            splitBlank_pieces n (dropNLRun cs2) hlen2
          refine ⟨[], P0 :: ps, ?_, List.nil_prefix, ?_, by simp, rfl, ?_⟩
          · rw [splitBlank_sep, heq]
          · intro q hq
            have hsub : dropNLRun cs2 <:+ '\n' :: '\n' :: cs2 :=
              (dropNLRun_suffix cs2).trans ⟨['\n', '\n'], rfl⟩
            rcases List.mem_cons.mp hq with h1 | h1
            · subst h1
              exact hpre.isInfix.trans hsub.isInfix
            · exact (hinf q h1).trans hsub.isInfix
          · intro q hq
            rcases List.mem_cons.mp hq with h1 | h1
            · subst h1; exact hsc0
            · exact hscs q h1
      · have hlen2 : cs.length ≤ n := by
          simp only [List.length_cons] at hlen; omega
        obtain ⟨P0, ps, heq, hpre, hinf, hhead, hsc0, hscs⟩ :=
          splitBlank_pieces n cs hlen2
        refine ⟨c :: P0, ps, ?_, ?_, ?_, ?_, ?_, hscs⟩
        · rw [splitBlank_cons c cs hb, heq]
          rfl
        · obtain ⟨u, hu⟩ := hpre
          exact ⟨u, by rw [List.cons_append, hu]⟩
        · intro q hq
          have hsuf : cs <:+ c :: cs := ⟨[c], rfl⟩
          exact (hinf q hq).trans hsuf.isInfix
        · intro c0 h0
          have : c = c0 := by simpa using h0
          rw [← this]
          rfl
        · rw [pairScan_cons]
          have hP0 : headBad badNN c P0 = false := by
            cases hP : P0 with
            | nil => rfl
            | cons d P2 =>
              show badNN c d = false
              have hd : cs.head? = some d := hhead d (by rw [hP]; rfl)
              unfold badNN
              by_cases hcn : c = '\n'
              · subst hcn
                have hdn : ¬d = '\n' := by
                  intro h0
                  exact hb ⟨rfl, by rw [hd, h0]⟩
                simp [hdn]
              · simp [hcn]
          rw [hP0, hsc0]
          rfl

theorem splitBlank_mem (t : List Char) :
    ∀ q ∈ splitBlank t, q <:+: t ∧ pairScan badNN q = false := by
  intro q hq
  obtain ⟨P0, ps, heq, hpre, hinf, _, hsc0, hscs⟩ :=
    splitBlank_pieces t.length t (Nat.le_refl _)
  rw [heq] at hq
  rcases List.mem_cons.mp hq with h1 | h1
  · subst h1
    exact ⟨hpre.isInfix, hsc0⟩
  · exact ⟨hinf q h1, hscs q h1⟩

/-! ## Good pieces -/

/-- A chunk-assembly piece in good shape: non-space edges, no whitespace
adjacent to a newline, no two adjacent newlines, no carriage return. -/
def sGoodChar (q : List Char) : Prop :=
  (∀ c0, q.head? = some c0 → isPySpace c0 = false) ∧
  (∀ c0, q.getLast? = some c0 → isPySpace c0 = false) ∧
  pairScan badWN q = false ∧ pairScan badNN q = false ∧ '\r' ∉ q

theorem sGoodChar_pyStrip (x : List Char) (hwn : pairScan badWN x = false)
    (hnn : pairScan badNN x = false) (hcr : '\r' ∉ x) : sGoodChar (pyStrip x) := by
  refine ⟨pyStrip_head x, pyStrip_last x,
    pairScan_isInfix (pyStrip_isInfix x) hwn,
    pairScan_isInfix (pyStrip_isInfix x) hnn,
    fun hm => hcr (mem_pyStrip x '\r' hm)⟩

theorem parasOf_good (t : List Char) (hwn : pairScan badWN t = false)
    (hcr : '\r' ∉ t) : ∀ p ∈ parasOf t, sGoodChar p ∧ p ≠ [] := by
  intro p hp
  unfold parasOf at hp
  have hf := List.mem_filter.mp hp
  obtain ⟨q, hq, hpq⟩ := List.mem_map.mp hf.1
  obtain ⟨hqinf, hqnn⟩ := splitBlank_mem t q hq
  constructor
  · rw [← hpq]
    exact sGoodChar_pyStrip q (pairScan_isInfix hqinf hwn) hqnn
      (fun hm => hcr (hqinf.subset hm))
  · simpa using hf.2

/-! ## Sentence pieces -/

theorem splitSents_punc (c : Char) (rest : List Char) (h : isPunc c = true) :
    splitSents (c :: rest) = ([], [c]) :: splitSents rest := by
  show (if isPunc c then ([], [c]) :: splitSents rest
    else match splitSents rest with
      | [] => [([c], [])]
      | (s, p) :: ls => ((c :: s), p) :: ls) = _
  rw [if_pos h]

theorem splitSents_cons_ne (c : Char) (rest : List Char) (h : isPunc c = false)
    (s p : List Char) (ls : List (List Char × List Char))
    (hsp : splitSents rest = (s, p) :: ls) :
    splitSents (c :: rest) = ((c :: s), p) :: ls := by
  show (if isPunc c then ([], [c]) :: splitSents rest
    else match splitSents rest with
      | [] => [([c], [])]
      | (s, p) :: ls => ((c :: s), p) :: ls) = _
  rw [if_neg (by simp [h]), hsp]

theorem splitSents_shape : ∀ x : List Char,
    ∃ sp0 tl, splitSents x = sp0 :: tl ∧ (sp0.1 ++ sp0.2) <+: x
  | [] => ⟨([], []), [], rfl, List.nil_prefix⟩
  | c :: rest => by
    by_cases hc : isPunc c
    · refine ⟨([], [c]), splitSents rest, splitSents_punc c rest hc, ?_⟩
      show ([] ++ [c] : List Char) <+: c :: rest
      rw [List.nil_append]
      exact ⟨rest, rfl⟩
    · obtain ⟨⟨s, p⟩, tl, hsp, hpre⟩ := splitSents_shape rest
      refine ⟨((c :: s), p), tl,
        splitSents_cons_ne c rest (by simpa using hc) s p tl hsp, ?_⟩
      show (c :: s) ++ p <+: c :: rest
      obtain ⟨u, hu⟩ := hpre
      refine ⟨u, ?_⟩
      show c :: (s ++ p ++ u) = c :: rest
      rw [hu]

theorem headBad_of_isPrefix {bad : Char → Char → Bool} {y rest : List Char} (c : Char)
    (hpre : y <+: rest) (hscan : pairScan bad (c :: rest) = false) :
    headBad bad c y = false := by
  cases y with
  | nil => rfl
  | cons d w =>
    obtain ⟨u, hu⟩ := hpre
    have hrest : rest = d :: (w ++ u) := by rw [← hu]; rfl
    rw [pairScan_cons, hrest] at hscan
    show bad c d = false
    cases hh : headBad bad c (d :: (w ++ u)) with
    | false => exact hh
    | true => rw [hh] at hscan; simp at hscan

theorem splitSents_good : ∀ x : List Char, pairScan badWN x = false →
    pairScan badNN x = false →
    ∀ sp ∈ splitSents x,
      pairScan badWN (sp.1 ++ sp.2) = false ∧
      pairScan badNN (sp.1 ++ sp.2) = false ∧
      ∀ c0 ∈ sp.1 ++ sp.2, c0 ∈ x
  | [], _, _ => by
    intro sp hsp
    have hs : sp = ([], []) := by simpa [splitSents] using hsp
    subst hs
    exact ⟨rfl, rfl, by simp⟩
  | c :: rest, hwn, hnn => by
    intro sp hsp
    have hwnr : pairScan badWN rest = false := pairScan_cons_false hwn
    have hnnr : pairScan badNN rest = false := pairScan_cons_false hnn
    by_cases hc : isPunc c
    · rw [splitSents_punc c rest hc] at hsp
      rcases List.mem_cons.mp hsp with h1 | h1
      · subst h1
        refine ⟨rfl, rfl, ?_⟩
        intro c0 h0
        have : c0 = c := by simpa using h0
        simp [this]
      · obtain ⟨hw, hn, hm⟩ := splitSents_good rest hwnr hnnr sp h1
        exact ⟨hw, hn, fun c0 h0 => List.mem_cons_of_mem c (hm c0 h0)⟩
    · obtain ⟨⟨s, p⟩, tl, hspr, hpre⟩ := splitSents_shape rest
      rw [splitSents_cons_ne c rest (by simpa using hc) s p tl hspr] at hsp
      rcases List.mem_cons.mp hsp with h1 | h1
      · subst h1
        obtain ⟨hw1, hn1, hm1⟩ := splitSents_good rest hwnr hnnr (s, p)
          (by rw [hspr]; exact List.mem_cons_self _ _)
        have hcat : ((c :: s), p).1 ++ ((c :: s), p).2 = c :: (s ++ p) := rfl
        rw [hcat]
        refine ⟨?_, ?_, ?_⟩
        · rw [pairScan_cons, headBad_of_isPrefix c hpre hwn, hw1]
          rfl
        · rw [pairScan_cons, headBad_of_isPrefix c hpre hnn, hn1]
          rfl
        · intro c0 h0
          rcases List.mem_cons.mp h0 with h2 | h2
          · simp [h2]
          · exact List.mem_cons_of_mem c (hm1 c0 h2)
      · obtain ⟨hw, hn, hm⟩ := splitSents_good rest hwnr hnnr sp
          (by rw [hspr]; exact List.mem_cons_of_mem _ h1)
        exact ⟨hw, hn, fun c0 h0 => List.mem_cons_of_mem c (hm c0 h0)⟩

theorem sGoodChar_append (a b : List Char) (ha : sGoodChar a) (hb : sGoodChar b)
    (hna : a ≠ []) (hnb : b ≠ []) : sGoodChar (a ++ b) := by
  obtain ⟨hah, hal, hawn, hann, hacr⟩ := ha
  obtain ⟨hbh, hbl, hbwn, hbnn, hbcr⟩ := hb
  have hla : a.getLast? = some (a.getLast hna) := List.getLast?_eq_getLast a hna
  have hlaws : isPySpace (a.getLast hna) = false := hal _ hla
  have hjoin : ∀ bad : Char → Char → Bool,
      (∀ d, bad (a.getLast hna) d = false) → joinBad bad a b = false := by
    intro bad hbad
    unfold joinBad
    rw [hla]
    cases b with
    | nil => exact absurd rfl hnb
    | cons d w => exact hbad d
  have hlan : ¬a.getLast hna = '\n' := by
    intro h0
    rw [h0] at hlaws
    exact absurd hlaws (by decide)
  refine ⟨?_, ?_, ?_, ?_, ?_⟩
  · intro c0 h0
    apply hah c0
    rw [prefix_head? (⟨b, rfl⟩ : a <+: a ++ b) hna]
    exact h0
  · intro c0 h0
    apply hbl c0
    rw [← List.getLast?_append_of_ne_nil a hnb]
    exact h0
  · rw [pairScan_append, hawn, hbwn, hjoin badWN ?wn]
    · rfl
    case wn =>
      intro d
      unfold badWN
      rw [wsX_of_not_ws _ hlaws]
      simp [hlan]
  · rw [pairScan_append, hann, hbnn, hjoin badNN ?nn]
    · rfl
    case nn =>
      intro d
      unfold badNN
      simp [hlan]
  · intro hm
    rcases List.mem_append.mp hm with h1 | h1
    · exact hacr h1
    · exact hbcr h1

theorem sentLoop_cons_eq (maxc : Nat) (buf : List Char) (acc : List (List Char))
    (seg punc : List Char) (rest : List (List Char × List Char)) :
    sentLoop maxc buf acc ((seg, punc) :: rest) =
      (if pyStrip (seg ++ punc) = [] then sentLoop maxc buf acc rest
       else if buf.length + (pyStrip (seg ++ punc)).length + 1 ≤ maxc then
         sentLoop maxc (buf ++ pyStrip (seg ++ punc)) acc rest
       else
         sentLoop maxc (pyStrip (seg ++ punc))
           (acc ++ (if buf = [] then [] else [buf])) rest) := rfl

theorem sentLoop_good (maxc : Nat) :
    ∀ (pairs : List (List Char × List Char)) (buf : List Char)
      (acc : List (List Char)),
    (buf = [] ∨ (sGoodChar buf ∧ buf ≠ [])) →
    (∀ a ∈ acc, sGoodChar a ∧ a ≠ []) →
    (∀ sp ∈ pairs, pairScan badWN (sp.1 ++ sp.2) = false ∧
      pairScan badNN (sp.1 ++ sp.2) = false ∧ '\r' ∉ sp.1 ++ sp.2) →
    ∀ s ∈ sentLoop maxc buf acc pairs, sGoodChar s ∧ s ≠ []
  | [], buf, acc, hbuf, hacc, _ => by
    intro s hs
    show sGoodChar s ∧ s ≠ []
    have hs2 : s ∈ acc ++ (if buf = [] then [] else [buf]) := hs
    rcases List.mem_append.mp hs2 with h1 | h1
    · exact hacc s h1
    · rcases hbuf with hb | hb
      · rw [if_pos hb] at h1
        exact absurd h1 (List.not_mem_nil s)
      · rw [if_neg hb.2] at h1
        have : s = buf := List.mem_singleton.mp h1
        subst this
        exact hb
  | (seg, punc) :: rest, buf, acc, hbuf, hacc, hpairs => by
    intro s hs
    rw [sentLoop_cons_eq] at hs
    have hsp := hpairs (seg, punc) (List.mem_cons_self _ _)
    have hrest : ∀ sp ∈ rest, pairScan badWN (sp.1 ++ sp.2) = false ∧
        pairScan badNN (sp.1 ++ sp.2) = false ∧ '\r' ∉ sp.1 ++ sp.2 :=
      fun sp hm => hpairs sp (List.mem_cons_of_mem _ hm)
    by_cases hp : pyStrip (seg ++ punc) = []
    · rw [if_pos hp] at hs
      exact sentLoop_good maxc rest buf acc hbuf hacc hrest s hs
    · rw [if_neg hp] at hs
      have hgood : sGoodChar (pyStrip (seg ++ punc)) :=
        sGoodChar_pyStrip _ hsp.1 hsp.2.1 (fun hm => hsp.2.2 hm)
      by_cases hfit : buf.length + (pyStrip (seg ++ punc)).length + 1 ≤ maxc
      · rw [if_pos hfit] at hs
        apply sentLoop_good maxc rest (buf ++ pyStrip (seg ++ punc)) acc ?bok hacc hrest s hs
        case bok =>
          rcases hbuf with hb | hb
          · subst hb
            right
            rw [List.nil_append]
            exact ⟨hgood, hp⟩
          · right
            refine ⟨sGoodChar_append buf _ hb.1 hgood hb.2 hp, by simp [hb.2]⟩
      · rw [if_neg hfit] at hs
        apply sentLoop_good maxc rest (pyStrip (seg ++ punc))
          (acc ++ (if buf = [] then [] else [buf])) ?bok2 ?acc2 hrest s hs
        case bok2 => exact Or.inr ⟨hgood, hp⟩
        case acc2 =>
          intro a hm
          rcases List.mem_append.mp hm with h1 | h1
          · exact hacc a h1
          · rcases hbuf with hb | hb
            · rw [if_pos hb] at h1
              exact absurd h1 (List.not_mem_nil a)
            · rw [if_neg hb.2] at h1
              have : a = buf := List.mem_singleton.mp h1
              subst this
              exact hb

/-! ## Hard slices -/

theorem hardSplit_zero : ∀ s : List Char, hardSplit 0 s = []
  | [] => rfl
  | c :: cs => by
    show hardSplitAux 0 (c :: cs).length (c :: cs) = []
    rw [List.length_cons]
    show (if (0 : Nat) = 0 then []
      else (c :: cs).take 0 :: hardSplitAux 0 cs.length ((c :: cs).drop 0)) = []
    rw [if_pos rfl]

theorem hardSplit_mem : ∀ (n maxc : Nat) (s : List Char), s.length ≤ n →
    (∀ c0, s.getLast? = some c0 → isPySpace c0 = false) →
    ∀ sl ∈ hardSplit maxc s,
      sl <:+: s ∧ sl ≠ [] ∧ (wsOnly sl = true → sl.length = maxc)
  | n, maxc, s, hlen, hlast => by
    by_cases hm : maxc = 0
    · subst hm
      rw [hardSplit_zero]
      intro sl hsl
      exact absurd hsl (List.not_mem_nil sl)
    · cases s with
      | nil =>
        intro sl hsl
        exact absurd hsl (List.not_mem_nil sl)
      | cons c cs =>
        cases n with
        | zero => exact absurd hlen (by simp)
        | succ n2 =>
          intro sl hsl
          rw [hardSplit_step maxc (c :: cs) hm (by simp)] at hsl
          rcases List.mem_cons.mp hsl with h1 | h1
          · subst h1
            obtain ⟨m, hm2⟩ : ∃ m, maxc = m + 1 := ⟨maxc - 1, by omega⟩
            refine ⟨(List.take_prefix maxc (c :: cs)).isInfix, ?_, ?_⟩
            · rw [hm2, List.take_succ_cons]
              simp
            · intro hws
              by_cases hlc : (c :: cs).length ≤ maxc
              · exfalso
                rw [List.take_of_length_le hlc] at hws
                have hg := List.getLast?_eq_getLast (c :: cs) (by simp)
                have h2 := hlast _ hg
                have h3 := (wsOnly_iff _).mp hws _ (List.getLast_mem (by simp))
                rw [h2] at h3
                exact absurd h3 (by simp)
              · rw [List.length_take]
                omega
          · rcases hd : (c :: cs).drop maxc with _ | ⟨d, ds⟩
            · rw [hd] at h1
              have : hardSplit maxc [] = [] := by
                show hardSplitAux maxc 0 [] = []
                rfl
              rw [this] at h1
              exact absurd h1 (List.not_mem_nil sl)
            · rw [hd] at h1
              have hlen2 : (d :: ds).length ≤ n2 := by
                have h2 : ((c :: cs).drop maxc).length = (c :: cs).length - maxc := by
                  simp
                rw [hd] at h2
                simp only [List.length_cons] at h2 hlen ⊢
                omega
              have hlast2 : ∀ c0, (d :: ds).getLast? = some c0 →
                  isPySpace c0 = false := by
                intro c0 h0
                apply hlast c0
                rw [← suffix_getLast? (hd ▸ List.drop_suffix maxc (c :: cs)) (by simp)]
                exact h0
              obtain ⟨hinf, hne, hws⟩ :=
                hardSplit_mem n2 maxc (d :: ds) hlen2 hlast2 sl h1
              refine ⟨hinf.trans (hd ▸ List.drop_suffix maxc (c :: cs)).isInfix,
                hne, hws⟩

/-! ## The shape of every expanded piece -/

/-- A piece handed to the chunk-packing loop: non-empty, no carriage return,
no whitespace adjacent to a newline, and either every whitespace-only line is
empty or the piece is a whitespace-only newline-free hard slice of full
width `maxc`. -/
def pieceOk (maxc : Nat) (p : List Char) : Prop :=
  p ≠ [] ∧ '\r' ∉ p ∧ pairScan badWN p = false ∧
  (okLines p ∨ (wsOnly p = true ∧ '\n' ∉ p ∧ p.length = maxc))

theorem pieceOk_of_sGoodChar (maxc : Nat) (p : List Char) (h : sGoodChar p)
    (hne : p ≠ []) : pieceOk maxc p :=
  ⟨hne, h.2.2.2.2, h.2.2.1, Or.inl (okLines_of_noWN_head p h.2.2.1 h.1)⟩

theorem splitLongPara_good (maxc : Nat) (para : List Char) (hg : sGoodChar para)
    (hne : para ≠ []) : ∀ p ∈ splitLongPara maxc para, pieceOk maxc p := by
  intro p hp
  unfold splitLongPara at hp
  by_cases hle : para.length ≤ maxc
  · rw [if_pos hle] at hp
    have hpp : p = para := List.mem_singleton.mp hp
    subst hpp
    exact pieceOk_of_sGoodChar maxc p hg hne
  · rw [if_neg hle] at hp
    obtain ⟨s, hs, hps⟩ := List.mem_flatMap.mp hp
    have hsp := sentLoop_good maxc (splitSents para) [] [] (Or.inl rfl) (by simp)
      (fun sp hm => by
        obtain ⟨h1, h2, h3⟩ := splitSents_good para hg.2.2.1 hg.2.2.2.1 sp hm
        exact ⟨h1, h2, fun hcr => hg.2.2.2.2 (h3 '\r' hcr)⟩) s hs
    by_cases hsl : s.length ≤ maxc
    · rw [if_pos hsl] at hps
      have hpp : p = s := List.mem_singleton.mp hps
      subst hpp
      exact pieceOk_of_sGoodChar maxc p hsp.1 hsp.2
    · rw [if_neg hsl] at hps
      obtain ⟨hinf, hnen, hwlen⟩ :=
        hardSplit_mem s.length maxc s (Nat.le_refl _) hsp.1.2.1 p hps
      refine ⟨hnen, fun hcr => hsp.1.2.2.2.2 (hinf.subset hcr),
        pairScan_isInfix hinf hsp.1.2.2.1, ?_⟩
      rcases okLines_of_noWN p.length p (Nat.le_refl _)
          (pairScan_isInfix hinf hsp.1.2.2.1) with hok | ⟨hws, hnl⟩
      · left; exact hok
      · right; exact ⟨hws, hnl, hwlen hws⟩

theorem expandedOf_good (maxc : Nat) (t : List Char)
    (hwn : pairScan badWN t = false) (hcr : '\r' ∉ t) :
    ∀ p ∈ expandedOf maxc t, pieceOk maxc p := by
  intro p hp
  unfold expandedOf at hp
  obtain ⟨para, hpara, hpp⟩ := List.mem_flatMap.mp hp
  obtain ⟨hg, hne⟩ := parasOf_good t hwn hcr para hpara
  exact splitLongPara_good maxc para hg hne p hpp

/-! ## Re-seeding the buffer: `strip()` of tail + separator + piece -/

theorem okLines_dropLeadWs : ∀ x : List Char,
    (∀ l ∈ (splitOnNL x).drop 1, wsOnly l = true → l = []) →
    okLines (dropLeadWs x)
  | [], _ => by
    intro l hl _
    have hle : l = [] := by simpa [splitOnNL, dropLeadWs] using hl
    exact hle
  | c :: r, h => by
    by_cases hws : isPySpace c
    · by_cases hc : c = '\n'
      · subst hc
        have h1 : dropLeadWs ('\n' :: r) = dropLeadWs r := by
          unfold dropLeadWs
          rw [List.dropWhile_cons_of_pos (by decide)]
        rw [h1]
        apply okLines_dropLeadWs r
        intro l hl hwsl
        apply h l _ hwsl
        rw [splitOnNL_cons_nl]
        show l ∈ splitOnNL r
        exact List.mem_of_mem_drop hl
      · have h1 : dropLeadWs (c :: r) = dropLeadWs r := by
          unfold dropLeadWs
          rw [List.dropWhile_cons_of_pos (by simpa using hws)]
        rw [h1]
        apply okLines_dropLeadWs r
        intro l hl hwsl
        apply h l _ hwsl
        rw [splitOnNL_cons_ne c r hc]
        rcases hr : splitOnNL r with _ | ⟨f, ls⟩
        · exact absurd hr (splitOnNL_ne_nil r)
        · rw [hr] at hl
          unfold consHead
          simpa using hl
    · rw [dropLeadWs_id (c :: r) (fun c0 h0 => by
        have he : c = c0 := by simpa using h0
        rw [← he]
        simpa using hws)]
      intro l hl hwsl
      rw [splitOnNL_cons_ne c r (fun h0 => hws (by rw [h0]; decide))] at hl
      rcases hr : splitOnNL r with _ | ⟨f, ls⟩
      · exact absurd hr (splitOnNL_ne_nil r)
      · rw [hr] at hl
        unfold consHead at hl
        rcases List.mem_cons.mp hl with h1 | h1
        · exfalso
          subst h1
          have := (wsOnly_iff _).mp hwsl c (by simp)
          rw [this] at hws
          exact hws rfl
        · apply h l _ hwsl
          rw [splitOnNL_cons_ne c r (fun h0 => hws (by rw [h0]; decide)), hr]
          unfold consHead
          simpa using h1

theorem splitOnNL_concat_shape : ∀ (x : List Char) (a : Char), ¬a = '\n' →
    ∃ L g, splitOnNL x = L ++ [g] ∧ splitOnNL (x ++ [a]) = L ++ [g ++ [a]]
  | [], a, ha => by
    refine ⟨[], [], rfl, ?_⟩
    rw [List.nil_append,
      splitOnNL_noNL [a] (fun hm => ha (List.mem_singleton.mp hm).symm)]
    rfl
  | c :: r, a, ha => by
    obtain ⟨L, g, h1, h2⟩ := splitOnNL_concat_shape r a ha
    by_cases hc : c = '\n'
    · subst hc
      refine ⟨[] :: L, g, ?_, ?_⟩
      · rw [splitOnNL_cons_nl, h1]
        rfl
      · rw [List.cons_append, splitOnNL_cons_nl, h2]
        rfl
    · cases L with
      | nil =>
        refine ⟨[], c :: g, ?_, ?_⟩
        · rw [splitOnNL_cons_ne c r hc, h1]
          rfl
        · rw [List.cons_append, splitOnNL_cons_ne c _ hc, h2]
          rfl
      | cons m ms =>
        refine ⟨(c :: m) :: ms, g, ?_, ?_⟩
        · rw [splitOnNL_cons_ne c r hc, h1]
          rfl
        · rw [List.cons_append, splitOnNL_cons_ne c _ hc, h2]
          rfl

theorem okLines_dropTrailWs : ∀ (n : Nat) (y : List Char), y.length ≤ n →
    okLines y → okLines (dropTrailWs y)
  | 0, y, hlen, h => by
    have hy : y = [] := List.length_eq_zero.mp (Nat.le_zero.mp hlen)
    subst hy
    exact h
  | n + 1, y, hlen, h => by
    rcases List.eq_nil_or_concat y with hy | ⟨y2, a, hy⟩
    · subst hy
      exact h
    · rw [List.concat_eq_append] at hy
      subst hy
      by_cases hws : isPySpace a
      · have hlen2 : y2.length ≤ n := by
          simp only [List.length_append, List.length_cons, List.length_nil] at hlen
          omega
        by_cases ha : a = '\n'
        · subst ha
          rw [dropTrailWs_concat_ws y2 '\n' (by decide)]
          apply okLines_dropTrailWs n y2 hlen2
          intro l hl hwsl
          apply h l _ hwsl
          rw [show y2 ++ ['\n'] = y2 ++ '\n' :: ([] : List Char) from rfl,
            splitOnNL_append_nl]
          exact List.mem_append.mpr (Or.inl hl)
        · rw [dropTrailWs_concat_ws y2 a (by simpa using hws)]
          apply okLines_dropTrailWs n y2 hlen2
          obtain ⟨L, g, h1, h2⟩ := splitOnNL_concat_shape y2 a ha
          intro l hl hwsl
          rw [h1] at hl
          rcases List.mem_append.mp hl with h3 | h3
          · exact h l (by rw [h2]; exact List.mem_append.mpr (Or.inl h3)) hwsl
          · exfalso
            have hlg : l = g := List.mem_singleton.mp h3
            subst hlg
            have hga : wsOnly (l ++ [a]) = true := by
              rw [wsOnly_append, hwsl]
              simpa [wsOnly] using hws
            have := h (l ++ [a])
              (by rw [h2]; exact List.mem_append.mpr (Or.inr (by simp))) hga
            simp at this
      · rw [dropTrailWs_id _ (fun c0 h0 => by
          rw [List.getLast?_concat] at h0
          have he : a = c0 := by simpa using h0
          rw [← he]
          simpa using hws)]
        exact h

theorem okLines_pyStrip (x : List Char)
    (h : ∀ l ∈ (splitOnNL x).drop 1, wsOnly l = true → l = []) :
    okLines (pyStrip x) := by
  rw [pyStrip_decompose]
  exact okLines_dropTrailWs (dropLeadWs x).length _ (Nat.le_refl _)
    (okLines_dropLeadWs x h)

theorem okLines_pyStrip_full (x : List Char) (h : okLines x) :
    okLines (pyStrip x) :=
  okLines_pyStrip x (fun l hl hws => h l (List.mem_of_mem_drop hl) hws)

theorem pyStrip_concat_ws (z : List Char) (a : Char) (ha : isPySpace a = true) :
    pyStrip (z ++ [a]) = pyStrip z := by
  by_cases hz : wsOnly z = true
  · rw [(pyStrip_nil_iff z).mpr hz, (pyStrip_nil_iff _).mpr]
    rw [wsOnly_append, hz]
    simpa [wsOnly] using ha
  · have hdl : dropLeadWs z ≠ [] := fun h0 => hz ((dropLeadWs_nil_iff z).mp h0)
    rw [pyStrip_decompose, pyStrip_decompose]
    have hsplit : dropLeadWs (z ++ [a]) = dropLeadWs z ++ [a] := by
      unfold dropLeadWs
      rw [List.dropWhile_append]
      simp only [List.isEmpty_iff]
      have hdl2 : ¬List.dropWhile (fun c => isPySpace c) z = [] := hdl
      rw [if_neg hdl2]
    rw [hsplit, dropTrailWs_concat_ws _ a ha]

theorem pyStrip_append_wsOnly : ∀ (n : Nat) (b : List Char), b.length ≤ n →
    wsOnly b = true → ∀ x, pyStrip (x ++ b) = pyStrip x
  | 0, b, hlen, _, x => by
    have hb : b = [] := List.length_eq_zero.mp (Nat.le_zero.mp hlen)
    subst hb
    rw [List.append_nil]
  | n + 1, b, hlen, hws, x => by
    rcases List.eq_nil_or_concat b with hb | ⟨b2, a, hb⟩
    · subst hb
      rw [List.append_nil]
    · rw [List.concat_eq_append] at hb
      subst hb
      rw [← List.append_assoc,
        pyStrip_concat_ws (x ++ b2) a
          ((wsOnly_iff _).mp hws a (by simp)),
        pyStrip_append_wsOnly n b2
          (by simp only [List.length_append, List.length_cons,
            List.length_nil] at hlen; omega)
          (by rw [wsOnly_append] at hws
              exact (Bool.and_eq_true_iff.mp hws).1) x]

theorem drop_okFrom1 (buf : List Char) (k : Nat) (h : okLines buf) :
    ∀ l ∈ (splitOnNL (buf.drop k)).drop 1, wsOnly l = true → l = [] := by
  intro l hl hws
  apply h l _ hws
  have hb : buf.take k ++ buf.drop k = buf := List.take_append_drop k buf
  have h2 := mem_drop_one_append (buf.take k) (buf.drop k) l hl
  rw [hb] at h2
  exact List.mem_of_mem_drop h2

theorem okLines_join (a p : List Char) (ha : okLines a) (hp : okLines p) :
    okLines (a ++ nlnl ++ p) := by
  intro l hl hws
  have hshape : a ++ nlnl ++ p = a ++ '\n' :: ('\n' :: p) := by
    rw [List.append_assoc]
    rfl
  rw [hshape, splitOnNL_append_nl, splitOnNL_cons_nl] at hl
  rcases List.mem_append.mp hl with h1 | h1
  · exact ha l h1 hws
  · rcases List.mem_cons.mp h1 with h2 | h2
    · exact h2
    · exact hp l h2 hws

theorem okLines_nil : okLines [] := by
  intro l hl _
  have hle : l = [] := by simpa [splitOnNL] using hl
  exact hle

/-! ## The chunk-packing loop invariant -/

/-- Invariant of the running buffer of `chunkLoop`. -/
def bufOk (maxc : Nat) (b : List Char) : Prop :=
  '\r' ∉ b ∧ (okLines b ∨ (wsOnly b = true ∧ '\n' ∉ b ∧ b.length = maxc))

/-- Shape of every raw chunk the loop emits. -/
def chunkOut (c : List Char) : Prop :=
  '\r' ∉ c ∧ (okLines c ∨ wsOnly c = true)

theorem chunkOut_of_bufOk {maxc : Nat} {b : List Char} (h : bufOk maxc b) :
    chunkOut b := by
  refine ⟨h.1, ?_⟩
  rcases h.2 with h1 | h1
  · exact Or.inl h1
  · exact Or.inr h1.1

theorem bufOk_of_pieceOk {maxc : Nat} {p : List Char} (h : pieceOk maxc p) :
    bufOk maxc p := by
  refine ⟨h.2.1, ?_⟩
  rcases h.2.2.2 with h1 | h1
  · exact Or.inl h1
  · exact Or.inr h1

theorem chunkTail_eq_drop (ov : Nat) (buf : List Char)
    (ht : chunkTail ov buf ≠ []) :
    chunkTail ov buf = buf.drop (buf.length - ov) := by
  unfold chunkTail at ht ⊢
  by_cases hc : 0 < ov ∧ ov < buf.length
  · rw [if_pos hc]
    rfl
  · rw [if_neg hc] at ht
    exact absurd rfl ht

theorem nextBuf_ok (maxc ov : Nat) (buf p : List Char) (hbuf : bufOk maxc buf)
    (hp : pieceOk maxc p) : bufOk maxc (nextBuf ov buf p) := by
  unfold nextBuf
  by_cases ht : chunkTail ov buf = []
  · rw [if_pos ht]
    exact bufOk_of_pieceOk hp
  · rw [if_neg ht]
    have htd := chunkTail_eq_drop ov buf ht
    have htsub : ∀ c0, c0 ∈ chunkTail ov buf → c0 ∈ buf := by
      intro c0 h0
      rw [htd] at h0
      exact List.mem_of_mem_drop h0
    constructor
    · intro hm
      have h1 := mem_pyStrip _ _ hm
      rcases List.mem_append.mp h1 with h2 | h2
      · rcases List.mem_append.mp h2 with h3 | h3
        · exact hbuf.1 (htsub '\r' h3)
        · exact absurd h3 (by decide)
      · exact hp.2.1 h2
    · left
      rcases hbuf.2 with hok | hws3
      · rcases hp.2.2.2 with hpok | hpws
        · have hshape : chunkTail ov buf ++ nlnl ++ p =
              chunkTail ov buf ++ '\n' :: ('\n' :: p) := by
            rw [List.append_assoc]
            rfl
          rw [hshape]
          apply okLines_pyStrip
          intro l hl hwsl
          rw [splitOnNL_append_nl, splitOnNL_cons_nl] at hl
          rcases hT : splitOnNL (chunkTail ov buf) with _ | ⟨t0, T2⟩
          · exact absurd hT (splitOnNL_ne_nil _)
          · rw [hT] at hl
            have hl2 : l ∈ T2 ++ [] :: splitOnNL p := by simpa using hl
            rcases List.mem_append.mp hl2 with h1 | h1
            · apply drop_okFrom1 buf (buf.length - ov) hok l _ hwsl
              rw [← htd, hT]
              simpa using h1
            · rcases List.mem_cons.mp h1 with h2 | h2
              · exact h2
              · exact hpok l h2 hwsl
        · have hws2 : wsOnly (nlnl ++ p) = true := by
            rw [wsOnly_append, hpws.1]
            rfl
          rw [List.append_assoc,
            pyStrip_append_wsOnly (nlnl ++ p).length _ (Nat.le_refl _) hws2]
          apply okLines_pyStrip
          intro l hl hwsl
          apply drop_okFrom1 buf (buf.length - ov) hok l _ hwsl
          rw [← htd]
          exact hl
      · have hwst : wsOnly (chunkTail ov buf) = true := by
          rw [wsOnly_iff]
          intro c0 h0
          exact (wsOnly_iff buf).mp hws3.1 c0 (htsub c0 h0)
        have hwstn : wsOnly (chunkTail ov buf ++ nlnl) = true := by
          rw [wsOnly_append, hwst]
          rfl
        rw [pyStrip_ws_append _ p hwstn]
        rcases hp.2.2.2 with hpok | hpws
        · exact okLines_pyStrip_full p hpok
        · rw [(pyStrip_nil_iff p).mpr hpws.1]
          exact okLines_nil

theorem chunkLoop_cons_eq (maxc ov : Nat) (buf : List Char)
    (chunks : List (List Char)) (p : List Char) (ps : List (List Char)) :
    chunkLoop maxc ov buf chunks (p :: ps) =
      (if buf = [] then chunkLoop maxc ov p chunks ps
       else if buf.length + 2 + p.length ≤ maxc then
         chunkLoop maxc ov (buf ++ nlnl ++ p) chunks ps
       else chunkLoop maxc ov (nextBuf ov buf p) (chunks ++ [buf]) ps) := rfl

theorem chunkLoop_inv (maxc ov : Nat) :
    ∀ (ps : List (List Char)) (buf : List Char) (chunks : List (List Char)),
    bufOk maxc buf → (∀ c ∈ chunks, chunkOut c) →
    (∀ p ∈ ps, pieceOk maxc p) →
    ∀ c ∈ chunkLoop maxc ov buf chunks ps, chunkOut c
  | [], buf, chunks, hbuf, hch, _ => by
    intro c hc
    have hc2 : c ∈ chunks ++ (if buf = [] then [] else [buf]) := hc
    rcases List.mem_append.mp hc2 with h1 | h1
    · exact hch c h1
    · by_cases hb : buf = []
      · rw [if_pos hb] at h1
        exact absurd h1 (List.not_mem_nil c)
      · rw [if_neg hb] at h1
        have he : c = buf := List.mem_singleton.mp h1
        subst he
        exact chunkOut_of_bufOk hbuf
  | p :: ps, buf, chunks, hbuf, hch, hps => by
    intro c hc
    rw [chunkLoop_cons_eq] at hc
    have hp := hps p (List.mem_cons_self _ _)
    have hrest : ∀ q ∈ ps, pieceOk maxc q :=
      fun q hm => hps q (List.mem_cons_of_mem _ hm)
    by_cases hb : buf = []
    · rw [if_pos hb] at hc
      exact chunkLoop_inv maxc ov ps p chunks (bufOk_of_pieceOk hp) hch hrest c hc
    · rw [if_neg hb] at hc
      by_cases hfit : buf.length + 2 + p.length ≤ maxc
      · rw [if_pos hfit] at hc
        apply chunkLoop_inv maxc ov ps (buf ++ nlnl ++ p) chunks ?bok hch hrest c hc
        case bok =>
          constructor
          · intro hm
            rcases List.mem_append.mp hm with h2 | h2
            · rcases List.mem_append.mp h2 with h3 | h3
              · exact hbuf.1 h3
              · exact absurd h3 (by decide)
            · exact hp.2.1 h2
          · left
            rcases hbuf.2 with hok | ⟨_, _, hlen⟩
            · rcases hp.2.2.2 with hpok | ⟨_, _, hplen⟩
              · exact okLines_join buf p hok hpok
              · exfalso
                omega
            · exfalso
              omega
      · rw [if_neg hfit] at hc
        apply chunkLoop_inv maxc ov ps (nextBuf ov buf p) (chunks ++ [buf])
          (nextBuf_ok maxc ov buf p hbuf hp) ?ch hrest c hc
        case ch =>
          intro c2 hm
          rcases List.mem_append.mp hm with h1 | h1
          · exact hch c2 h1
          · have he : c2 = buf := List.mem_singleton.mp h1
            subst he
            exact chunkOut_of_bufOk hbuf

theorem chunkRaw_eq (text : List Char) (maxc ov : Nat) :
    chunkRaw text maxc ov =
      (if clean_text text = [] then []
       else chunkLoop maxc ov [] [] (expandedOf maxc (clean_text text))) := rfl

theorem chunkRaw_out (text : List Char) (maxc ov : Nat) :
    ∀ c ∈ chunkRaw text maxc ov, chunkOut c := by
  intro c hc
  rw [chunkRaw_eq] at hc
  by_cases h0 : clean_text text = []
  · rw [if_pos h0] at hc
    exact absurd hc (List.not_mem_nil c)
  · rw [if_neg h0] at hc
    exact chunkLoop_inv maxc ov (expandedOf maxc (clean_text text)) [] []
      ⟨by simp, Or.inl okLines_nil⟩ (by simp)
      (expandedOf_good maxc (clean_text text)
        (noWN_of_linesStripped _ (clean_text_linesStripped text))
        (clean_text_noCR text))
      c hc

/-- C10: every chunk returned by `chunk_text` is non-empty and a fixed point
of `clean_text`; and content that cleans to the empty string yields the
empty chunk list. -/
theorem C10_chunks_clean_fixed (text : List Char) (maxc ov : Nat) :
    (∀ c ∈ chunk_text text maxc ov, ¬c = [] ∧ clean_text c = c) ∧
    (clean_text text = [] → chunk_text text maxc ov = []) := by
  constructor
  · intro c hc
    unfold chunk_text at hc
    have hmf := List.mem_filter.mp hc
    obtain ⟨c0, hc0, hcc⟩ := List.mem_map.mp hmf.1
    have hne : ¬c = [] := by simpa using hmf.2
    refine ⟨hne, ?_⟩
    have hout : chunkOut c0 := chunkRaw_out text maxc ov c0 hc0
    rcases hout.2 with hok | hws
    · rw [← hcc]
      exact clean_text_fixed (clean_text c0)
        (clean_text_noCR c0)
        (clean_text_noTriple c0 hout.1 hok)
        (clean_text_linesStripped c0)
        (clean_text_noSS c0)
        (clean_text_stripped c0)
    · exfalso
      apply hne
      rw [← hcc, clean_text_of_wsOnly c0 hws]
  · intro h0
    unfold chunk_text
    rw [chunkRaw_eq, if_pos h0]
    rfl

end TaxRag
